import Mathlib

/-!
# Verification of the bad-server file-ingestion pipeline

Shallow embedding of the upload pipeline of this repository:
`src/backend/src/middlewares/file.ts`, `src/backend/src/controllers/upload.ts`
and `src/backend/src/routes/upload.ts`, together with models of the two
third-party functions those files delegate to: the `xss` npm package
(invoked by `sanitizeSVG`) and the `fileTypeFromBuffer` function of the
`file-type` npm package (invoked by `validateFileType`).

Strings are modelled as `List Char`; file contents are byte lists read as
characters with code = byte value (the code reads the staged file with a
byte-preserving view; UTF-8 decoding subtleties are not modelled and no
claim depends on them).
-/

namespace BadServer

/-- Convenience: a Lean string literal as a character list. -/
def s2l (s : String) : List Char := s.toList

/-! ## JavaScript string helpers (as used by the xss package, lib/util.js)

`isSpaceJS` models the regex `/\s|\n|\t/` on ASCII input (the unicode
space classes of JS `\s` are not modelled; no claim involves them). -/

def isSpaceJS (c : Char) : Bool :=
  c = ' ' || c = '\t' || c = '\n' || c = '\x0d' || c = '\x0b' || c = '\x0c'

/-- JS `String.prototype.trim` (ASCII whitespace). -/
def trimJS (s : List Char) : List Char :=
  ((s.dropWhile isSpaceJS).reverse.dropWhile isSpaceJS).reverse

/-- JS `a.startsWith(pat)` / prefix test on character lists. -/
def startsWithL : List Char → List Char → Bool
  | [], _ => true
  | _ :: _, [] => false
  | p :: ps, c :: cs => p = c && startsWithL ps cs

/-- JS `hay.includes(pat)`: substring containment. -/
def containsL (pat : List Char) : List Char → Bool
  | [] => pat.isEmpty
  | c :: rest => startsWithL pat (c :: rest) || containsL pat rest

/-! ## Escaping helpers of the xss package (lib/default.js)

`escHtml` models `escapeHtml` (replace `<` and `>` by entities).
`escQuote` models `escapeQuote` (replace `"` by `&quot;`).
`unescapeQuote` models `unescapeQuote` (replace `&quot;` by `"`). -/

def escHtmlChar (c : Char) : List Char :=
  if c = '<' then ['&', 'l', 't', ';']
  else if c = '>' then ['&', 'g', 't', ';']
  else [c]

def escHtml (s : List Char) : List Char := s.flatMap escHtmlChar

def escQuote : List Char → List Char
  | [] => []
  | '"' :: r => '&' :: 'q' :: 'u' :: 'o' :: 't' :: ';' :: escQuote r
  | c :: r => c :: escQuote r

def unescapeQuote : List Char → List Char
  | '&' :: 'q' :: 'u' :: 'o' :: 't' :: ';' :: r => '"' :: unescapeQuote r
  | c :: r => c :: unescapeQuote r
  | [] => []

/-! ## friendlyAttrValue of the xss package (lib/default.js)

`escapeHtmlEntities` decodes numeric character references with the global
replace `/&#([a-zA-Z0-9]*);?/gim` (the code is parsed by `parseInt` in base
10, or base 16 after a leading `x`/`X`, and rendered by
`String.fromCharCode`; the replacement text is not rescanned).
`escapeDangerHtml5Entities` replaces `&colon;?` by `:` and `&newline;?` by a
space, case-insensitively.  `clearNonPrintableCharacter` turns every
character of code below 32 into a space and trims the result.
`String.fromCharCode` truncates its argument to a UTF-16 code unit and maps
`NaN` to 0; the unpaired-surrogate code units it can produce are not Lean
characters and are mapped to NUL here (no claim involves them). -/

def isAlnumJS (c : Char) : Bool := c.isAlpha || c.isDigit

def isHexDigitJS (c : Char) : Bool :=
  c.isDigit || ('a' ≤ c && c ≤ 'f') || ('A' ≤ c && c ≤ 'F')

def hexVal (c : Char) : Nat :=
  if c.isDigit then c.toNat - 48 else if c ≤ 'F' then c.toNat - 55 else c.toNat - 87

/-- JS `parseInt(s, 10)` on an alphanumeric string: the longest leading run
of decimal digits, `none` for the empty run (`NaN`). -/
def parseIntDec (l : List Char) : Option Nat :=
  if l.takeWhile Char.isDigit = [] then none
  else some ((l.takeWhile Char.isDigit).foldl (fun a c => a * 10 + (c.toNat - 48)) 0)

/-- JS `parseInt(s, 16)`: an optional `0x`/`0X` prefix, then the longest
leading run of hexadecimal digits, `none` for the empty run. -/
def parseIntHex (l : List Char) : Option Nat :=
  let l2 := match l with
    | '0' :: 'x' :: r => r
    | '0' :: 'X' :: r => r
    | r => r
  if l2.takeWhile isHexDigitJS = [] then none
  else some ((l2.takeWhile isHexDigitJS).foldl (fun a c => a * 16 + hexVal c) 0)

/-- JS `String.fromCharCode`: `NaN` becomes 0, other numbers are truncated
to 16 bits (with the surrogate caveat above). -/
def fromCharCode : Option Nat → Char
  | none => Char.ofNat 0
  | some n => Char.ofNat (n % 65536)

/-- The replacement for one matched `&#code;?` reference. -/
def entityChar (code : List Char) : Char :=
  if code.head? = some 'x' || code.head? = some 'X' then
    fromCharCode (parseIntHex code.tail)
  else fromCharCode (parseIntDec code)

/-- One left-to-right pass of the numeric-reference replace; the fuel is the
input length (each step consumes at least one character). -/
def decodeEntitiesGo : Nat → List Char → List Char
  | 0, l => l
  | _ + 1, [] => []
  | f + 1, c :: r =>
    if c = '&' && r.head? = some '#' then
      entityChar (r.tail.takeWhile isAlnumJS) ::
        decodeEntitiesGo f
          (let rest := r.tail.dropWhile isAlnumJS
           if rest.head? = some ';' then rest.tail else rest)
    else c :: decodeEntitiesGo f r

def escapeHtmlEntities (l : List Char) : List Char := decodeEntitiesGo l.length l

/-- Case-insensitive match of a lowercase literal pattern at the head. -/
def ciMatch : List Char → List Char → Bool
  | [], _ => true
  | _ :: _, [] => false
  | p :: ps, c :: cs => c.toLower = p && ciMatch ps cs

/-- One left-to-right pass of `.replace(/&pat;?/gim, rep)` for a literal
lowercase pattern `pat`. -/
def replEntGo (pat : List Char) (rep : Char) : Nat → List Char → List Char
  | 0, l => l
  | _ + 1, [] => []
  | f + 1, c :: r =>
    if c = '&' && ciMatch pat r then
      rep :: replEntGo pat rep f
        (let rest := r.drop pat.length
         if rest.head? = some ';' then rest.tail else rest)
    else c :: replEntGo pat rep f r

def replaceEnt (pat : List Char) (rep : Char) (l : List Char) : List Char :=
  replEntGo pat rep l.length l

def escapeDangerHtml5Entities (l : List Char) : List Char :=
  replaceEnt (s2l "newline") ' ' (replaceEnt (s2l "colon") ':' l)

def clearNonPrintableCharacter (l : List Char) : List Char :=
  trimJS (l.map (fun c => if c.toNat < 32 then ' ' else c))

def friendlyAttrValue (v : List Char) : List Char :=
  clearNonPrintableCharacter (escapeDangerHtml5Entities
    (escapeHtmlEntities (unescapeQuote v)))

/-! ## The tag tokenizer (xss package, lib/parser.js, `parseTag`)

The scanner walks the input once.  Outside a tag it accumulates text until
a `<`.  Inside a tag it ends the tag at `>` or at the last input character,
restarts the tag at a further `<` (flushing the partial tag as text), and
enters a quoted region when a quote directly follows `=` (skipping spaces),
inside which `<` and `>` are ordinary characters.  A tag left open at the
end of input (inside a quote, or right after a restart) is flushed as text,
mirroring the source's final `escapeHtml(html.substr(lastPos))`.
Adjacent text emissions are merged into one token; the concatenated output
is identical to the source's. -/

inductive Tok where
  | txt (s : List Char)
  | tag (raw : List Char)
deriving DecidableEq

/-- `emitTxt acc toks` prepends a text token for `acc` unless it is empty. -/
def emitTxt (acc : List Char) (toks : List Tok) : List Tok :=
  if acc = [] then toks else Tok.txt acc :: toks

/-- One-pass scanner.  `tg = some (g, eqP, q)` means we are inside a tag with
accumulated raw characters `g`, `eqP` records whether the last non-space
tag character was `=`, and `q` is the active quote character if any. -/
def scan (tAcc : List Char) (tg : Option (List Char × Bool × Option Char)) :
    List Char → List Tok
  | [] =>
    match tg with
    | none => emitTxt tAcc []
    | some (g, _, _) => emitTxt (tAcc ++ g) []
  | c :: rest =>
    match tg with
    | none =>
      if c = '<' then scan tAcc (some (['<'], false, none)) rest
      else scan (tAcc ++ [c]) none rest
    | some (g, eqP, q?) =>
      match q? with
      | some q =>
        if c = q then scan tAcc (some (g ++ [c], false, none)) rest
        else scan tAcc (some (g ++ [c], eqP, some q)) rest
      | none =>
        if c = '<' then
          scan (tAcc ++ g) (some (['<'], false, none)) rest
        else if c = '>' || rest.isEmpty then
          emitTxt tAcc (Tok.tag (g ++ [c]) :: scan [] none rest)
        else if (c = '"' || c = '\'') && eqP then
          scan tAcc (some (g ++ [c], false, some c)) rest
        else
          scan tAcc (some (g ++ [c], (if c = ' ' then eqP else decide (c = '=')), none)) rest

def tokenize (s : List Char) : List Tok := scan [] none s

/-! ## Tag-name and attribute extraction (xss package, lib/parser.js) -/

/-- Index of the first JS whitespace character,`spaceIndex`. -/
def spaceIdx (s : List Char) : Option Nat := s.findIdx? isSpaceJS

/-- `getTagName`: the lowercased tag name of a raw tag string, with the
leading `/` of a closing tag and a trailing `/` removed. -/
def getTagName (raw : List Char) : List Char :=
  let body :=
    match spaceIdx raw with
    | none => (raw.drop 1).dropLast
    | some i => (raw.take (i + 1)).drop 1
  let t := (trimJS body).map Char.toLower
  let t := match t with
    | '/' :: r => r
    | other => other
  if t.getLast? = some '/' then t.dropLast else t

/-- `isClosing`: a raw tag starting with `</`. -/
def isClosingTag (raw : List Char) : Bool := startsWithL ['<', '/'] raw

/-- `getAttrs`: the attribute substring of a raw tag (between the first
whitespace and the final `>`), plus whether the tag is self-closing. -/
def getAttrs (raw : List Char) : List Char × Bool :=
  match spaceIdx raw with
  | none => ([], raw.getD (raw.length - 2) '\x00' = '/')
  | some i =>
    let a := trimJS ((raw.drop (i + 1)).dropLast)
    if a.getLast? = some '/' then (trimJS a.dropLast, true) else (a, false)

/-! ## The attribute parser (xss package, lib/parser.js, `parseAttr`)

The source walks the attribute substring with an index `i`, a slice start
`lastPos`, a pending attribute name (`tmpName`), the position of the first
quotation mark after the last `=` (`lastMarkPos`), and two index
look-aheads (`findNextEqual` forward from a whitespace run, and
`findBeforeEqual` backward to test whether only spaces follow the `=`).
Here the same walk is a one-pass state machine over the remaining suffix:

* `base pend` — no pending name; `pend` is the slice since `lastPos`;
* `wsName pend` — no pending name and inside a whitespace run: the
  source's `findNextEqual` look-ahead, resolved by whether `=` or another
  character ends the run (the skipped spaces are trimmed away by `addAttr`
  in either resolution, and re-processing the spaces after a failed
  look-ahead emits only empty names, which `addAttr` drops);
* `val name pend valSp` — pending name after `=`; `valSp` is the source's
  backward `findBeforeEqual` test, "only spaces since the `=`"; the first
  quotation mark met in this state is exactly the source's `lastMarkPos`;
* `inQ name pend q vAcc` — inside the quoted value: the source's
  `indexOf` jump to the closing quote, resolved character by character;
  if the input ends first, the epilogue value is the source's
  `stripQuoteWrap(trim(html.slice(lastPos)))` with `slice(lastPos) =
  pend ++ q :: vAcc`.

The source's one-shot global replacement of whitespace by plain spaces is
the `norm` flag: switched on at the first whitespace processed by the
loop, after which every character is read through `normWs` (characters
consumed inside a quoted value never switch it on, exactly as the
source's `indexOf` jump skips them). -/

/-- JS `stripQuoteWrap`: remove a matching pair of wrapping quotes. -/
def stripQuoteWrap (t : List Char) : List Char :=
  if (t.head? = some '"' && t.getLast? = some '"')
      || (t.head? = some '\'' && t.getLast? = some '\'') then
    (t.drop 1).dropLast
  else t

/-- Characters the source keeps in attribute names
(`REGEXP_ILLEGAL_ATTR_NAME` removes everything else). -/
def legalAttrNameChar (c : Char) : Bool :=
  c.isAlpha || c.isDigit || c = '_' || c = ':' || c = '.' || c = '-' || c = '\\'

/-- JS `addAttr`: trim, drop illegal characters, lowercase; skip empty names;
pass the pair to `onAttr` and keep its rendering if any. -/
def addAttr {α : Type} (onAttr : List Char → List Char → Option α)
    (acc : List α) (name value : List Char) : List α :=
  let n := ((trimJS name).filter legalAttrNameChar).map Char.toLower
  if n = [] then acc
  else
    match onAttr n value with
    | some r => acc ++ [r]
    | none => acc

def normWs (c : Char) : Char := if isSpaceJS c then ' ' else c

inductive AttrSt where
  | base (pend : List Char)
  | wsName (pend : List Char)
  | val (name : List Char) (pend : List Char) (valSp : Bool)
  | inQ (name : List Char) (pend : List Char) (q : Char) (vAcc : List Char)

/-- The main loop of `parseAttr` as a state machine (see the section
comment for the correspondence with the source's index walk). -/
def parseAttrGo {α : Type} (onAttr : List Char → List Char → Option α) :
    Bool → AttrSt → List Char → List α → List α
  | _, .base pend, [], acc => addAttr onAttr acc pend []
  | _, .wsName pend, [], acc => addAttr onAttr acc pend []
  | _, .val name pend _, [], acc =>
    if pend = [] then acc
    else addAttr onAttr acc name (stripQuoteWrap (trimJS pend))
  | _, .inQ name pend q vAcc, [], acc =>
    addAttr onAttr acc name (stripQuoteWrap (trimJS (pend ++ q :: vAcc.reverse)))
  | norm, st, c0 :: r, acc =>
    let c := if norm then normWs c0 else c0
    match st with
    | .base pend =>
      if c = '=' then parseAttrGo onAttr norm (.val pend [] true) r acc
      else if isSpaceJS c then parseAttrGo onAttr true (.wsName pend) r acc
      else parseAttrGo onAttr norm (.base (pend ++ [c])) r acc
    | .wsName pend =>
      if c = '=' then parseAttrGo onAttr true (.val pend [] true) r acc
      else if isSpaceJS c then parseAttrGo onAttr true (.wsName pend) r acc
      else parseAttrGo onAttr true (.base [c]) r (addAttr onAttr acc pend [])
    | .val name pend valSp =>
      if c = '"' || c = '\'' then
        parseAttrGo onAttr norm (.inQ name pend c []) r acc
      else if isSpaceJS c then
        if valSp then parseAttrGo onAttr true (.val name (pend ++ [' ']) true) r acc
        else
          parseAttrGo onAttr true (.base []) r
            (addAttr onAttr acc name (stripQuoteWrap (trimJS pend)))
      else parseAttrGo onAttr norm (.val name (pend ++ [c]) false) r acc
    | .inQ name pend q vAcc =>
      if c = q then
        parseAttrGo onAttr norm (.base []) r
          (addAttr onAttr acc name (trimJS vAcc.reverse))
      else parseAttrGo onAttr norm (.inQ name pend q (c :: vAcc)) r acc

/-- `parseAttr` collecting the per-attribute results of `onAttr`. -/
def parseAttrCore {α : Type} (onAttr : List Char → List Char → Option α)
    (html : List Char) : List α :=
  parseAttrGo onAttr false (.base []) html []

/-- JS `Array.prototype.join(" ")`. -/
def joinSpace : List (List Char) → List Char
  | [] => []
  | [x] => x
  | x :: xs => x ++ ' ' :: joinSpace xs

/-- The string-valued `parseAttr` of the source: join with spaces and trim. -/
def parseAttrRender (onAttr : List Char → List Char → Option (List Char))
    (html : List Char) : List Char :=
  trimJS (joinSpace (parseAttrCore onAttr html))

/-! ## The xss filter with the configuration of `sanitizeSVG`
(src/backend/src/middlewares/file.ts lines 93-116) -/

/-- The per-element attribute allow-list passed to `xss` by `sanitizeSVG`. -/
def whiteListAttrs (tag : List Char) : Option (List (List Char)) :=
  if tag = s2l "svg" then some [s2l "width", s2l "height", s2l "viewBox", s2l "xmlns"]
  else if tag = s2l "path" then some [s2l "d", s2l "fill", s2l "stroke"]
  else if tag = s2l "circle" then some [s2l "cx", s2l "cy", s2l "r", s2l "fill"]
  else if tag = s2l "rect" then some [s2l "x", s2l "y", s2l "width", s2l "height", s2l "fill"]
  else if tag = s2l "g" then some []
  else if tag = s2l "title" then some []
  else none

/-- The `stripIgnoreTagBody` list passed to `xss` by `sanitizeSVG`. -/
def stripBodyTags : List (List Char) :=
  [s2l "script", s2l "iframe", s2l "object", s2l "embed"]

/-- The default `safeAttrValue` of the xss package for the attributes
reachable here: none of the allow-listed attribute names is `href`, `src`,
`background` or `style`, so the URL and CSS branches never apply and the
value handling is `escapeAttrValue(friendlyAttrValue(value))`: unescape
`&quot;`, decode numeric references, replace the dangerous HTML5 entities,
clear non-printable characters, then re-escape `"`, `<`, `>`. -/
def safeAttrValue (v : List Char) : List Char := escHtml (escQuote (friendlyAttrValue v))

/-- The `onAttr` callback used by the filter for a tag whose attribute
allow-list is `wl` (xss.js `process`): allow-listed attribute names are
re-rendered as `name="safeValue"`, or as a bare name when the safe value is
empty; other attributes are dropped (default `onIgnoreTagAttr`). -/
def onAttrRender (wl : List (List Char)) (name value : List Char) :
    Option (List Char) :=
  if name ∈ wl then
    let v := safeAttrValue value
    if v = [] then some name else some (name ++ '=' :: '"' :: (v ++ ['"']))
  else none

/-- The fate of one token under the filter. -/
inductive Piece where
  | rawTxt (s : List Char)
  | keepTag (cl : Bool) (name : List Char) (attrsHtml : List Char) (selfCl : Bool)
  | stripOpen
  | stripClose
  | dropTag
deriving DecidableEq

/-- Dispatch of one token (xss.js `process` onTag): an allow-listed tag is
rebuilt from its parsed, filtered attributes; a tag on the
`stripIgnoreTagBody` list enters the strip machinery; any other tag is
removed (`stripIgnoreTag: true`). -/
def processTok : Tok → Piece
  | .txt s => .rawTxt s
  | .tag raw =>
    let name := getTagName raw
    match whiteListAttrs name with
    | some wl =>
      let a := getAttrs raw
      .keepTag (isClosingTag raw) name (parseAttrRender (onAttrRender wl) a.1) a.2
    | none =>
      if name ∈ stripBodyTags then
        if isClosingTag raw then .stripClose else .stripOpen
      else .dropTag

/-- Rendering of one processed token, as `process` builds `rethtml`:
text is HTML-escaped, a kept tag is `<`(`/`)name(` attrs`)(` /`)`>`, and
strip-list tags leave the `[removed]` / `[/removed]` markers. -/
def renderPiece : Piece → List Char
  | .rawTxt s => escHtml s
  | .keepTag cl name ah selfCl =>
    '<' :: (if cl then '/' :: name else name)
      ++ (if ah = [] then [] else ' ' :: ah)
      ++ (if selfCl then [' ', '/'] else [])
      ++ ['>']
  | .stripOpen => s2l "[removed]"
  | .stripClose => s2l "[/removed]"
  | .dropTag => []

/-- The `StripTagBody` range removal of the xss package, reformulated over
whole processed tokens.  The source records a removal range from the
`[removed]` marker of the first unmatched opening strip-list tag through
the end of the `[/removed]` marker of the next closing strip-list tag, and
`remove` deletes the recorded ranges from the rendered output; token
renderings are contiguous, so removal never splits a token.  Equivalently,
one pass with a pending buffer: from an unmatched opening tag on, pieces
are buffered; the next closing tag discards the buffered region; a stray
closing tag (no pending opening) is itself removed (its marker is its own
recorded range); an opening tag never followed by a closing one records no
range, so its buffered pieces are restored verbatim at the end. -/
def stripFilterGo : Option (List Piece) → List Piece → List Piece
  | none, [] => []
  | some buf, [] => buf.reverse
  | none, .stripOpen :: ps => stripFilterGo (some [.stripOpen]) ps
  | none, .stripClose :: ps => stripFilterGo none ps
  | none, p :: ps => p :: stripFilterGo none ps
  | some _, .stripClose :: ps => stripFilterGo none ps
  | some buf, p :: ps => stripFilterGo (some (p :: buf)) ps

def stripFilter (ps : List Piece) : List Piece := stripFilterGo none ps

/-! ## Comment stripping (`stripCommentTag` of lib/default.js, applied by
xss.js `process` under the default `allowCommentTag: false`).  One pass: on
`<!--`, buffer until the nearest `-->` and drop the whole span; for an
unterminated `<!--` the source's `indexOf("-->")` fails and the loop breaks
before appending the rest, so everything from the `<!--` on is dropped. -/

def stripCommentGo : Option (List Char) → List Char → List Char
  | none, [] => []
  | some _, [] => []
  | some _, '-' :: '-' :: '>' :: r => stripCommentGo none r
  | some buf, c :: r => stripCommentGo (some (c :: buf)) r
  | none, '<' :: '!' :: '-' :: '-' :: r =>
    stripCommentGo (some ['-', '-', '!', '<']) r
  | none, c :: r => c :: stripCommentGo none r

def stripCommentTag (s : List Char) : List Char := stripCommentGo none s

/-- The whole filter: `xss(data, ...)` as configured by `sanitizeSVG`. -/
def xssSanitize (s : List Char) : List Char :=
  ((stripFilter ((tokenize (stripCommentTag s)).map processTok)).map renderPiece).flatten

/-! ## Stored-name generation
(src/backend/src/middlewares/file.ts, `storage.filename`, lines 49-78) -/

def digitChar (n : Nat) : Char := Char.ofNat (48 + n)

/-- Decimal rendering of a natural number (JS template-string of a number),
with an explicit fuel bound (`n / 10 < n`, so `n + 1` steps always
suffice and the fuel case is unreachable). -/
def natToDecAux : Nat → Nat → List Char
  | 0, _ => []
  | fuel + 1, n =>
    if n < 10 then [digitChar n]
    else natToDecAux fuel (n / 10) ++ [digitChar (n % 10)]

def natToDec (n : Nat) : List Char := natToDecAux (n + 1) n

def hexDigitChar (n : Nat) : Char :=
  if n < 10 then Char.ofNat (48 + n) else Char.ofNat (87 + n)

/-- Fixed-width lowercase hex rendering. -/
def toHex : Nat → Nat → List Char
  | 0, _ => []
  | w + 1, n => toHex w (n / 16) ++ [hexDigitChar (n % 16)]

/-- The 36-character hyphenated rendering of `crypto.randomUUID()`, with the
128 random/version bits abstracted as one natural number (the version and
variant bits do not matter to any claim). -/
def uuidHex (u : Nat) : List Char :=
  (toHex 32 u).take 8 ++ '-' :: (((toHex 32 u).drop 8).take 4)
    ++ '-' :: (((toHex 32 u).drop 12).take 4)
    ++ '-' :: (((toHex 32 u).drop 16).take 4) ++ '-' :: (toHex 32 u).drop 20

/-- The mimetype-to-extension chain of `storage.filename`: a sequence of
`file.mimetype.includes(...)` substring tests on the caller-declared
mimetype.  Empty result means no extension is appended. -/
def extensionFor (mimetype : List Char) : List Char :=
  if containsL (s2l "png") mimetype then s2l "png"
  else if containsL (s2l "jpeg") mimetype || containsL (s2l "jpg") mimetype then s2l "jpg"
  else if containsL (s2l "gif") mimetype then s2l "gif"
  else if containsL (s2l "svg") mimetype then s2l "svg"
  else if containsL (s2l "plain") mimetype then s2l "txt"
  else []

/-- `storage.filename`: `${Date.now()}-${randomUUID()}` plus the mapped
extension.  The callback receives the whole multer file object but reads
only `file.mimetype`; in particular `file.originalname` is never consumed,
which this definition makes explicit by taking only the mimetype. -/
def storageFilename (timestamp uuid : Nat) (mimetype : List Char) : List Char :=
  let uniqueFileName := natToDec timestamp ++ '-' :: uuidHex uuid
  let ext := extensionFor mimetype
  if ext = [] then uniqueFileName else uniqueFileName ++ '.' :: ext

/-! ## Content-type sniffing
(`fileTypeFromBuffer` of the file-type npm package, called by
`validateFileType`, src/backend/src/middlewares/file.ts lines 130-187)

The model keeps the signature families relevant to this pipeline.  The
package detects file types from binary magic numbers (plus the literal
`<?xml ` marker for XML); per its documentation it has **no** detector for
SVG or any other plain-text format, so such inputs yield `none`. -/

def pngSig : List Char :=
  [Char.ofNat 0x89, 'P', 'N', 'G', Char.ofNat 0x0D, Char.ofNat 0x0A,
    Char.ofNat 0x1A, Char.ofNat 0x0A]

def jpegSig : List Char := [Char.ofNat 0xFF, Char.ofNat 0xD8, Char.ofNat 0xFF]

def gifSig : List Char := ['G', 'I', 'F']

def pdfSig : List Char := ['%', 'P', 'D', 'F']

def xmlSig : List Char := s2l "<?xml "

def fileTypeFromBuffer (buf : List Char) : Option (List Char) :=
  if startsWithL pngSig buf then some (s2l "image/png")
  else if startsWithL jpegSig buf then some (s2l "image/jpeg")
  else if startsWithL gifSig buf then some (s2l "image/gif")
  else if startsWithL pdfSig buf then some (s2l "application/pdf")
  else if startsWithL xmlSig buf then some (s2l "application/xml")
  else none

/-- `validateFileType` reads the staged file into a zero-filled 4100-byte
buffer (`Buffer.alloc(4100)` + `fs.readSync`), so a shorter file is padded
with zero bytes. -/
def sniffBuffer (content : List Char) : List Char :=
  content.take 4100 ++ List.replicate (4100 - content.length) (Char.ofNat 0)

/-! ## The upload pipeline
(src/backend/src/routes/upload.ts: `fileMiddleware.single('file')` →
`handleMulterError` → `validateFileType` → `postProcessFile` → `uploadFile`)

Express middleware semantics: a middleware calling `next(error)` skips the
remaining regular middlewares, so the pipeline short-circuits on the first
error (`Except`).  The on-disk staged file is tracked alongside: `none`
after deletion (`fs.unlinkSync`) or when nothing was staged. -/

def MIN_FILE_SIZE_BYTES : Nat := 2 * 1024

def MAX_FILE_SIZE_BYTES : Nat := 10 * 1024 * 1024

structure AllowedFileType where
  mime : List Char
  extensions : List (List Char)
deriving DecidableEq

/-- The `allowedTypes` array of src/backend/src/middlewares/file.ts. -/
def allowedTypes : List AllowedFileType :=
  [⟨s2l "image/png", [s2l "png"]⟩,
   ⟨s2l "image/jpeg", [s2l "jpg", s2l "jpeg"]⟩,
   ⟨s2l "image/gif", [s2l "gif"]⟩,
   ⟨s2l "image/svg+xml", [s2l "svg"]⟩]

/-- One upload request: the caller-supplied multipart file part. -/
structure UploadReq where
  originalname : List Char
  declaredMime : List Char
  content : List Char
deriving DecidableEq

/-- Per-request environment: wall clock and randomness consumed by
`storage.filename`, and whether the filesystem faults while `sanitizeSVG`
reads/writes the staged file (the only failure source of that promise). -/
structure Env where
  timestamp : Nat
  uuid : Nat
  svgIoFault : Bool

/-- `req.file` as set by multer's disk storage, doubling as the on-disk
staged file (name and current content). -/
structure UploadedFile where
  originalname : List Char
  mimetype : List Char
  filename : List Char
  content : List Char
  size : Nat
deriving DecidableEq

inductive UploadError where
  | sizeTooLarge
  | typeUndetected
  | typeNotAllowed
  | svgProcessing
  | noFile
  | sizeTooSmall
  | badPath
deriving DecidableEq

inductive FsOp where
  | write
  | read
  | unlink
deriving DecidableEq

/-- The success payload of `uploadFile`'s `res.json({ data: ... })`. -/
structure UploadResponse where
  fileName : List Char
  originalName : List Char
  size : Nat
  mimetype : List Char
  downloadUrl : List Char
deriving DecidableEq

/-- One middleware step: an error (`next(new BadRequestError(...))`) or the
passed-through `req.file`, together with the staged file remaining on disk
and the filesystem operations performed. -/
structure StepOut where
  result : Except UploadError (Option UploadedFile)
  disk : Option UploadedFile
  ops : List FsOp

/-- `fileMiddleware.single('file')` with `handleMulterError`: no file part
passes through with `req.file` undefined; a stream longer than the
`fileSize` limit makes multer abort with `LIMIT_FILE_SIZE` (removing the
partially staged file), which `handleMulterError` maps to the size
`BadRequestError`; otherwise the bytes are staged under the generated name
(`storage.filename`) with `req.file.size` the bytes written and
`req.file.mimetype` the caller-declared part header.  The configured
`fileFilter` accepts everything (`callback(null, true)`). -/
def multerSingle (env : Env) (req : Option UploadReq) : StepOut :=
  match req with
  | none => ⟨.ok none, none, []⟩
  | some r =>
    if r.content.length > MAX_FILE_SIZE_BYTES then
      ⟨.error .sizeTooLarge, none, [.write, .unlink]⟩
    else
      let f : UploadedFile :=
        { originalname := r.originalname
          mimetype := r.declaredMime
          filename := storageFilename env.timestamp env.uuid r.declaredMime
          content := r.content
          size := r.content.length }
      ⟨.ok (some f), some f, [.write]⟩

/-- `validateFileType` (src/backend/src/middlewares/file.ts 130-187): with
no file it calls `next()` untouched; otherwise it sniffs the first 4100
bytes; an undetected or non-allow-listed type deletes the staged file and
fails; the caller-declared mimetype is never consulted. -/
def validateFileTypeStep (file? : Option UploadedFile) : StepOut :=
  match file? with
  | none => ⟨.ok none, none, []⟩
  | some f =>
    match fileTypeFromBuffer (sniffBuffer f.content) with
    | none => ⟨.error .typeUndetected, none, [.read, .unlink]⟩
    | some m =>
      if allowedTypes.any (fun t => t.mime = m) then
        ⟨.ok (some f), some f, [.read]⟩
      else ⟨.error .typeNotAllowed, none, [.read, .unlink]⟩

/-- `postProcessFile` (src/backend/src/middlewares/file.ts 189-212): when
`req.file.mimetype` (the declared type) is `image/svg+xml`, `sanitizeSVG`
rewrites the staged file through the xss filter; a filesystem fault during
that read/write deletes the staged file and fails. -/
def postProcessFileStep (env : Env) (file? : Option UploadedFile) : StepOut :=
  match file? with
  | none => ⟨.ok none, none, []⟩
  | some f =>
    if f.mimetype = s2l "image/svg+xml" then
      if env.svgIoFault then ⟨.error .svgProcessing, none, [.unlink]⟩
      else
        let f2 := { f with content := xssSanitize f.content }
        ⟨.ok (some f2), some f2, [.read, .write]⟩
    else ⟨.ok (some f), some f, []⟩

/-- `process.env.UPLOAD_PATH` defaults to `uploads`; `uploadFile` strips
leading/trailing slashes from it. -/
def uploadPathDefault : List Char := s2l "uploads"

/-- `uploadFile` (src/backend/src/controllers/upload.ts): missing file and
undersized file are `BadRequestError`s (the catch block deletes the staged
file if any); the public path is `/uploads/<filename>` and is rejected if
it contains `..` or `//`; otherwise the `201` payload echoes
`req.file.originalname`, `req.file.size` and `req.file.mimetype` verbatim
(`BASE_URL` defaults to the empty string, so `downloadUrl = fileName`). -/
def uploadFileStep (file? : Option UploadedFile) :
    Except UploadError UploadResponse × Option UploadedFile × List FsOp :=
  match file? with
  | none => (.error .noFile, none, [])
  | some f =>
    if f.size < MIN_FILE_SIZE_BYTES then (.error .sizeTooSmall, none, [.unlink])
    else
      let fileName := '/' :: (uploadPathDefault ++ '/' :: f.filename)
      if containsL (s2l "..") fileName || containsL (s2l "//") fileName then
        (.error .badPath, none, [.unlink])
      else
        (.ok { fileName := fileName
               originalName := f.originalname
               size := f.size
               mimetype := f.mimetype
               downloadUrl := fileName }, some f, [])

deriving instance DecidableEq for Except

/-- Final state of one request through the route
`POST /upload`: outcome, staged/final file on disk, filesystem operations. -/
structure RunResult where
  outcome : Except UploadError UploadResponse
  disk : Option UploadedFile
  ops : List FsOp
deriving DecidableEq

/-- The composed pipeline of src/backend/src/routes/upload.ts. -/
def runUpload (env : Env) (req : Option UploadReq) : RunResult :=
  match multerSingle env req with
  | ⟨.error e, d, ops⟩ => ⟨.error e, d, ops⟩
  | ⟨.ok f0, _, ops0⟩ =>
    match validateFileTypeStep f0 with
    | ⟨.error e, d, ops1⟩ => ⟨.error e, d, ops0 ++ ops1⟩
    | ⟨.ok f1, _, ops1⟩ =>
      match postProcessFileStep env f1 with
      | ⟨.error e, d, ops2⟩ => ⟨.error e, d, ops0 ++ ops1 ++ ops2⟩
      | ⟨.ok f2, _, ops2⟩ =>
        match uploadFileStep f2 with
        | (.error e, d, ops3) => ⟨.error e, d, ops0 ++ ops1 ++ ops2 ++ ops3⟩
        | (.ok resp, d, ops3) => ⟨.ok resp, d, ops0 ++ ops1 ++ ops2 ++ ops3⟩

/-! ## Concrete inputs used by witnesses and counterexamples -/

/-- A fixed environment: epoch timestamp 0, all-zero UUID, no I/O fault. -/
def envZero : Env := ⟨0, 0, false⟩

/-- 2 KB of valid-PNG-magic bytes (Scenario A style). -/
def pngBytes2048 : List Char := pngSig ++ List.replicate 2040 (Char.ofNat 0)

def reqPng : UploadReq := ⟨s2l "a.png", s2l "image/png", pngBytes2048⟩

def pngStoredName : List Char := s2l "0-00000000-0000-0000-0000-000000000000.png"

def respPng : UploadResponse :=
  ⟨s2l "/uploads/0-00000000-0000-0000-0000-000000000000.png", s2l "a.png", 2048,
   s2l "image/png", s2l "/uploads/0-00000000-0000-0000-0000-000000000000.png"⟩

/-- The file left on disk by a successful `reqPng` run. -/
def pngDiskFile : UploadedFile :=
  ⟨s2l "a.png", s2l "image/png", pngStoredName, pngBytes2048, 2048⟩

/-- Scenario C markup. -/
def svgScenarioC : List Char :=
  s2l "<svg><script>alert(1)</script><rect width=\"1\" height=\"1\"/></svg>"

/-- Scenario C markup padded with spaces above the 2 KB minimum, so that
size plays no role in its fate. -/
def svgScenarioPadded : List Char := svgScenarioC ++ List.replicate 2000 ' '

/-- 1 KB of zero bytes: under the minimum size and without any signature. -/
def zeros1024 : List Char := List.replicate 1024 (Char.ofNat 0)

/-- A small but valid-PNG-magic content (108 bytes). -/
def pngSmall : List Char := pngSig ++ List.replicate 100 (Char.ofNat 0)

/-- Content one byte over the 10 MB multer limit. -/
def bigContent : List Char := List.replicate (MAX_FILE_SIZE_BYTES + 1) ' '

def reqJpgDecl : UploadReq := ⟨s2l "a.png", s2l "image/jpeg", pngBytes2048⟩

def respJpgFromPng : UploadResponse :=
  ⟨s2l "/uploads/0-00000000-0000-0000-0000-000000000000.jpg", s2l "a.png", 2048,
   s2l "image/jpeg", s2l "/uploads/0-00000000-0000-0000-0000-000000000000.jpg"⟩

def reqGifDecl : UploadReq := ⟨s2l "a.png", s2l "image/gif", pngBytes2048⟩

def respGifFromPng : UploadResponse :=
  ⟨s2l "/uploads/0-00000000-0000-0000-0000-000000000000.gif", s2l "a.png", 2048,
   s2l "image/gif", s2l "/uploads/0-00000000-0000-0000-0000-000000000000.gif"⟩

/-! ## The canonical form of sanitizer output

Every attribute the filter keeps is re-rendered as `name="value"` (or a bare
`name` when the safe value is empty); `renderAttr` is that rendering, and the
predicates below record the invariants of the names and values the filter can
emit.  They are parameterised by a value-level predicate `V` so that the same
development serves both the unrestricted re-parsing claims (`V` trivial) and
the idempotence claim, where `V` pins every value to be a fixed point of
`safeAttrValue`. -/

def renderAttr (p : List Char × List Char) : List Char :=
  if p.2 = [] then p.1 else p.1 ++ '=' :: '"' :: (p.2 ++ ['"'])

/-- Invariant of attribute names kept by the filter: nonempty, only legal
attribute-name characters, lowercase-fixed, no whitespace. -/
def AttrNameOk (n : List Char) : Prop :=
  n ≠ [] ∧ ∀ c ∈ n, legalAttrNameChar c = true ∧ c.toLower = c ∧ isSpaceJS c = false

/-- Invariant of attribute values emitted by the filter: no quotation mark or
angle bracket, no character of code below 32 (cleared by
`clearNonPrintableCharacter`), trimmed, and satisfying `V`. -/
def SafeValV (V : List Char → Prop) (v : List Char) : Prop :=
  (∀ c ∈ v, c ≠ '"' ∧ c ≠ '<' ∧ c ≠ '>' ∧ 32 ≤ c.toNat) ∧ trimJS v = v ∧ V v

def GoodPair (V : List Char → Prop) (wl : List (List Char))
    (p : List Char × List Char) : Prop :=
  p.1 ∈ wl ∧ AttrNameOk p.1 ∧ SafeValV V p.2

/-- Invariant of the pieces the filter produces: a kept tag has an
allow-listed name and its attribute string is the space-join of canonical
attribute renderings. -/
def GoodPiece (V : List Char → Prop) : Piece → Prop
  | .keepTag _ name ah _ =>
    ∃ (wl : List (List Char)) (pairs : List (List Char × List Char)),
      whiteListAttrs name = some wl ∧
      ah = joinSpace (pairs.map renderAttr) ∧ ∀ pr ∈ pairs, GoodPair V wl pr
  | _ => True

/-- The characters the quote and HTML escaping functions can introduce,
beyond characters of their input. -/
def escIntro : List Char := ['"', '\'', '&', 'q', 'u', 'o', 't', ';', 'l', 'g', ' ']

/-- Evolution of the tokenizer's `eqP` flag (last non-space character was
`=`) across a chunk of in-tag characters. -/
def foldEqP : Bool → List Char → Bool
  | b, [] => b
  | b, c :: r => foldEqP (if c = ' ' then b else decide (c = '=')) r

/-- The token list produced by re-scanning the rendered pieces: text-like
renderings merge into pending text, each kept tag becomes one tag token. -/
def toksOf (tAcc : List Char) : List Piece → List Tok
  | [] => emitTxt tAcc []
  | .keepTag cl n ah sc :: ps =>
    emitTxt tAcc (Tok.tag (renderPiece (.keepTag cl n ah sc)) :: toksOf [] ps)
  | p :: ps => toksOf (tAcc ++ renderPiece p) ps

/-- The characters of one token. -/
def tokChars : Tok → List Char
  | .txt s => s
  | .tag raw => raw

/-- The attribute name/value pairs obtained by re-parsing a raw tag. -/
def attrPairsOf (raw : List Char) : List (List Char × List Char) :=
  parseAttrCore (fun n v => some (n, v)) (getAttrs raw).1

/-- Invariant of the attribute parser's state: the pending value slice is
quote-free (a quotation mark always switches the state), its characters and
the accumulated quoted value satisfy `K`, and the active quote character is
one of the two quote characters and absent from the accumulated value. -/
def StWf (K : Char → Prop) : AttrSt → Prop
  | .base _ => True
  | .wsName _ => True
  | .val _ pend _ => ('"' ∉ pend ∧ '\'' ∉ pend) ∧ ∀ c ∈ pend, K c
  | .inQ _ pend q vAcc =>
      (('"' ∉ pend ∧ '\'' ∉ pend) ∧ (∀ c ∈ pend, K c)) ∧
      (q = '"' ∨ q = '\'') ∧ q ∉ vAcc ∧ ∀ c ∈ vAcc, K c

/-- The first character, if any, is not whitespace. -/
def headNS (l : List Char) : Prop :=
  ∀ c, l.head? = some c → isSpaceJS c = false

/-- The last character, if any, is not whitespace. -/
def lastNS (l : List Char) : Prop :=
  ∀ c, l.getLast? = some c → isSpaceJS c = false

/-- Expected sanitizer output for Scenario C's markup. -/
def svgScenarioCOut : List Char := s2l "<svg><rect width=\"1\" height=\"1\" /></svg>"

/-! ## Helper lemmas about the pipeline -/

theorem multerSingle_error_disk (env : Env) (req : Option UploadReq)
    (e : UploadError) (h : (multerSingle env req).result = .error e) :
    (multerSingle env req).disk = none := by
  cases req with
  | none => simp [multerSingle] at h
  | some r =>
    by_cases hmax : r.content.length > MAX_FILE_SIZE_BYTES
    · simp [multerSingle, hmax]
    · simp [multerSingle, hmax] at h

theorem validateFileTypeStep_error_disk (f? : Option UploadedFile)
    (e : UploadError) (h : (validateFileTypeStep f?).result = .error e) :
    (validateFileTypeStep f?).disk = none := by
  cases f? with
  | none => simp [validateFileTypeStep] at h
  | some f =>
    cases hft : fileTypeFromBuffer (sniffBuffer f.content) with
    | none => simp [validateFileTypeStep, hft]
    | some m =>
      by_cases ha : (allowedTypes.any (fun t => t.mime = m)) = true
      · simp [validateFileTypeStep, hft, ha] at h
      · simp [validateFileTypeStep, hft, ha]

theorem postProcessFileStep_error_disk (env : Env) (f? : Option UploadedFile)
    (e : UploadError) (h : (postProcessFileStep env f?).result = .error e) :
    (postProcessFileStep env f?).disk = none := by
  cases f? with
  | none => simp [postProcessFileStep] at h
  | some f =>
    by_cases hsvg : f.mimetype = s2l "image/svg+xml"
    · by_cases hfault : env.svgIoFault = true
      · simp [postProcessFileStep, hsvg, hfault]
      · simp [postProcessFileStep, hsvg, hfault] at h
    · simp [postProcessFileStep, hsvg] at h

theorem uploadFileStep_error_disk (f? : Option UploadedFile)
    (e : UploadError) (h : (uploadFileStep f?).1 = .error e) :
    (uploadFileStep f?).2.1 = none := by
  cases f? with
  | none => simp [uploadFileStep]
  | some f =>
    by_cases hmin : f.size < MIN_FILE_SIZE_BYTES
    · simp [uploadFileStep, hmin]
    · by_cases hbad : (containsL (s2l "..") ('/' :: (uploadPathDefault ++ '/' :: f.filename))
          || containsL (s2l "//") ('/' :: (uploadPathDefault ++ '/' :: f.filename))) = true
      · simp only [uploadFileStep, hmin, if_false, hbad, if_true]
      · simp only [uploadFileStep, hmin, if_false, hbad] at h
        simp at h

/-- Inversion of a successful run: how every field of the `201` payload and
of the finalized on-disk file is produced, and the classification facts the
success implies. -/
theorem runUpload_ok_inv (env : Env) (r : UploadReq) (resp : UploadResponse)
    (h : (runUpload env (some r)).outcome = .ok resp) :
    resp.originalName = r.originalname ∧
    resp.mimetype = r.declaredMime ∧
    resp.size = r.content.length ∧
    resp.fileName =
      '/' :: (uploadPathDefault ++ '/' :: storageFilename env.timestamp env.uuid r.declaredMime) ∧
    resp.downloadUrl = resp.fileName ∧
    (runUpload env (some r)).disk.map (fun f => f.filename) =
      some (storageFilename env.timestamp env.uuid r.declaredMime) ∧
    (∃ m, fileTypeFromBuffer (sniffBuffer r.content) = some m ∧
      (allowedTypes.any (fun t => t.mime = m)) = true) ∧
    ¬ r.content.length > MAX_FILE_SIZE_BYTES ∧
    ¬ r.content.length < MIN_FILE_SIZE_BYTES := by
  unfold runUpload at h ⊢
  by_cases hmax : r.content.length > MAX_FILE_SIZE_BYTES
  · simp [multerSingle, hmax] at h
  · simp only [multerSingle, hmax, if_false, gt_iff_lt, ite_false] at h ⊢
    cases hft : fileTypeFromBuffer (sniffBuffer r.content) with
    | none => simp [validateFileTypeStep, hft] at h
    | some m =>
      by_cases ha : (allowedTypes.any (fun t => t.mime = m)) = true
      · simp only [validateFileTypeStep, hft, ha, if_true] at h ⊢
        by_cases hsvg : r.declaredMime = s2l "image/svg+xml"
        · by_cases hfault : env.svgIoFault = true
          · simp [postProcessFileStep, hsvg, hfault] at h
          · simp only [postProcessFileStep, hsvg, hfault, if_true,
              Bool.false_eq_true, if_false] at h ⊢
            by_cases hmin : r.content.length < MIN_FILE_SIZE_BYTES
            · simp [uploadFileStep, hmin] at h
            · by_cases hbad : (containsL (s2l "..")
                  ('/' :: (uploadPathDefault ++ '/' ::
                      storageFilename env.timestamp env.uuid (s2l "image/svg+xml")))
                  || containsL (s2l "//")
                  ('/' :: (uploadPathDefault ++ '/' ::
                      storageFilename env.timestamp env.uuid (s2l "image/svg+xml")))) = true
              · simp [uploadFileStep, hmin, hbad, hsvg] at h
              · simp [uploadFileStep, hmin, hbad, hsvg] at h ⊢
                subst h
                simpa using ha
        · simp only [postProcessFileStep, hsvg, if_false] at h ⊢
          by_cases hmin : r.content.length < MIN_FILE_SIZE_BYTES
          · simp [uploadFileStep, hmin] at h
          · by_cases hbad : (containsL (s2l "..")
                ('/' :: (uploadPathDefault ++ '/' ::
                    storageFilename env.timestamp env.uuid r.declaredMime))
                || containsL (s2l "//")
                ('/' :: (uploadPathDefault ++ '/' ::
                    storageFilename env.timestamp env.uuid r.declaredMime))) = true
            · simp [uploadFileStep, hmin, hbad] at h
            · simp [uploadFileStep, hmin, hbad] at h ⊢
              subst h
              simpa using ha
      · simp [validateFileTypeStep, hft, ha] at h

/-- Renaming of the advisory original-filename metadata in a run result:
the only places the pipeline carries `originalname` are the `req.file`
record and the `originalName` echo of the success payload. -/
def renameOrig (o2 : List Char) (res : RunResult) : RunResult where
  outcome :=
    match res.outcome with
    | .ok resp => .ok { resp with originalName := o2 }
    | .error e => .error e
  disk := res.disk.map (fun f => { f with originalname := o2 })
  ops := res.ops

/-- The declared original filename is dead weight: changing it changes
nothing in the run except the metadata echo itself. -/
theorem runUpload_originalname (env : Env) (r : UploadReq) (o2 : List Char) :
    runUpload env (some { r with originalname := o2 }) =
      renameOrig o2 (runUpload env (some r)) := by
  by_cases hmax : r.content.length > MAX_FILE_SIZE_BYTES
  · simp [runUpload, multerSingle, renameOrig, hmax]
  · cases hft : fileTypeFromBuffer (sniffBuffer r.content) with
    | none =>
      simp [runUpload, multerSingle, validateFileTypeStep, renameOrig, hmax, hft]
    | some m =>
      by_cases ha : (allowedTypes.any (fun t => t.mime = m)) = true
      · by_cases hsvg : r.declaredMime = s2l "image/svg+xml"
        · by_cases hfault : env.svgIoFault = true
          · simp [runUpload, multerSingle, validateFileTypeStep, postProcessFileStep,
              renameOrig, hmax, hft, ha, hsvg, hfault]
          · by_cases hmin : r.content.length < MIN_FILE_SIZE_BYTES
            · simp [runUpload, multerSingle, validateFileTypeStep, postProcessFileStep,
                uploadFileStep, renameOrig, hmax, hft, ha, hsvg, hfault, hmin]
            · by_cases hbad : (containsL (s2l "..")
                  ('/' :: (uploadPathDefault ++ '/' ::
                      storageFilename env.timestamp env.uuid (s2l "image/svg+xml")))
                  || containsL (s2l "//")
                  ('/' :: (uploadPathDefault ++ '/' ::
                      storageFilename env.timestamp env.uuid (s2l "image/svg+xml")))) = true
              · simp [runUpload, multerSingle, validateFileTypeStep, postProcessFileStep,
                  uploadFileStep, renameOrig, hmax, hft, ha, hsvg, hfault, hmin, hbad]
              · simp [runUpload, multerSingle, validateFileTypeStep, postProcessFileStep,
                  uploadFileStep, renameOrig, hmax, hft, ha, hsvg, hfault, hmin, hbad]
        · by_cases hmin : r.content.length < MIN_FILE_SIZE_BYTES
          · simp [runUpload, multerSingle, validateFileTypeStep, postProcessFileStep,
              uploadFileStep, renameOrig, hmax, hft, ha, hsvg, hmin]
          · by_cases hbad : (containsL (s2l "..")
                ('/' :: (uploadPathDefault ++ '/' ::
                    storageFilename env.timestamp env.uuid r.declaredMime))
                || containsL (s2l "//")
                ('/' :: (uploadPathDefault ++ '/' ::
                    storageFilename env.timestamp env.uuid r.declaredMime))) = true
            · simp [runUpload, multerSingle, validateFileTypeStep, postProcessFileStep,
                uploadFileStep, renameOrig, hmax, hft, ha, hsvg, hmin, hbad]
            · simp [runUpload, multerSingle, validateFileTypeStep, postProcessFileStep,
                uploadFileStep, renameOrig, hmax, hft, ha, hsvg, hmin, hbad]
      · simp [runUpload, multerSingle, validateFileTypeStep, renameOrig, hmax, hft, ha]

/-- Composition of the per-step cleanup lemmas: a rejected run leaves no
file on disk. -/
theorem runUpload_eq_error_disk (env : Env) (req : Option UploadReq)
    (e : UploadError) (d : Option UploadedFile) (ops : List FsOp)
    (h : runUpload env req = ⟨.error e, d, ops⟩) : d = none := by
  unfold runUpload at h
  split at h
  · rename_i e0 d0 ops0 heq
    have hd := multerSingle_error_disk env req e0 (by rw [heq])
    rw [heq] at hd
    simp only [RunResult.mk.injEq] at h
    simp only at hd
    exact h.2.1 ▸ hd
  · rename_i f0 d0 ops0 heq0
    split at h
    · rename_i e1 d1 ops1 heq1
      have hd := validateFileTypeStep_error_disk f0 e1 (by rw [heq1])
      rw [heq1] at hd
      simp only [RunResult.mk.injEq] at h
      simp only at hd
      exact h.2.1 ▸ hd
    · rename_i f1 d1 ops1 heq1
      split at h
      · rename_i e2 d2 ops2 heq2
        have hd := postProcessFileStep_error_disk env f1 e2 (by rw [heq2])
        rw [heq2] at hd
        simp only [RunResult.mk.injEq] at h
        simp only at hd
        exact h.2.1 ▸ hd
      · rename_i f2 d2 ops2 heq2
        split at h
        · rename_i e3 d3 ops3 heq3
          have hd := uploadFileStep_error_disk f2 e3 (by rw [heq3])
          rw [heq3] at hd
          simp only [RunResult.mk.injEq] at h
          simp only at hd
          exact h.2.1 ▸ hd
        · rename_i resp d3 ops3 heq3
          simp only [RunResult.mk.injEq] at h
          exact absurd h.1 (by simp)

/-! ## Character-level facts about generated stored names -/

/-- A character a generated stored name may contain. -/
def safeNameChar (c : Char) : Bool := c.isAlphanum || c = '-' || c = '.'

theorem digitChar_isDigit {n : Nat} (h : n < 10) :
    (digitChar n).isDigit = true := by
  interval_cases n <;> decide

theorem natToDecAux_chars (fuel : Nat) :
    ∀ n, ∀ c ∈ natToDecAux fuel n, c.isDigit = true := by
  induction fuel with
  | zero => intro n c hc; simp [natToDecAux] at hc
  | succ fuel ih =>
    intro n c hc
    rw [natToDecAux] at hc
    by_cases h : n < 10
    · simp only [h, if_true, List.mem_singleton] at hc
      exact hc ▸ digitChar_isDigit h
    · simp only [h, if_false, List.mem_append, List.mem_singleton] at hc
      rcases hc with hc | hc
      · exact ih (n / 10) c hc
      · exact hc ▸ digitChar_isDigit (Nat.mod_lt _ (by omega))

theorem natToDec_chars (n : Nat) : ∀ c ∈ natToDec n, c.isDigit = true :=
  natToDecAux_chars (n + 1) n

theorem hexDigitChar_alnum {n : Nat} (h : n < 16) :
    (hexDigitChar n).isAlphanum = true := by
  interval_cases n <;> decide

theorem toHex_chars (w : Nat) : ∀ n, ∀ c ∈ toHex w n, c.isAlphanum = true := by
  induction w with
  | zero => intro n c hc; simp [toHex] at hc
  | succ w ih =>
    intro n c hc
    simp only [toHex, List.mem_append, List.mem_singleton] at hc
    rcases hc with hc | hc
    · exact ih (n / 16) c hc
    · exact hc ▸ hexDigitChar_alnum (Nat.mod_lt _ (by omega))

theorem uuidHex_chars (u : Nat) :
    ∀ c ∈ uuidHex u, (c.isAlphanum || c = '-') = true := by
  intro c hc
  have hx : ∀ d, d ∈ toHex 32 u → (d.isAlphanum || d = '-') = true := by
    intro d hd
    rw [toHex_chars 32 u d hd]
    rfl
  unfold uuidHex at hc
  simp only [List.mem_append, List.mem_cons] at hc
  rcases hc with (((hc | hc | hc) | hc | hc) | hc | hc) | hc | hc
  · exact hx c (List.take_subset 8 (toHex 32 u) hc)
  · rw [hc]; decide
  · exact hx c (List.drop_subset 8 (toHex 32 u) (List.take_subset 4 _ hc))
  · rw [hc]; decide
  · exact hx c (List.drop_subset 12 (toHex 32 u) (List.take_subset 4 _ hc))
  · rw [hc]; decide
  · exact hx c (List.drop_subset 16 (toHex 32 u) (List.take_subset 4 _ hc))
  · rw [hc]; decide
  · exact hx c (List.drop_subset 20 (toHex 32 u) hc)

theorem extensionFor_chars (m : List Char) :
    ∀ c ∈ extensionFor m, c.isAlphanum = true := by
  unfold extensionFor
  split_ifs <;> decide

theorem extensionFor_no_dot (m : List Char) : '.' ∉ extensionFor m := by
  unfold extensionFor
  split_ifs <;> decide

theorem storageFilename_chars (ts u : Nat) (m : List Char) :
    ∀ c ∈ storageFilename ts u m, safeNameChar c = true := by
  intro c hc
  have base : ∀ d ∈ natToDec ts ++ '-' :: uuidHex u, safeNameChar d = true := by
    intro d hd
    simp only [List.mem_append, List.mem_cons] at hd
    rcases hd with hd | hd | hd
    · have := natToDec_chars ts d hd
      simp [safeNameChar, Char.isAlphanum, this]
    · simp [safeNameChar, hd]
    · have := uuidHex_chars u d hd
      simp only [Bool.or_eq_true] at this
      rcases this with h1 | h1 <;> simp [safeNameChar, h1]
  unfold storageFilename at hc
  by_cases hext : extensionFor m = []
  · simp only [hext, if_true] at hc
    exact base c hc
  · simp only [hext, if_false, List.mem_append, List.mem_cons] at hc
    rcases hc with hc | hc | hc
    · exact base c (by simpa using hc)
    · simp [safeNameChar, hc]
    · have := extensionFor_chars m c hc
      simp [safeNameChar, this]

theorem containsL_pair_count {x : Char} {l : List Char}
    (h : containsL [x, x] l = true) : 2 ≤ l.count x := by
  induction l with
  | nil => simp [containsL] at h
  | cons c r ih =>
    simp only [containsL, Bool.or_eq_true] at h
    rcases h with h | h
    · simp only [startsWithL, Bool.and_eq_true, decide_eq_true_eq] at h
      obtain ⟨h1, h2⟩ := h
      cases r with
      | nil => simp [startsWithL] at h2
      | cons d r' =>
        simp only [startsWithL, Bool.and_eq_true, decide_eq_true_eq] at h2
        obtain ⟨h3, _⟩ := h2
        subst h1
        subst h3
        simp [List.count_cons]
    · have := ih h
      rw [List.count_cons]
      omega

theorem not_mem_of_safe {l : List Char} {c : Char}
    (hall : ∀ d ∈ l, safeNameChar d = true) (hc : safeNameChar c = false) :
    c ∉ l := by
  intro hmem
  rw [hall c hmem] at hc
  cases hc

theorem storageFilename_count_dot (ts u : Nat) (m : List Char) :
    (storageFilename ts u m).count '.' ≤ 1 := by
  have h1 : (natToDec ts).count '.' = 0 := by
    rw [List.count_eq_zero]
    intro hmem
    have := natToDec_chars ts '.' hmem
    cases this
  have h2 : (uuidHex u).count '.' = 0 := by
    rw [List.count_eq_zero]
    intro hmem
    have := uuidHex_chars u '.' hmem
    cases this
  have h3 : (extensionFor m).count '.' = 0 := by
    rw [List.count_eq_zero]
    exact extensionFor_no_dot m
  unfold storageFilename
  by_cases hext : extensionFor m = []
  · simp [hext, List.count_append, List.count_cons, h1, h2]
  · simp [hext, List.count_append, List.count_cons, h1, h2, h3]

theorem storageFilename_no_dotdot (ts u : Nat) (m : List Char) :
    containsL (s2l "..") (storageFilename ts u m) = false := by
  cases hb : containsL ['.', '.'] (storageFilename ts u m) with
  | false => exact hb
  | true =>
    have h2 := containsL_pair_count hb
    have hle := storageFilename_count_dot ts u m
    omega

/-! ## Component facts for concrete runs

`decide` cannot evaluate a multi-kilobyte content in the elaborator, so
concrete runs are assembled from characterization lemmas plus shallow
component facts (prefix sniffing, lengths by `simp`). -/

theorem startsWithL_append_self (p s : List Char) :
    startsWithL p (p ++ s) = true := by
  induction p with
  | nil => simp [startsWithL]
  | cons c r ih => simp [startsWithL, ih]

theorem sniff_of_pngSig (rest : List Char) :
    fileTypeFromBuffer (sniffBuffer (pngSig ++ rest)) = some (s2l "image/png") := by
  have h1 : sniffBuffer (pngSig ++ rest) =
      pngSig ++ (rest.take (4100 - pngSig.length) ++
        List.replicate (4100 - (pngSig ++ rest).length) (Char.ofNat 0)) := by
    unfold sniffBuffer
    rw [List.take_append_eq_append_take, List.take_of_length_le (by decide), List.append_assoc]
  rw [h1]
  unfold fileTypeFromBuffer
  rw [startsWithL_append_self]
  simp

/-- Characterization of a successful non-SVG-declared run, with every
branch condition supplied as a hypothesis. -/
theorem runUpload_ok_char (env : Env) (r : UploadReq) (m : List Char)
    (hmax : ¬ r.content.length > MAX_FILE_SIZE_BYTES)
    (hft : fileTypeFromBuffer (sniffBuffer r.content) = some m)
    (ha : (allowedTypes.any (fun t => t.mime = m)) = true)
    (hsvg : ¬ r.declaredMime = s2l "image/svg+xml")
    (hmin : ¬ r.content.length < MIN_FILE_SIZE_BYTES)
    (hbad : (containsL (s2l "..")
        ('/' :: (uploadPathDefault ++ '/' :: storageFilename env.timestamp env.uuid r.declaredMime))
        || containsL (s2l "//")
        ('/' :: (uploadPathDefault ++ '/' :: storageFilename env.timestamp env.uuid r.declaredMime))) = false) :
    runUpload env (some r) =
      ⟨.ok { fileName := '/' :: (uploadPathDefault ++ '/' ::
               storageFilename env.timestamp env.uuid r.declaredMime),
             originalName := r.originalname,
             size := r.content.length,
             mimetype := r.declaredMime,
             downloadUrl := '/' :: (uploadPathDefault ++ '/' ::
               storageFilename env.timestamp env.uuid r.declaredMime) },
        some { originalname := r.originalname, mimetype := r.declaredMime,
               filename := storageFilename env.timestamp env.uuid r.declaredMime,
               content := r.content, size := r.content.length },
        [.write, .read]⟩ := by
  simp [runUpload, multerSingle, validateFileTypeStep, postProcessFileStep,
    uploadFileStep, hmax, hft, ha, hsvg, hmin, hbad]

/-- Characterization of a run rejected because no signature was detected. -/
theorem runUpload_undetected_char (env : Env) (r : UploadReq)
    (hmax : ¬ r.content.length > MAX_FILE_SIZE_BYTES)
    (hft : fileTypeFromBuffer (sniffBuffer r.content) = none) :
    runUpload env (some r) =
      ⟨.error .typeUndetected, none, [.write, .read, .unlink]⟩ := by
  simp [runUpload, multerSingle, validateFileTypeStep, hmax, hft]

theorem pngBytes2048_length : pngBytes2048.length = 2048 := by
  rw [pngBytes2048, List.length_append, List.length_replicate]
  decide

theorem zeros1024_length : zeros1024.length = 1024 := by
  rw [zeros1024, List.length_replicate]

theorem svgScenarioPadded_length : svgScenarioPadded.length = 2064 := by
  rw [svgScenarioPadded, List.length_append, List.length_replicate]
  decide

theorem pngSmall_length : pngSmall.length = 108 := by
  rw [pngSmall, List.length_append, List.length_replicate]
  decide

theorem bigContent_length : bigContent.length = MAX_FILE_SIZE_BYTES + 1 := by
  rw [bigContent, List.length_replicate]


/-! ## Claim theorems (pipeline) -/

/-- C1: for every upload that reaches the success response, the content
type sniffed from the file's first bytes by `fileTypeFromBuffer` is a
member of the fixed allow-list; a caller-declared content-type alone is
never sufficient — in particular no input whose bytes fail signature
detection produces a success response. -/
theorem C1_type_truth :
    (∀ env req resp, (runUpload env req).outcome = .ok resp →
      ∃ r, req = some r ∧ ∃ m, fileTypeFromBuffer (sniffBuffer r.content) = some m ∧
        (allowedTypes.any (fun t => t.mime = m)) = true) ∧
    (∀ env r resp, fileTypeFromBuffer (sniffBuffer r.content) = none →
      (runUpload env (some r)).outcome ≠ .ok resp) := by
  constructor
  · intro env req resp h
    cases req with
    | none =>
      rw [show runUpload env none = ⟨.error .noFile, none, []⟩ from rfl] at h
      simp at h
    | some r => exact ⟨r, rfl, (runUpload_ok_inv env r resp h).2.2.2.2.2.2.1⟩
  · intro env r resp hnone h
    obtain ⟨m, hm, _⟩ := (runUpload_ok_inv env r resp h).2.2.2.2.2.2.1
    rw [hnone] at hm
    cases hm

theorem C1_type_truth_witness :
    (∃ r, (some reqPng) = some r ∧
      ∃ m, fileTypeFromBuffer (sniffBuffer r.content) = some m ∧
        (allowedTypes.any (fun t => t.mime = m)) = true) ∧
    (runUpload envZero (some ⟨s2l "b.bin", s2l "image/png", zeros1024⟩)).outcome ≠
      .ok respPng :=
  ⟨C1_type_truth.1 envZero (some reqPng) respPng
      (by
        rw [runUpload_ok_char envZero reqPng (s2l "image/png")
          (by rw [show reqPng.content = pngBytes2048 from rfl, pngBytes2048_length]; decide)
          (sniff_of_pngSig _) (by decide) (by decide)
          (by rw [show reqPng.content = pngBytes2048 from rfl, pngBytes2048_length]; decide)
          (by decide)]
        rw [show respPng = _ from rfl]
        simp [respPng, reqPng, pngBytes2048_length]
        decide),
   C1_type_truth.2 envZero ⟨s2l "b.bin", s2l "image/png", zeros1024⟩ respPng (by decide)⟩

/-- C2 (code behavior on Scenario C): the classifier of the code,
`fileTypeFromBuffer`, has no structural/text detector, so well-formed
pure-text SVG markup carries no recognizable signature and
`validateFileType` rejects the upload (deleting the staged file) with the
undetected-type error; the Finalized state is unreachable for Scenario C
regardless of size. -/
theorem C2_scenarioC_rejected :
    runUpload envZero (some ⟨s2l "image.svg", s2l "image/svg+xml", svgScenarioPadded⟩) =
      ⟨.error .typeUndetected, none, [.write, .read, .unlink]⟩ ∧
    fileTypeFromBuffer (sniffBuffer svgScenarioPadded) = none ∧
    MIN_FILE_SIZE_BYTES ≤ svgScenarioPadded.length := by
  refine ⟨?_, by decide, by rw [svgScenarioPadded_length]; decide⟩
  exact runUpload_undetected_char envZero _
    (by rw [show (⟨s2l "image.svg", s2l "image/svg+xml", svgScenarioPadded⟩ : UploadReq).content
          = svgScenarioPadded from rfl, svgScenarioPadded_length]; decide)
    (by decide)

/-- C3 counterexample: PNG-magic bytes declared as `image/jpeg` are
accepted (the sniffed type `image/png` is allow-listed), yet the stored
name ends in `.jpg` — the mapping of the caller-declared mimetype — and
not in `.png`, the mapping of the verified (sniffed) type.  The extension
therefore does come from an unverified caller-supplied field. -/
theorem C3_extension_counterexample :
    (runUpload envZero (some reqJpgDecl)).outcome = .ok respJpgFromPng ∧
    fileTypeFromBuffer (sniffBuffer reqJpgDecl.content) = some (s2l "image/png") ∧
    extensionFor (s2l "image/png") = s2l "png" ∧
    containsL (s2l "png") respJpgFromPng.fileName = false ∧
    containsL (s2l "jpg") respJpgFromPng.fileName = true := by
  refine ⟨?_, sniff_of_pngSig _, by decide, by decide, by decide⟩
  rw [runUpload_ok_char envZero reqJpgDecl (s2l "image/png")
    (by rw [show reqJpgDecl.content = pngBytes2048 from rfl, pngBytes2048_length]; decide)
    (sniff_of_pngSig _) (by decide) (by decide)
    (by rw [show reqJpgDecl.content = pngBytes2048 from rfl, pngBytes2048_length]; decide)
    (by decide)]
  simp [respJpgFromPng, reqJpgDecl, pngBytes2048_length]
  decide

/-- C3 amended: for every successful upload, the extension of the stored
name is chosen only from the fixed mapping `extensionFor` applied to the
caller-DECLARED content-type (`storageFilename`), never from the original
filename or its extension: the declared filename can be replaced by
anything without changing the run beyond the metadata echo. -/
theorem C3_extension_from_declared (env : Env) (r : UploadReq)
    (resp : UploadResponse)
    (h : (runUpload env (some r)).outcome = .ok resp) :
    resp.fileName = '/' :: (uploadPathDefault ++ '/' ::
      storageFilename env.timestamp env.uuid r.declaredMime) ∧
    ∀ o2, runUpload env (some { r with originalname := o2 }) =
      renameOrig o2 (runUpload env (some r)) :=
  ⟨(runUpload_ok_inv env r resp h).2.2.2.1,
   fun o2 => runUpload_originalname env r o2⟩

theorem C3_extension_from_declared_witness :
    (respJpgFromPng.fileName = '/' :: (uploadPathDefault ++ '/' ::
      storageFilename envZero.timestamp envZero.uuid reqJpgDecl.declaredMime) ∧
    ∀ o2, runUpload envZero (some { reqJpgDecl with originalname := o2 }) =
      renameOrig o2 (runUpload envZero (some reqJpgDecl))) :=
  C3_extension_from_declared envZero reqJpgDecl respJpgFromPng
    (by
      rw [runUpload_ok_char envZero reqJpgDecl (s2l "image/png")
        (by rw [show reqJpgDecl.content = pngBytes2048 from rfl, pngBytes2048_length]; decide)
        (sniff_of_pngSig _) (by decide) (by decide)
        (by rw [show reqJpgDecl.content = pngBytes2048 from rfl, pngBytes2048_length]; decide)
        (by decide)]
      simp [respJpgFromPng, reqJpgDecl, pngBytes2048_length]
      decide)

/-- C4: every rejected upload — size, type, or sanitization — has its
staged file deleted before the fault propagates: after any run whose
outcome is an error, no file remains under the storage root. -/
theorem C4_no_residue_on_rejection (env : Env) (req : Option UploadReq)
    (e : UploadError) (h : (runUpload env req).outcome = .error e) :
    (runUpload env req).disk = none := by
  rcases hr : runUpload env req with ⟨out, d, ops⟩
  rw [hr] at h
  have hout : out = .error e := h
  subst hout
  have hd := runUpload_eq_error_disk env req e d ops hr
  simpa using hd

theorem C4_no_residue_on_rejection_witness :
    (runUpload envZero (some ⟨s2l "b.bin", s2l "image/png", zeros1024⟩)).disk = none :=
  C4_no_residue_on_rejection envZero (some ⟨s2l "b.bin", s2l "image/png", zeros1024⟩)
    .typeUndetected
    (by
      rw [runUpload_undetected_char envZero _
        (by rw [show (⟨s2l "b.bin", s2l "image/png", zeros1024⟩ : UploadReq).content
              = zeros1024 from rfl, zeros1024_length]; decide)
        (by decide)])

/-- C6: every file the run leaves on disk carries a generated name built
only from the timestamp, the random UUID and the mimetype-mapped
extension: all its characters are alphanumeric, `-` or `.`; it contains no
path separator and no `..`, so joining it under the storage root cannot
escape the root; and the caller-declared original filename is never
consumed by name generation — changing it changes nothing in the run
except the metadata echo. -/
theorem C6_stored_name_safety (env : Env) (req : Option UploadReq)
    (f : UploadedFile) (hd : (runUpload env req).disk = some f) :
    (∀ c ∈ f.filename, safeNameChar c = true) ∧
    '/' ∉ f.filename ∧
    '\\' ∉ f.filename ∧
    containsL (s2l "..") f.filename = false ∧
    (∀ r o2, runUpload env (some { r with originalname := o2 }) =
      renameOrig o2 (runUpload env (some r))) := by
  have hname : ∃ mt, f.filename = storageFilename env.timestamp env.uuid mt := by
    rcases hr : runUpload env req with ⟨out, d, ops⟩
    rw [hr] at hd
    have hd2 : d = some f := hd
    cases out with
    | error e =>
      have hdn : d = none := runUpload_eq_error_disk env req e d ops hr
      rw [hdn] at hd2
      cases hd2
    | ok resp =>
      cases req with
      | none =>
        rw [show runUpload env none = ⟨.error .noFile, none, []⟩ from rfl] at hr
        cases hr
      | some r =>
        have hout : (runUpload env (some r)).outcome = .ok resp := by rw [hr]
        have hmap := (runUpload_ok_inv env r resp hout).2.2.2.2.2.1
        rw [hr] at hmap
        simp only at hmap
        rw [hd2] at hmap
        simp only [Option.map_some'] at hmap
        exact ⟨r.declaredMime, by injection hmap⟩
  obtain ⟨mt, hfn⟩ := hname
  have hchars := storageFilename_chars env.timestamp env.uuid mt
  refine ⟨by rw [hfn]; exact hchars, ?_, ?_, ?_,
    fun r o2 => runUpload_originalname env r o2⟩
  · rw [hfn]
    exact not_mem_of_safe hchars (by decide)
  · rw [hfn]
    exact not_mem_of_safe hchars (by decide)
  · rw [hfn]
    exact storageFilename_no_dotdot env.timestamp env.uuid mt

theorem C6_stored_name_safety_witness :
    (∀ c ∈ pngDiskFile.filename, safeNameChar c = true) ∧
    '/' ∉ pngDiskFile.filename ∧
    '\\' ∉ pngDiskFile.filename ∧
    containsL (s2l "..") pngDiskFile.filename = false ∧
    (∀ r o2, runUpload envZero (some { r with originalname := o2 }) =
      renameOrig o2 (runUpload envZero (some r))) :=
  C6_stored_name_safety envZero (some reqPng) pngDiskFile
    (by
      rw [runUpload_ok_char envZero reqPng (s2l "image/png")
        (by rw [show reqPng.content = pngBytes2048 from rfl, pngBytes2048_length]; decide)
        (sniff_of_pngSig _) (by decide) (by decide)
        (by rw [show reqPng.content = pngBytes2048 from rfl, pngBytes2048_length]; decide)
        (by decide)]
      simp [pngDiskFile, reqPng, pngBytes2048_length]
      decide)

/-- C7 counterexample: a 1 KB upload whose bytes carry no signature is
below the 2 KB minimum, yet it is rejected with the undetected-type error
— `validateFileType` runs before the size check of `uploadFile` — not with
a size error, contradicting the claim that every under-minimum upload
yields a size error. -/
theorem C7_size_error_counterexample :
    (runUpload envZero (some ⟨s2l "b.bin", s2l "image/png", zeros1024⟩)).outcome =
      .error .typeUndetected ∧
    zeros1024.length < MIN_FILE_SIZE_BYTES ∧
    UploadError.typeUndetected ≠ UploadError.sizeTooSmall := by
  refine ⟨?_, by rw [zeros1024_length]; decide, by decide⟩
  rw [runUpload_undetected_char envZero _
    (by rw [show (⟨s2l "b.bin", s2l "image/png", zeros1024⟩ : UploadReq).content
          = zeros1024 from rfl, zeros1024_length]; decide)
    (by decide)]

/-- C7 amended: an upload whose actual bytes-written count is below
MIN = 2 KB or above MAX = 10 MB never produces a success response; one
above MAX is rejected by the staging limit with the size error (and no
file remains); one below MIN that passes type validation (and is not
stopped earlier by the SVG-processing fault) is rejected with the
too-small size error and no file remains on disk. -/
theorem C7_size_bounds_amended :
    (∀ env r resp,
      (r.content.length < MIN_FILE_SIZE_BYTES ∨ MAX_FILE_SIZE_BYTES < r.content.length) →
      (runUpload env (some r)).outcome ≠ .ok resp) ∧
    (∀ env r, MAX_FILE_SIZE_BYTES < r.content.length →
      runUpload env (some r) = ⟨.error .sizeTooLarge, none, [.write, .unlink]⟩) ∧
    (∀ env r m, env.svgIoFault = false →
      r.content.length < MIN_FILE_SIZE_BYTES →
      fileTypeFromBuffer (sniffBuffer r.content) = some m →
      (allowedTypes.any (fun t => t.mime = m)) = true →
      (runUpload env (some r)).outcome = .error .sizeTooSmall ∧
      (runUpload env (some r)).disk = none) := by
  refine ⟨?_, ?_, ?_⟩
  · intro env r resp hsz h
    rcases hsz with hlt | hgt
    · exact absurd hlt (runUpload_ok_inv env r resp h).2.2.2.2.2.2.2.2
    · exact absurd hgt (runUpload_ok_inv env r resp h).2.2.2.2.2.2.2.1
  · intro env r hgt
    simp [runUpload, multerSingle, show r.content.length > MAX_FILE_SIZE_BYTES from hgt]
  · intro env r m hfault hmin hft ha
    have hmax : ¬ r.content.length > MAX_FILE_SIZE_BYTES := by
      unfold MIN_FILE_SIZE_BYTES at hmin
      unfold MAX_FILE_SIZE_BYTES
      omega
    by_cases hsvg : r.declaredMime = s2l "image/svg+xml"
    · constructor <;>
        simp [runUpload, multerSingle, validateFileTypeStep, postProcessFileStep,
          uploadFileStep, hmax, hft, ha, hsvg, hfault, hmin]
    · constructor <;>
        simp [runUpload, multerSingle, validateFileTypeStep, postProcessFileStep,
          uploadFileStep, hmax, hft, ha, hsvg, hmin]

theorem C7_size_bounds_amended_witness :
    ((runUpload envZero (some ⟨s2l "s.png", s2l "image/png", pngSmall⟩)).outcome ≠
      .ok respPng) ∧
    (runUpload envZero (some ⟨s2l "big.png", s2l "image/png", bigContent⟩) =
      ⟨.error .sizeTooLarge, none, [.write, .unlink]⟩) ∧
    ((runUpload envZero (some ⟨s2l "s.png", s2l "image/png", pngSmall⟩)).outcome =
      .error .sizeTooSmall ∧
     (runUpload envZero (some ⟨s2l "s.png", s2l "image/png", pngSmall⟩)).disk = none) :=
  ⟨C7_size_bounds_amended.1 envZero ⟨s2l "s.png", s2l "image/png", pngSmall⟩ respPng
      (Or.inl (by rw [show (⟨s2l "s.png", s2l "image/png", pngSmall⟩ : UploadReq).content
        = pngSmall from rfl, pngSmall_length]; decide)),
   C7_size_bounds_amended.2.1 envZero ⟨s2l "big.png", s2l "image/png", bigContent⟩
      (by rw [show (⟨s2l "big.png", s2l "image/png", bigContent⟩ : UploadReq).content
        = bigContent from rfl, bigContent_length]; decide),
   C7_size_bounds_amended.2.2 envZero ⟨s2l "s.png", s2l "image/png", pngSmall⟩
      (s2l "image/png") rfl
      (by rw [show (⟨s2l "s.png", s2l "image/png", pngSmall⟩ : UploadReq).content
        = pngSmall from rfl, pngSmall_length]; decide)
      (sniff_of_pngSig _) (by decide)⟩

/-- C9: the `mimetype` of the success payload is the caller-declared
content-type copied verbatim, not the sniffed type: two accepted uploads
with identical bytes but different declared types return descriptors that
differ exactly in that field. -/
theorem C9_mimetype_is_declared :
    (∀ env r resp, (runUpload env (some r)).outcome = .ok resp →
      resp.mimetype = r.declaredMime) ∧
    (∀ env r1 r2 resp1 resp2, r1.content = r2.content →
      r1.declaredMime ≠ r2.declaredMime →
      (runUpload env (some r1)).outcome = .ok resp1 →
      (runUpload env (some r2)).outcome = .ok resp2 →
      resp1.mimetype ≠ resp2.mimetype) := by
  constructor
  · intro env r resp h
    exact (runUpload_ok_inv env r resp h).2.1
  · intro env r1 r2 resp1 resp2 _ hneq h1 h2
    rw [(runUpload_ok_inv env r1 resp1 h1).2.1, (runUpload_ok_inv env r2 resp2 h2).2.1]
    exact hneq

theorem C9_mimetype_is_declared_witness :
    respGifFromPng.mimetype = reqGifDecl.declaredMime ∧
    respGifFromPng.mimetype ≠ respPng.mimetype :=
  ⟨C9_mimetype_is_declared.1 envZero reqGifDecl respGifFromPng
      (by
        rw [runUpload_ok_char envZero reqGifDecl (s2l "image/png")
          (by rw [show reqGifDecl.content = pngBytes2048 from rfl, pngBytes2048_length]; decide)
          (sniff_of_pngSig _) (by decide) (by decide)
          (by rw [show reqGifDecl.content = pngBytes2048 from rfl, pngBytes2048_length]; decide)
          (by decide)]
        simp [respGifFromPng, reqGifDecl, pngBytes2048_length]
        decide),
   C9_mimetype_is_declared.2 envZero reqGifDecl reqPng respGifFromPng respPng rfl
      (by decide)
      (by
        rw [runUpload_ok_char envZero reqGifDecl (s2l "image/png")
          (by rw [show reqGifDecl.content = pngBytes2048 from rfl, pngBytes2048_length]; decide)
          (sniff_of_pngSig _) (by decide) (by decide)
          (by rw [show reqGifDecl.content = pngBytes2048 from rfl, pngBytes2048_length]; decide)
          (by decide)]
        simp [respGifFromPng, reqGifDecl, pngBytes2048_length]
        decide)
      (by
        rw [runUpload_ok_char envZero reqPng (s2l "image/png")
          (by rw [show reqPng.content = pngBytes2048 from rfl, pngBytes2048_length]; decide)
          (sniff_of_pngSig _) (by decide) (by decide)
          (by rw [show reqPng.content = pngBytes2048 from rfl, pngBytes2048_length]; decide)
          (by decide)]
        simp [respPng, reqPng, pngBytes2048_length]
        decide)⟩

/-- C10: a request with no file performs no filesystem operation anywhere
in the pipeline — `validateFileType` and `postProcessFile` pass it through
untouched — and `uploadFile` rejects it with the no-file BadRequestError
rather than succeeding or crashing. -/
theorem C10_no_file_request (env : Env) :
    runUpload env none = ⟨.error .noFile, none, []⟩ ∧
    validateFileTypeStep none = ⟨.ok none, none, []⟩ ∧
    postProcessFileStep env none = ⟨.ok none, none, []⟩ :=
  ⟨rfl, rfl, rfl⟩

/-! ## Character-level lemmas for the sanitizer development -/

theorem toLower_ne_B : ∀ c : Char, Char.toLower c ≠ 'B' := by
  intro c h
  simp only [Char.toLower] at h
  split at h
  · rename_i hc
    have hv : Nat.isValidChar (c.toNat + 32) := by
      left; omega
    unfold Char.ofNat at h
    rw [dif_pos hv] at h
    have h2 : (Char.ofNatAux (c.toNat + 32) hv).toNat = c.toNat + 32 := rfl
    have h3 : c.toNat + 32 = 66 := by rw [← h2, h]; decide
    omega
  · rename_i hc
    subst h
    exact hc (by decide)

theorem isSpaceJS_cases {c : Char} (h : isSpaceJS c = true) :
    c = ' ' ∨ c = '\t' ∨ c = '\n' ∨ c = '\x0d' ∨ c = '\x0b' ∨ c = '\x0c' := by
  simp [isSpaceJS] at h
  tauto

theorem legal_not_space {c : Char} (h : legalAttrNameChar c = true) :
    isSpaceJS c = false := by
  by_contra hs
  rw [Bool.not_eq_false] at hs
  rcases isSpaceJS_cases hs with h1 | h1 | h1 | h1 | h1 | h1 <;>
    (subst h1; exact absurd h (by decide))

theorem legal_ne {c : Char} (h : legalAttrNameChar c = true) :
    c ≠ '=' ∧ c ≠ '"' ∧ c ≠ '\'' ∧ c ≠ '<' ∧ c ≠ '>' ∧ c ≠ ' ' := by
  refine ⟨?_, ?_, ?_, ?_, ?_, ?_⟩ <;> (intro he; subst he; exact absurd h (by decide))

theorem normWs_of_not_space {c : Char} (h : isSpaceJS c = false) : normWs c = c := by
  simp [normWs, h]

theorem normWs_cases (c : Char) : normWs c = c ∨ normWs c = ' ' := by
  by_cases h : isSpaceJS c
  · right; simp [normWs, h]
  · left; simp [normWs, h]

theorem normWs_ne {c d : Char} (hc : c ≠ d) (hd : d ≠ ' ') : normWs c ≠ d := by
  rcases normWs_cases c with h | h <;> rw [h]
  · exact hc
  · exact fun he => hd he.symm

/-! ## Trim lemmas -/

theorem dropWhile_eq_self_of_all {p : Char → Bool} {l : List Char}
    (h : ∀ c ∈ l, p c = false) : l.dropWhile p = l := by
  cases l with
  | nil => rfl
  | cons c r => simp [List.dropWhile, h c (by simp)]

theorem trimJS_eq_self_of_all {l : List Char}
    (h : ∀ c ∈ l, isSpaceJS c = false) : trimJS l = l := by
  unfold trimJS
  rw [dropWhile_eq_self_of_all h, dropWhile_eq_self_of_all (by
    intro c hc; exact h c (by simpa using hc)), List.reverse_reverse]

theorem headNS_dropWhile (l : List Char) : headNS (l.dropWhile isSpaceJS) := by
  induction l with
  | nil => intro c hc; simp at hc
  | cons a r ih =>
    intro c hc
    by_cases ha : isSpaceJS a
    · rw [List.dropWhile_cons_of_pos ha] at hc
      exact ih c hc
    · rw [List.dropWhile_cons_of_neg ha] at hc
      simp at hc
      rw [← hc]
      simpa using ha

theorem head?_of_prefix {l₁ l₂ : List Char} (h : l₁ <+: l₂) (hne : l₁ ≠ []) :
    l₂.head? = l₁.head? := by
  obtain ⟨t, ht⟩ := h
  subst ht
  cases l₁ with
  | nil => exact absurd rfl hne
  | cons a r => simp

theorem trimJS_prefix_dropWhile (l : List Char) :
    trimJS l <+: l.dropWhile isSpaceJS := by
  unfold trimJS
  have h := List.dropWhile_suffix (l := (l.dropWhile isSpaceJS).reverse) isSpaceJS
  have h2 := h.reverse
  simpa using h2

theorem headNS_trimJS (l : List Char) : headNS (trimJS l) := by
  intro c hc
  by_cases hne : trimJS l = []
  · rw [hne] at hc; simp at hc
  · have h2 := head?_of_prefix (trimJS_prefix_dropWhile l) hne
    exact headNS_dropWhile l c (by rw [h2]; exact hc)

theorem lastNS_trimJS (l : List Char) : lastNS (trimJS l) := by
  intro c hc
  unfold trimJS at hc
  rw [List.getLast?_reverse] at hc
  exact headNS_dropWhile (l.dropWhile isSpaceJS).reverse c hc

theorem trimJS_eq_self_of (h1 : headNS l) (h2 : lastNS l) : trimJS l = l := by
  unfold trimJS
  have hl : l.dropWhile isSpaceJS = l := by
    cases l with
    | nil => rfl
    | cons a r => rw [List.dropWhile_cons_of_neg (by simp [h1 a rfl])]
  rw [hl]
  have hr : l.reverse.dropWhile isSpaceJS = l.reverse := by
    cases hrev : l.reverse with
    | nil => rfl
    | cons a r =>
      rw [List.dropWhile_cons_of_neg]
      have : l.getLast? = some a := by
        rw [← List.head?_reverse, hrev]; rfl
      simp [h2 a this]
  rw [hr, List.reverse_reverse]

theorem trimJS_trimJS (l : List Char) : trimJS (trimJS l) = trimJS l :=
  trimJS_eq_self_of (headNS_trimJS l) (lastNS_trimJS l)

theorem headNS_of_trim_fix {l : List Char} (h : trimJS l = l) : headNS l := by
  rw [← h]; exact headNS_trimJS l

theorem lastNS_of_trim_fix {l : List Char} (h : trimJS l = l) : lastNS l := by
  rw [← h]; exact lastNS_trimJS l

theorem trimJS_subset (l : List Char) : trimJS l ⊆ l := by
  intro c hc
  have h1 := (trimJS_prefix_dropWhile l).subset hc
  exact (List.dropWhile_suffix isSpaceJS).subset h1

/-! ## Escaping lemmas -/

theorem escQuote_cons_of_ne {a : Char} (l : List Char) (ha : a ≠ '"') :
    escQuote (a :: l) = a :: escQuote l := by
  rw [escQuote]
  exact fun hh => ha hh

theorem mem_escQuote {c : Char} {v : List Char} (h : c ∈ escQuote v) :
    c ∈ v ∨ c ∈ escIntro := by
  induction v using escQuote.induct with
  | case1 => simp [escQuote] at h
  | case2 r ih =>
    rw [escQuote] at h
    simp only [List.mem_cons] at h
    rcases h with h | h | h | h | h | h | h
    · right; subst h; decide
    · right; subst h; decide
    · right; subst h; decide
    · right; subst h; decide
    · right; subst h; decide
    · right; subst h; decide
    · rcases ih h with h2 | h2
      · left; simp [h2]
      · right; exact h2
  | case3 a r ha ih =>
    rw [escQuote_cons_of_ne r (fun hh => ha hh)] at h
    simp only [List.mem_cons] at h
    rcases h with h | h
    · left; simp [h]
    · rcases ih h with h2 | h2
      · left; simp [h2]
      · right; exact h2

theorem escQuote_no_quote (v : List Char) : '"' ∉ escQuote v := by
  induction v using escQuote.induct with
  | case1 => simp [escQuote]
  | case2 r ih =>
    rw [escQuote]
    intro h
    simp only [List.mem_cons] at h
    rcases h with h | h | h | h | h | h | h <;> first
      | exact absurd h.symm (by decide)
      | exact ih h
  | case3 a r ha ih =>
    rw [escQuote_cons_of_ne r (fun hh => ha hh)]
    intro h
    simp only [List.mem_cons] at h
    rcases h with h | h
    · exact ha h.symm
    · exact ih h

theorem unescapeQuote_nil : unescapeQuote [] = [] := rfl

theorem escQuote_unescapeQuote {v : List Char} (h : '"' ∉ v) :
    escQuote (unescapeQuote v) = v := by
  induction v using unescapeQuote.induct with
  | case1 r ih =>
    rw [unescapeQuote, escQuote, ih (by intro hh; exact h (by simp [hh]))]
  | case2 a r hne ih =>
    have ha : a ≠ '"' := by intro hh; exact h (by simp [hh])
    rw [unescapeQuote]
    · rw [escQuote_cons_of_ne _ ha, ih (by intro hh; exact h (by simp [hh]))]
    · exact hne
  | case3 => rfl

theorem mem_escHtmlChar {c d : Char} (h : c ∈ escHtmlChar d) :
    (c = d ∧ d ≠ '<' ∧ d ≠ '>') ∨ c ∈ escIntro := by
  unfold escHtmlChar at h
  by_cases h1 : d = '<'
  · rw [if_pos h1] at h
    right
    simp only [List.mem_cons] at h
    rcases h with h | h | h | h | h <;> first
      | (subst h; decide)
      | simp at h
  · rw [if_neg h1] at h
    by_cases h2 : d = '>'
    · rw [if_pos h2] at h
      right
      simp only [List.mem_cons] at h
      rcases h with h | h | h | h | h <;> first
        | (subst h; decide)
        | simp at h
    · rw [if_neg h2] at h
      left
      simp at h
      exact ⟨h, h1, h2⟩

theorem escHtmlChar_no_ltgt {c d : Char} (h : c ∈ escHtmlChar d) :
    c ≠ '<' ∧ c ≠ '>' := by
  unfold escHtmlChar at h
  by_cases h1 : d = '<'
  · rw [if_pos h1] at h
    simp only [List.mem_cons] at h
    rcases h with h | h | h | h | h <;> first
      | (subst h; decide)
      | simp at h
  · rw [if_neg h1] at h
    by_cases h2 : d = '>'
    · rw [if_pos h2] at h
      simp only [List.mem_cons] at h
      rcases h with h | h | h | h | h <;> first
        | (subst h; decide)
        | simp at h
    · rw [if_neg h2] at h
      simp at h
      subst h
      exact ⟨h1, h2⟩

theorem escHtmlChar_no_quote {c d : Char} (h : c ∈ escHtmlChar d)
    (hd : d ≠ '"') : c ≠ '"' := by
  unfold escHtmlChar at h
  by_cases h1 : d = '<'
  · rw [if_pos h1] at h
    simp only [List.mem_cons] at h
    rcases h with h | h | h | h | h <;> first
      | (subst h; decide)
      | simp at h
  · rw [if_neg h1] at h
    by_cases h2 : d = '>'
    · rw [if_pos h2] at h
      simp only [List.mem_cons] at h
      rcases h with h | h | h | h | h <;> first
        | (subst h; decide)
        | simp at h
    · rw [if_neg h2] at h
      simp at h
      subst h
      exact hd

theorem escHtml_no_ltgt {c : Char} {v : List Char} (h : c ∈ escHtml v) :
    c ≠ '<' ∧ c ≠ '>' := by
  unfold escHtml at h
  rw [List.mem_flatMap] at h
  obtain ⟨d, _, hd⟩ := h
  exact escHtmlChar_no_ltgt hd

theorem mem_escHtml {c : Char} {v : List Char} (h : c ∈ escHtml v) :
    c ∈ v ∨ c ∈ escIntro := by
  unfold escHtml at h
  rw [List.mem_flatMap] at h
  obtain ⟨d, hdv, hd⟩ := h
  rcases mem_escHtmlChar hd with ⟨h1, _, _⟩ | h1
  · left; rw [h1]; exact hdv
  · right; exact h1

theorem escHtml_no_quote {v : List Char} (h : '"' ∉ v) : '"' ∉ escHtml v := by
  intro hm
  unfold escHtml at hm
  rw [List.mem_flatMap] at hm
  obtain ⟨d, hdv, hd⟩ := hm
  have hdq : d ≠ '"' := fun he => h (he ▸ hdv)
  exact escHtmlChar_no_quote hd hdq rfl

theorem getLast?_cons_of_ne {a : Char} {l : List Char} (h : l ≠ []) :
    (a :: l).getLast? = l.getLast? := by
  cases l with
  | nil => exact absurd rfl h
  | cons b r => exact List.getLast?_cons_cons

theorem getLast?_append_right {l l' : List Char} (h : l' ≠ []) :
    (l ++ l').getLast? = l'.getLast? := by
  rw [List.getLast?_append]
  cases hl : l'.getLast? with
  | none => exact absurd (List.getLast?_eq_none_iff.mp hl) h
  | some a => rfl

theorem unescapeQuote_ne_nil {v : List Char} (h : v ≠ []) :
    unescapeQuote v ≠ [] := by
  induction v using unescapeQuote.induct with
  | case1 r ih => rw [unescapeQuote]; simp
  | case2 a r hne ih =>
    rw [unescapeQuote]
    · simp
    · exact hne
  | case3 => exact absurd rfl h

theorem escQuote_ne_nil {v : List Char} (h : v ≠ []) : escQuote v ≠ [] := by
  induction v using escQuote.induct with
  | case1 => exact absurd rfl h
  | case2 r ih => rw [escQuote]; simp
  | case3 a r ha ih => rw [escQuote_cons_of_ne r (fun hh => ha hh)]; simp

theorem escHtmlChar_ne_nil (c : Char) : escHtmlChar c ≠ [] := by
  unfold escHtmlChar
  by_cases h1 : c = '<'
  · simp [h1]
  · rw [if_neg h1]
    by_cases h2 : c = '>' <;> simp [h2]

theorem escHtml_ne_nil {v : List Char} (h : v ≠ []) : escHtml v ≠ [] := by
  cases v with
  | nil => exact absurd rfl h
  | cons a r =>
    unfold escHtml
    rw [List.flatMap_cons]
    intro hc
    exact escHtmlChar_ne_nil a (List.append_eq_nil.mp hc).1

theorem headNS_unescapeQuote {v : List Char} (h : headNS v) :
    headNS (unescapeQuote v) := by
  induction v using unescapeQuote.induct with
  | case1 r ih =>
    rw [unescapeQuote]
    intro c hc
    simp at hc
    rw [← hc]
    decide
  | case2 a r hne ih =>
    rw [unescapeQuote]
    · intro c hc
      simp at hc
      rw [← hc]
      exact h a rfl
    · exact hne
  | case3 => intro c hc; simp [unescapeQuote] at hc

theorem lastNS_of_cons {a : Char} {l : List Char} (h : lastNS (a :: l))
    (hne : l ≠ []) : lastNS l := by
  intro c hc
  exact h c (by rw [getLast?_cons_of_ne hne]; exact hc)

theorem lastNS_pre_append {pre l : List Char} (hl : l ≠ []) (h : lastNS l) :
    lastNS (pre ++ l) := by
  intro c hc
  rw [getLast?_append_right hl] at hc
  exact h c hc

theorem lastNS_of_pre_append {pre l : List Char} (h : lastNS (pre ++ l))
    (hl : l ≠ []) : lastNS l := by
  intro c hc
  exact h c (by rw [getLast?_append_right hl]; exact hc)

theorem lastNS_unescapeQuote {v : List Char} (h : lastNS v) :
    lastNS (unescapeQuote v) := by
  induction v using unescapeQuote.induct with
  | case1 r ih =>
    rw [unescapeQuote]
    by_cases hr : r = []
    · subst hr
      intro c hc
      simp [unescapeQuote] at hc
      rw [← hc]
      decide
    · have hr2 : unescapeQuote r ≠ [] := unescapeQuote_ne_nil hr
      intro c hc
      rw [getLast?_cons_of_ne hr2] at hc
      have hlr : lastNS r :=
        @lastNS_of_pre_append ['&', 'q', 'u', 'o', 't', ';'] r h hr
      exact ih hlr c hc
  | case2 a r hne ih =>
    rw [unescapeQuote]
    · by_cases hr : r = []
      · subst hr
        intro c hc
        simp [unescapeQuote] at hc
        rw [← hc]
        exact h a rfl
      · have hr2 : unescapeQuote r ≠ [] := unescapeQuote_ne_nil hr
        intro c hc
        rw [getLast?_cons_of_ne hr2] at hc
        exact ih (lastNS_of_cons h hr) c hc
    · exact hne
  | case3 => intro c hc; simp [unescapeQuote] at hc

theorem headNS_escQuote {v : List Char} (h : headNS v) : headNS (escQuote v) := by
  induction v using escQuote.induct with
  | case1 => intro c hc; simp [escQuote] at hc
  | case2 r ih =>
    rw [escQuote]
    intro c hc
    simp at hc
    rw [← hc]
    decide
  | case3 a r ha ih =>
    rw [escQuote_cons_of_ne r (fun hh => ha hh)]
    intro c hc
    simp at hc
    rw [← hc]
    exact h a rfl

theorem lastNS_escQuote {v : List Char} (h : lastNS v) : lastNS (escQuote v) := by
  induction v using escQuote.induct with
  | case1 => intro c hc; simp [escQuote] at hc
  | case2 r ih =>
    rw [escQuote]
    by_cases hr : r = []
    · subst hr
      intro c hc
      simp [escQuote] at hc
      rw [← hc]
      decide
    · have hr2 : escQuote r ≠ [] := escQuote_ne_nil hr
      have hlr : lastNS r := lastNS_of_cons h hr
      exact @lastNS_pre_append ['&', 'q', 'u', 'o', 't', ';'] (escQuote r) hr2 (ih hlr)
  | case3 a r ha ih =>
    rw [escQuote_cons_of_ne r (fun hh => ha hh)]
    by_cases hr : r = []
    · subst hr
      intro c hc
      simp [escQuote] at hc
      rw [← hc]
      exact h a rfl
    · have hr2 : escQuote r ≠ [] := escQuote_ne_nil hr
      intro c hc
      rw [getLast?_cons_of_ne hr2] at hc
      exact ih (lastNS_of_cons h hr) c hc

theorem headNS_escHtmlChar {a c : Char} (ha : isSpaceJS a = false)
    (hc : (escHtmlChar a).head? = some c) : isSpaceJS c = false := by
  unfold escHtmlChar at hc
  by_cases h1 : a = '<'
  · rw [if_pos h1] at hc
    simp at hc
    rw [← hc]; decide
  · rw [if_neg h1] at hc
    by_cases h2 : a = '>'
    · rw [if_pos h2] at hc
      simp at hc
      rw [← hc]; decide
    · rw [if_neg h2] at hc
      simp at hc
      rw [← hc]; exact ha

theorem lastNS_escHtmlChar {a c : Char} (ha : isSpaceJS a = false)
    (hc : (escHtmlChar a).getLast? = some c) : isSpaceJS c = false := by
  unfold escHtmlChar at hc
  by_cases h1 : a = '<'
  · rw [if_pos h1] at hc
    simp at hc
    rw [← hc]; decide
  · rw [if_neg h1] at hc
    by_cases h2 : a = '>'
    · rw [if_pos h2] at hc
      simp at hc
      rw [← hc]; decide
    · rw [if_neg h2] at hc
      simp at hc
      rw [← hc]; exact ha

theorem headNS_escHtml {v : List Char} (h : headNS v) : headNS (escHtml v) := by
  cases v with
  | nil => intro c hc; simp [escHtml] at hc
  | cons a r =>
    unfold escHtml
    rw [List.flatMap_cons]
    intro c hc
    rw [List.head?_append_of_ne_nil _ (escHtmlChar_ne_nil a)] at hc
    exact headNS_escHtmlChar (h a rfl) hc

theorem lastNS_escHtml {v : List Char} (h : lastNS v) : lastNS (escHtml v) := by
  induction v with
  | nil => intro c hc; simp [escHtml] at hc
  | cons a r ih =>
    unfold escHtml
    rw [List.flatMap_cons]
    by_cases hr : r = []
    · subst hr
      intro c hc
      simp only [List.flatMap_nil, List.append_nil] at hc
      exact lastNS_escHtmlChar (h a rfl) hc
    · have hne : r.flatMap escHtmlChar ≠ [] := escHtml_ne_nil hr
      intro c hc
      rw [getLast?_append_right hne] at hc
      exact ih (lastNS_of_cons h hr) c hc

/-! ## Safe-attribute-value facts -/

theorem safeAttrValue_no_quote (v : List Char) : '"' ∉ safeAttrValue v :=
  escHtml_no_quote (escQuote_no_quote (friendlyAttrValue v))

theorem safeAttrValue_no_ltgt {c : Char} {v : List Char}
    (h : c ∈ safeAttrValue v) : c ≠ '<' ∧ c ≠ '>' := escHtml_no_ltgt h

theorem mem_clearNonPrintable32 {c : Char} {l : List Char}
    (h : c ∈ clearNonPrintableCharacter l) : 32 ≤ c.toNat := by
  have h1 := trimJS_subset _ h
  rw [List.mem_map] at h1
  obtain ⟨d, _, hd⟩ := h1
  by_cases h2 : d.toNat < 32
  · rw [if_pos h2] at hd
    rw [← hd]
    decide
  · rw [if_neg h2] at hd
    rw [← hd]
    omega

theorem mem_friendly {c : Char} {v : List Char} (h : c ∈ friendlyAttrValue v) :
    32 ≤ c.toNat := mem_clearNonPrintable32 h

theorem mem_safeAttrValue32 {c : Char} {v : List Char}
    (h : c ∈ safeAttrValue v) : 32 ≤ c.toNat := by
  rcases mem_escHtml h with h1 | h1
  · rcases mem_escQuote h1 with h2 | h2
    · exact mem_friendly h2
    · fin_cases h2 <;> decide
  · fin_cases h1 <;> decide

theorem friendly_trim_fix (v : List Char) :
    trimJS (friendlyAttrValue v) = friendlyAttrValue v := trimJS_trimJS _

theorem safeAttrValue_trim_fix (v : List Char) :
    trimJS (safeAttrValue v) = safeAttrValue v :=
  trimJS_eq_self_of
    (headNS_escHtml (headNS_escQuote (headNS_of_trim_fix (friendly_trim_fix v))))
    (lastNS_escHtml (lastNS_escQuote (lastNS_of_trim_fix (friendly_trim_fix v))))

/-! ## Identity of the friendly-value stages on pattern-free input -/

theorem SafeValV_safeAttrValue {V : List Char → Prop} {v : List Char}
    (hV : V (safeAttrValue v)) : SafeValV V (safeAttrValue v) := by
  refine ⟨?_, safeAttrValue_trim_fix v, hV⟩
  intro c hc
  exact ⟨fun he => safeAttrValue_no_quote v (he ▸ hc), (safeAttrValue_no_ltgt hc).1,
    (safeAttrValue_no_ltgt hc).2, mem_safeAttrValue32 hc⟩

theorem stripQuoteWrap_subset (t : List Char) : stripQuoteWrap t ⊆ t := by
  unfold stripQuoteWrap
  split
  · intro c hc
    exact (List.drop_subset 1 t) ((List.dropLast_prefix (t.drop 1)).subset hc)
  · exact fun c hc => hc

theorem stripQuoteWrap_eq_self_of_no_quote {t : List Char}
    (h1 : '"' ∉ t) (h2 : '\'' ∉ t) : stripQuoteWrap t = t := by
  unfold stripQuoteWrap
  rw [if_neg]
  intro hc
  simp only [Bool.or_eq_true, Bool.and_eq_true, decide_eq_true_eq] at hc
  rcases hc with ⟨hh, _⟩ | ⟨hh, _⟩
  · exact h1 (List.mem_of_mem_head? (by rw [hh]; rfl))
  · exact h2 (List.mem_of_mem_head? (by rw [hh]; rfl))

theorem all_space_dropWhile_append {a b : List Char}
    (h : ∀ c ∈ a, isSpaceJS c = true) :
    (a ++ b).dropWhile isSpaceJS = b.dropWhile isSpaceJS := by
  induction a with
  | nil => rfl
  | cons x r ih =>
    rw [List.cons_append, List.dropWhile_cons_of_pos (h x (by simp))]
    exact ih (fun c hc => h c (by simp [hc]))

theorem trimJS_space_left {a b : List Char} (h : ∀ c ∈ a, isSpaceJS c = true) :
    trimJS (a ++ b) = trimJS b := by
  unfold trimJS
  rw [all_space_dropWhile_append h]

theorem dropWhile_append_of_ne_nil {a b : List Char}
    (h : a.dropWhile isSpaceJS ≠ []) :
    (a ++ b).dropWhile isSpaceJS = a.dropWhile isSpaceJS ++ b := by
  rw [List.dropWhile_append, if_neg (by simpa using h)]

/-- The value flushed when input ends inside a quoted region is trimmed:
either the quote unwrapping does not fire, or the whole slice was just the
quote character and the result is empty. -/
theorem sqw_inQ_trim {pend v : List Char} {q : Char} (hq : q = '"' ∨ q = '\'')
    (hp1 : '"' ∉ pend) (hp2 : '\'' ∉ pend) (hv : q ∉ v) :
    trimJS (stripQuoteWrap (trimJS (pend ++ q :: v))) =
      stripQuoteWrap (trimJS (pend ++ q :: v)) := by
  have hqns : isSpaceJS q = false := by rcases hq with h | h <;> (subst h; decide)
  by_cases hcond : (trimJS (pend ++ q :: v)).head? = some '"' ∧
      (trimJS (pend ++ q :: v)).getLast? = some '"' ∨
      (trimJS (pend ++ q :: v)).head? = some '\'' ∧
      (trimJS (pend ++ q :: v)).getLast? = some '\''
  · -- the wrap fires: show the trimmed slice is exactly the quote character
    have hne : trimJS (pend ++ q :: v) ≠ [] := by
      intro hnil
      rcases hcond with ⟨hh, _⟩ | ⟨hh, _⟩ <;> (rw [hnil] at hh; exact absurd hh (by simp))
    have hpall : ∀ c ∈ pend, isSpaceJS c = true := by
      by_contra hno
      push_neg at hno
      obtain ⟨c0, hc0, hc0s⟩ := hno
      have hdne : pend.dropWhile isSpaceJS ≠ [] := by
        rw [Ne, List.dropWhile_eq_nil_iff]
        push_neg
        exact ⟨c0, hc0, hc0s⟩
      -- the head of the trimmed slice is the first non-space of pend
      have hpre : trimJS (pend ++ q :: v) <+:
          pend.dropWhile isSpaceJS ++ q :: v := by
        have hp := trimJS_prefix_dropWhile (pend ++ q :: v)
        rwa [dropWhile_append_of_ne_nil hdne] at hp
      have hheads := head?_of_prefix hpre hne
      have hhead2 : (pend.dropWhile isSpaceJS ++ q :: v).head? =
          (pend.dropWhile isSpaceJS).head? :=
        List.head?_append_of_ne_nil _ hdne
      have hmem : ∀ x, (trimJS (pend ++ q :: v)).head? = some x → x ∈ pend := by
        intro x hx
        rw [← hheads, hhead2] at hx
        exact (List.dropWhile_suffix isSpaceJS).subset (List.mem_of_mem_head? (by rw [hx]; rfl))
      rcases hcond with ⟨hh, _⟩ | ⟨hh, _⟩
      · exact hp1 (hmem _ hh)
      · exact hp2 (hmem _ hh)
    have ht : trimJS (pend ++ q :: v) = trimJS (q :: v) := trimJS_space_left hpall
    -- the head of the trimmed slice is the quote character itself
    have hQ : (trimJS (pend ++ q :: v)).head? = some q := by
      have hpre : trimJS (q :: v) <+: q :: v := by
        have hp := trimJS_prefix_dropWhile (q :: v)
        rwa [List.dropWhile_cons_of_neg (by simp [hqns])] at hp
      have := head?_of_prefix hpre (by rw [← ht]; exact hne)
      rw [ht, ← this]
      rfl
    have hL : (trimJS (pend ++ q :: v)).getLast? = some q := by
      rcases hcond with ⟨hh, hl⟩ | ⟨hh, hl⟩ <;>
        (rw [hQ] at hh; injection hh with hh2; rw [hl, ← hh2])
    have hvall : ∀ c ∈ v, isSpaceJS c = true := by
      by_contra hno
      push_neg at hno
      obtain ⟨c0, hc0, hc0s⟩ := hno
      have hdne : (v.reverse).dropWhile isSpaceJS ≠ [] := by
        rw [Ne, List.dropWhile_eq_nil_iff]
        push_neg
        exact ⟨c0, by simp [hc0], hc0s⟩
      -- the last of the trimmed slice is the last non-space of v
      have hrev : trimJS (q :: v) =
          ((v.reverse ++ [q]).dropWhile isSpaceJS).reverse := by
        unfold trimJS
        rw [List.dropWhile_cons_of_neg (by simp [hqns]), List.reverse_cons]
      have hlast : (trimJS (q :: v)).getLast? =
          ((v.reverse).dropWhile isSpaceJS).head? := by
        rw [hrev, List.getLast?_reverse, dropWhile_append_of_ne_nil hdne,
          List.head?_append_of_ne_nil _ hdne]
      have hqv : q ∈ v := by
        have hx := hL
        rw [ht, hlast] at hx
        have hxm : q ∈ v.reverse :=
          (List.dropWhile_suffix isSpaceJS).subset (List.mem_of_mem_head? (by rw [hx]; rfl))
        simpa using hxm
      exact hv hqv
    -- with everything whitespace around it, the trimmed slice is [q]
    have htq : trimJS (pend ++ q :: v) = [q] := by
      rw [ht]
      unfold trimJS
      rw [List.dropWhile_cons_of_neg (by simp [hqns]), List.reverse_cons,
        all_space_dropWhile_append (by intro c hc; exact hvall c (by simpa using hc)),
        List.dropWhile_cons_of_neg (by simp [hqns])]
      rfl
    rw [htq]
    rcases hq with h | h <;> (subst h; decide)
  · have hsq : stripQuoteWrap (trimJS (pend ++ q :: v)) = trimJS (pend ++ q :: v) := by
      unfold stripQuoteWrap
      rw [if_neg]
      intro hc
      simp only [Bool.or_eq_true, Bool.and_eq_true, decide_eq_true_eq] at hc
      exact hcond hc
    rw [hsq, trimJS_trimJS]

/-! ## Attribute-name facts -/

theorem map_toLower_fixed {n : List Char} (h : ∀ c ∈ n, c.toLower = c) :
    n.map Char.toLower = n := by
  induction n with
  | nil => rfl
  | cons a r ih =>
    rw [List.map_cons, h a (by simp), ih (fun c hc => h c (by simp [hc]))]

theorem map_toLower_ne_viewBox (x : List Char) :
    x.map Char.toLower ≠ s2l "viewBox" := by
  intro h
  have hB : 'B' ∈ x.map Char.toLower := by rw [h]; decide
  rw [List.mem_map] at hB
  obtain ⟨c, _, hc⟩ := hB
  exact toLower_ne_B c hc

theorem AttrNameOk_of_wl {t : List Char} {wl : List (List Char)}
    (h : whiteListAttrs t = some wl) :
    ∀ n ∈ wl, n ≠ s2l "viewBox" → AttrNameOk n := by
  intro n hn hnv
  unfold whiteListAttrs at h
  split_ifs at h with h1 h2 h3 h4 h5 h6
  · rw [Option.some_inj] at h
    subst h
    simp only [List.mem_cons, List.not_mem_nil, or_false] at hn
    rcases hn with hn | hn | hn | hn <;>
      first | (subst hn; unfold AttrNameOk; decide) | (exact absurd hn hnv)
  · rw [Option.some_inj] at h
    subst h
    simp only [List.mem_cons, List.not_mem_nil, or_false] at hn
    rcases hn with hn | hn | hn <;>
      first | (subst hn; unfold AttrNameOk; decide) | (exact absurd hn hnv)
  · rw [Option.some_inj] at h
    subst h
    simp only [List.mem_cons, List.not_mem_nil, or_false] at hn
    rcases hn with hn | hn | hn | hn <;>
      first | (subst hn; unfold AttrNameOk; decide) | (exact absurd hn hnv)
  · rw [Option.some_inj] at h
    subst h
    simp only [List.mem_cons, List.not_mem_nil, or_false] at hn
    rcases hn with hn | hn | hn | hn | hn <;>
      first | (subst hn; unfold AttrNameOk; decide) | (exact absurd hn hnv)
  · rw [Option.some_inj] at h
    subst h
    simp at hn
  · rw [Option.some_inj] at h
    subst h
    simp at hn

theorem addAttr_name_id {n : List Char} (h : AttrNameOk n) :
    ((trimJS n).filter legalAttrNameChar).map Char.toLower = n := by
  rw [trimJS_eq_self_of_all (fun c hc => (h.2 c hc).2.2),
    List.filter_eq_self.mpr (fun c hc => (h.2 c hc).1),
    map_toLower_fixed (fun c hc => (h.2 c hc).2.1)]

theorem tagNameFacts {t : List Char} {wl : List (List Char)}
    (h : whiteListAttrs t = some wl) :
    t ≠ [] ∧ (∀ c ∈ t, isSpaceJS c = false ∧ c ≠ '/' ∧ c ≠ '<' ∧ c ≠ '>' ∧
      c ≠ '"' ∧ c ≠ '\'' ∧ c ≠ '=' ∧ c ≠ '!' ∧ Char.toLower c = c) ∧
      t ∉ stripBodyTags := by
  unfold whiteListAttrs at h
  split_ifs at h with h1 h2 h3 h4 h5 h6 <;>
    first
      | (first
          | (subst h1; decide)
          | (subst h2; decide)
          | (subst h3; decide)
          | (subst h4; decide)
          | (subst h5; decide)
          | (subst h6; decide))
      | exact absurd h (by simp)

/-! ## joinSpace edge lemmas -/

theorem joinSpace_cons (x : List Char) (xs : List (List Char)) :
    joinSpace (x :: xs) = x ++ (if xs = [] then [] else ' ' :: joinSpace xs) := by
  cases xs with
  | nil => simp [joinSpace]
  | cons y ys => rfl

theorem joinSpace_ne_nil {x : List Char} (hx : x ≠ []) (xs : List (List Char)) :
    joinSpace (x :: xs) ≠ [] := by
  rw [joinSpace_cons]
  intro h
  exact hx (List.append_eq_nil.mp h).1

theorem headNS_joinSpace {xs : List (List Char)}
    (h : ∀ x ∈ xs, headNS x ∧ x ≠ []) : headNS (joinSpace xs) := by
  cases xs with
  | nil => intro c hc; simp [joinSpace] at hc
  | cons x ys =>
    rw [joinSpace_cons]
    intro c hc
    rw [List.head?_append_of_ne_nil _ (h x (by simp)).2] at hc
    exact (h x (by simp)).1 c hc

theorem lastNS_joinSpace {xs : List (List Char)}
    (h : ∀ x ∈ xs, lastNS x ∧ x ≠ []) : lastNS (joinSpace xs) := by
  induction xs with
  | nil => intro c hc; simp [joinSpace] at hc
  | cons x ys ih =>
    cases ys with
    | nil => exact (h x (by simp)).1
    | cons y zs =>
      have hy : joinSpace (y :: zs) ≠ [] := joinSpace_ne_nil (h y (by simp)).2 zs
      rw [joinSpace_cons, if_neg (by simp)]
      intro c hc
      rw [getLast?_append_right (by simp), getLast?_cons_of_ne hy] at hc
      exact ih (fun z hz => h z (by simp [hz])) c hc

theorem renderAttr_ne_nil {p : List Char × List Char} (h : AttrNameOk p.1) :
    renderAttr p ≠ [] := by
  unfold renderAttr
  split
  · exact h.1
  · intro hc
    exact h.1 (List.append_eq_nil.mp hc).1

theorem headNS_renderAttr {p : List Char × List Char} (h : AttrNameOk p.1) :
    headNS (renderAttr p) := by
  unfold renderAttr
  intro c hc
  split at hc
  · cases p1 : p.1 with
    | nil => exact absurd p1 h.1
    | cons a r =>
      rw [p1] at hc
      simp at hc
      rw [← hc]
      exact (h.2 a (by rw [p1]; simp)).2.2
  · rw [List.head?_append_of_ne_nil _ h.1] at hc
    cases p1 : p.1 with
    | nil => exact absurd p1 h.1
    | cons a r =>
      rw [p1] at hc
      simp at hc
      rw [← hc]
      exact (h.2 a (by rw [p1]; simp)).2.2

theorem lastNS_renderAttr {p : List Char × List Char} (h : AttrNameOk p.1) :
    lastNS (renderAttr p) := by
  unfold renderAttr
  intro c hc
  split at hc
  · have := lastNS_of_trim_fix (trimJS_eq_self_of_all (fun c hc => (h.2 c hc).2.2))
    exact this c hc
  · rw [getLast?_append_right (by simp), getLast?_cons_of_ne (by simp),
      getLast?_cons_of_ne (by simp), getLast?_append_right (by simp)] at hc
    simp at hc
    rw [← hc]
    decide

/-! ## Shape of the attribute parser's output (first pass) -/

theorem addAttr_onAttrRender_shape {K : Char → Prop} {V : List Char → Prop}
    {wl : List (List Char)}
    (hV : ∀ u : List Char, (∀ c ∈ u, K c) → V (safeAttrValue u))
    (hOK : ∀ x ∈ wl, x ≠ s2l "viewBox" → AttrNameOk x)
    (accP : List (List Char × List Char)) (name raw : List Char)
    (hKr : ∀ c ∈ raw, K c) :
    ∃ pr, addAttr (onAttrRender wl) (accP.map renderAttr) name raw =
      (accP ++ pr).map renderAttr ∧ ∀ p ∈ pr, GoodPair V wl p := by
  unfold addAttr
  by_cases hne : ((trimJS name).filter legalAttrNameChar).map Char.toLower = []
  · refine ⟨[], ?_, by simp⟩
    rw [if_pos hne]
    simp
  · rw [if_neg hne]
    unfold onAttrRender
    by_cases hw : ((trimJS name).filter legalAttrNameChar).map Char.toLower ∈ wl
    · rw [if_pos hw]
      refine ⟨[(((trimJS name).filter legalAttrNameChar).map Char.toLower,
        safeAttrValue raw)], ?_, ?_⟩
      · by_cases hv : safeAttrValue raw = []
        · simp only [hv, if_pos rfl]
          rw [List.map_append]
          simp [renderAttr, hv]
        · simp only [if_neg hv]
          rw [List.map_append]
          simp [renderAttr, hv]
      · intro p hp
        simp only [List.mem_singleton] at hp
        subst hp
        exact ⟨hw, hOK _ hw (map_toLower_ne_viewBox _),
          SafeValV_safeAttrValue (hV raw hKr)⟩
    · rw [if_neg hw]
      refine ⟨[], ?_, by simp⟩
      simp

theorem parseAttrGo_shape {K : Char → Prop} {V : List Char → Prop}
    {wl : List (List Char)}
    (hK : ∀ c, K c → K (normWs c))
    (hKq : K '"' ∧ K '\'' ∧ K ' ')
    (hV : ∀ u : List Char, (∀ c ∈ u, K c) → V (safeAttrValue u))
    (hOK : ∀ x ∈ wl, x ≠ s2l "viewBox" → AttrNameOk x)
    (html : List Char) :
    ∀ (norm : Bool) (st : AttrSt) (accP : List (List Char × List Char)),
      StWf K st → (∀ c ∈ html, K c) →
      ∃ pairs, parseAttrGo (onAttrRender wl) norm st html (accP.map renderAttr) =
        (accP ++ pairs).map renderAttr ∧ ∀ p ∈ pairs, GoodPair V wl p := by
  induction html with
  | nil =>
    intro norm st accP hst hh
    cases st with
    | base pend =>
      exact addAttr_onAttrRender_shape hV hOK accP pend [] (by simp)
    | wsName pend =>
      exact addAttr_onAttrRender_shape hV hOK accP pend [] (by simp)
    | val name pend valSp =>
      show ∃ pairs, (if pend = [] then accP.map renderAttr
        else addAttr (onAttrRender wl) (accP.map renderAttr) name
          (stripQuoteWrap (trimJS pend))) = _ ∧ _
      by_cases hp : pend = []
      · rw [if_pos hp]
        exact ⟨[], by simp, by simp⟩
      · rw [if_neg hp]
        obtain ⟨⟨hq1, hq2⟩, hKp⟩ := hst
        refine addAttr_onAttrRender_shape hV hOK accP name _ ?_
        intro c hc
        exact hKp c (trimJS_subset pend (stripQuoteWrap_subset _ hc))
    | inQ name pend q vAcc =>
      obtain ⟨⟨⟨hq1, hq2⟩, hKp⟩, hqc, hqv, hKv⟩ := hst
      refine addAttr_onAttrRender_shape hV hOK accP name _ ?_
      intro c hc
      have hc2 := trimJS_subset _ (stripQuoteWrap_subset _ hc)
      rcases List.mem_append.mp hc2 with h1 | h1
      · exact hKp c h1
      · rcases List.mem_cons.mp h1 with h2 | h2
        · subst h2
          rcases hqc with h3 | h3
          · subst h3
            exact hKq.1
          · subst h3
            exact hKq.2.1
        · exact hKv c (by simpa using h2)
  | cons c0 r ih =>
    intro norm st accP hst hh
    have hKc : K (if norm then normWs c0 else c0) := by
      cases norm with
      | false => exact hh c0 (by simp)
      | true => exact hK c0 (hh c0 (by simp))
    have hhr : ∀ c ∈ r, K c := fun c hc => hh c (by simp [hc])
    cases st with
    | base pend =>
      show ∃ pairs, (if (if norm then normWs c0 else c0) = '='
        then parseAttrGo (onAttrRender wl) norm
          (.val pend [] true) r (accP.map renderAttr)
        else if isSpaceJS (if norm then normWs c0 else c0)
        then parseAttrGo (onAttrRender wl) true
          (.wsName pend) r (accP.map renderAttr)
        else parseAttrGo (onAttrRender wl) norm
          (.base (pend ++ [if norm then normWs c0 else c0])) r
          (accP.map renderAttr)) = _ ∧ _
      by_cases h1 : (if norm then normWs c0 else c0) = '='
      · rw [if_pos h1]
        exact ih norm (.val pend [] true) accP ⟨⟨by simp, by simp⟩, by simp⟩ hhr
      · rw [if_neg h1]
        by_cases h2 : isSpaceJS (if norm then normWs c0 else c0)
        · rw [if_pos h2]
          exact ih true (.wsName pend) accP trivial hhr
        · rw [if_neg h2]
          exact ih norm (.base (pend ++ [if norm then normWs c0 else c0])) accP
            trivial hhr
    | wsName pend =>
      show ∃ pairs, (if (if norm then normWs c0 else c0) = '='
        then parseAttrGo (onAttrRender wl) true
          (.val pend [] true) r (accP.map renderAttr)
        else if isSpaceJS (if norm then normWs c0 else c0)
        then parseAttrGo (onAttrRender wl) true
          (.wsName pend) r (accP.map renderAttr)
        else parseAttrGo (onAttrRender wl) true
          (.base [if norm then normWs c0 else c0]) r
          (addAttr (onAttrRender wl) (accP.map renderAttr) pend [])) = _ ∧ _
      by_cases h1 : (if norm then normWs c0 else c0) = '='
      · rw [if_pos h1]
        exact ih true (.val pend [] true) accP ⟨⟨by simp, by simp⟩, by simp⟩ hhr
      · rw [if_neg h1]
        by_cases h2 : isSpaceJS (if norm then normWs c0 else c0)
        · rw [if_pos h2]
          exact ih true (.wsName pend) accP trivial hhr
        · rw [if_neg h2]
          obtain ⟨e, he, hge⟩ :=
            addAttr_onAttrRender_shape (K := K) hV hOK accP pend [] (by simp)
          rw [he]
          obtain ⟨pairs2, hp2, hg2⟩ :=
            ih true (.base [if norm then normWs c0 else c0]) (accP ++ e)
              trivial hhr
          refine ⟨e ++ pairs2, ?_, ?_⟩
          · rw [hp2, List.append_assoc]
          · intro p hp
            rcases List.mem_append.mp hp with h | h
            · exact hge p h
            · exact hg2 p h
    | val name pend valSp =>
      obtain ⟨⟨hq1, hq2⟩, hKp⟩ := hst
      show ∃ pairs, (if ((if norm then normWs c0 else c0) = '"' ||
          (if norm then normWs c0 else c0) = '\'')
        then parseAttrGo (onAttrRender wl) norm
          (.inQ name pend (if norm then normWs c0 else c0) []) r
          (accP.map renderAttr)
        else if isSpaceJS (if norm then normWs c0 else c0)
        then if valSp
          then parseAttrGo (onAttrRender wl) true
            (.val name (pend ++ [' ']) true) r (accP.map renderAttr)
          else parseAttrGo (onAttrRender wl) true (.base []) r
            (addAttr (onAttrRender wl) (accP.map renderAttr) name
              (stripQuoteWrap (trimJS pend)))
        else parseAttrGo (onAttrRender wl) norm
          (.val name (pend ++ [if norm then normWs c0 else c0]) false) r
          (accP.map renderAttr)) = _ ∧ _
      by_cases h1 : ((if norm then normWs c0 else c0) = '"' ||
          (if norm then normWs c0 else c0) = '\'') = true
      · rw [if_pos h1]
        have h1p : (if norm then normWs c0 else c0) = '"' ∨
            (if norm then normWs c0 else c0) = '\'' := by simpa using h1
        exact ih norm (.inQ name pend (if norm then normWs c0 else c0) []) accP
          ⟨⟨⟨hq1, hq2⟩, hKp⟩, h1p, by simp, by simp⟩ hhr
      · rw [if_neg h1]
        have h1p : ¬(if norm then normWs c0 else c0) = '"' ∧
            ¬(if norm then normWs c0 else c0) = '\'' := by
          simpa [not_or] using h1
        by_cases h2 : isSpaceJS (if norm then normWs c0 else c0)
        · rw [if_pos h2]
          by_cases h3 : valSp
          · rw [if_pos h3]
            refine ih true (.val name (pend ++ [' ']) true) accP
              ⟨⟨?_, ?_⟩, ?_⟩ hhr
            · intro hc
              rcases List.mem_append.mp hc with h | h
              · exact hq1 h
              · simp at h
            · intro hc
              rcases List.mem_append.mp hc with h | h
              · exact hq2 h
              · simp at h
            · intro c hc
              rcases List.mem_append.mp hc with h | h
              · exact hKp c h
              · simp at h
                subst h
                exact hKq.2.2
          · rw [if_neg h3]
            obtain ⟨e, he, hge⟩ := addAttr_onAttrRender_shape (K := K) hV hOK
              accP name (stripQuoteWrap (trimJS pend))
              (fun c hc => hKp c (trimJS_subset pend (stripQuoteWrap_subset _ hc)))
            rw [he]
            obtain ⟨pairs2, hp2, hg2⟩ := ih true (.base []) (accP ++ e) trivial hhr
            refine ⟨e ++ pairs2, ?_, ?_⟩
            · rw [hp2, List.append_assoc]
            · intro p hp
              rcases List.mem_append.mp hp with h | h
              · exact hge p h
              · exact hg2 p h
        · rw [if_neg h2]
          refine ih norm
            (.val name (pend ++ [if norm then normWs c0 else c0]) false) accP
            ⟨⟨?_, ?_⟩, ?_⟩ hhr
          · intro hc
            rcases List.mem_append.mp hc with h | h
            · exact hq1 h
            · simp at h
              exact h1p.1 h.symm
          · intro hc
            rcases List.mem_append.mp hc with h | h
            · exact hq2 h
            · simp at h
              exact h1p.2 h.symm
          · intro c hc
            rcases List.mem_append.mp hc with h | h
            · exact hKp c h
            · simp at h
              subst h
              exact hKc
    | inQ name pend q vAcc =>
      obtain ⟨⟨⟨hq1, hq2⟩, hKp⟩, hqc, hqv, hKv⟩ := hst
      show ∃ pairs, (if (if norm then normWs c0 else c0) = q
        then parseAttrGo (onAttrRender wl) norm (.base []) r
          (addAttr (onAttrRender wl) (accP.map renderAttr) name
            (trimJS vAcc.reverse))
        else parseAttrGo (onAttrRender wl) norm
          (.inQ name pend q ((if norm then normWs c0 else c0) :: vAcc)) r
          (accP.map renderAttr)) = _ ∧ _
      by_cases h1 : (if norm then normWs c0 else c0) = q
      · rw [if_pos h1]
        obtain ⟨e, he, hge⟩ := addAttr_onAttrRender_shape (K := K) hV hOK
          accP name (trimJS vAcc.reverse)
          (fun c hc => hKv c (by simpa using trimJS_subset _ hc))
        rw [he]
        obtain ⟨pairs2, hp2, hg2⟩ := ih norm (.base []) (accP ++ e) trivial hhr
        refine ⟨e ++ pairs2, ?_, ?_⟩
        · rw [hp2, List.append_assoc]
        · intro p hp
          rcases List.mem_append.mp hp with h | h
          · exact hge p h
          · exact hg2 p h
      · rw [if_neg h1]
        refine ih norm
          (.inQ name pend q ((if norm then normWs c0 else c0) :: vAcc)) accP
          ⟨⟨⟨hq1, hq2⟩, hKp⟩, hqc, ?_, ?_⟩ hhr
        · intro hc
          rcases List.mem_cons.mp hc with h | h
          · exact h1 h.symm
          · exact hqv h
        · intro c hc
          rcases List.mem_cons.mp hc with h | h
          · subst h
            exact hKc
          · exact hKv c h

theorem trimJS_joinSpace_renders {pairs : List (List Char × List Char)}
    (h : ∀ p ∈ pairs, AttrNameOk p.1) :
    trimJS (joinSpace (pairs.map renderAttr)) = joinSpace (pairs.map renderAttr) := by
  apply trimJS_eq_self_of
  · apply headNS_joinSpace
    intro x hx
    rw [List.mem_map] at hx
    obtain ⟨p, hp, he⟩ := hx
    subst he
    exact ⟨headNS_renderAttr (h p hp), renderAttr_ne_nil (h p hp)⟩
  · apply lastNS_joinSpace
    intro x hx
    rw [List.mem_map] at hx
    obtain ⟨p, hp, he⟩ := hx
    subst he
    exact ⟨lastNS_renderAttr (h p hp), renderAttr_ne_nil (h p hp)⟩

theorem parseAttrRender_shape {K : Char → Prop} {V : List Char → Prop}
    {t : List Char} {wl : List (List Char)}
    (hK : ∀ c, K c → K (normWs c)) (hKq : K '"' ∧ K '\'' ∧ K ' ')
    (hV : ∀ u : List Char, (∀ c ∈ u, K c) → V (safeAttrValue u))
    (hwl : whiteListAttrs t = some wl) (x : List Char) (hx : ∀ c ∈ x, K c) :
    ∃ pairs : List (List Char × List Char),
      parseAttrRender (onAttrRender wl) x = joinSpace (pairs.map renderAttr) ∧
      ∀ p ∈ pairs, GoodPair V wl p := by
  obtain ⟨pairs, hp, hg⟩ := parseAttrGo_shape hK hKq hV (AttrNameOk_of_wl hwl) x
    false (.base []) [] trivial hx
  refine ⟨pairs, ?_, hg⟩
  unfold parseAttrRender parseAttrCore
  have hnil : ([] : List (List Char)) =
      (([] : List (List Char × List Char)).map renderAttr) := rfl
  rw [hnil, hp]
  simp only [List.nil_append]
  exact trimJS_joinSpace_renders (fun p hp2 => (hg p hp2).2.1)

theorem getAttrs_fst_subset (raw : List Char) : (getAttrs raw).1 ⊆ raw := by
  unfold getAttrs
  cases h : spaceIdx raw with
  | none => simp
  | some i =>
    simp only
    split
    · intro c hc
      have h1 := trimJS_subset _ hc
      have h2 := (List.dropLast_prefix _).subset h1
      have h3 := trimJS_subset _ h2
      have h4 := (List.dropLast_prefix _).subset h3
      exact List.drop_subset (i + 1) raw h4
    · intro c hc
      have h1 := trimJS_subset _ hc
      have h2 := (List.dropLast_prefix _).subset h1
      exact List.drop_subset (i + 1) raw h2

theorem processTok_good {K : Char → Prop} {V : List Char → Prop}
    (hK : ∀ c, K c → K (normWs c)) (hKq : K '"' ∧ K '\'' ∧ K ' ')
    (hV : ∀ u : List Char, (∀ c ∈ u, K c) → V (safeAttrValue u)) :
    ∀ tok : Tok, (∀ raw, tok = Tok.tag raw → ∀ c ∈ raw, K c) →
      GoodPiece V (processTok tok) := by
  intro tok hraw
  cases tok with
  | txt s => trivial
  | tag raw =>
    simp only [processTok]
    cases hwl : whiteListAttrs (getTagName raw) with
    | none =>
      split <;> first | trivial | (split <;> (try split) <;> trivial)
    | some wl =>
      obtain ⟨pairs, hp, hg⟩ := parseAttrRender_shape hK hKq hV hwl (getAttrs raw).1
        (fun c hc => hraw raw rfl c (getAttrs_fst_subset raw hc))
      exact ⟨wl, pairs, hwl, hp.symm ▸ rfl, hg⟩

/-! ## Membership lemmas for the strip machinery and the scanner -/

theorem mem_stripFilterGo :
    ∀ (b : Option (List Piece)) (ps : List Piece) (p : Piece),
      p ∈ stripFilterGo b ps →
      p ∈ ps ∨ ∃ buf, b = some buf ∧ p ∈ buf := by
  intro b ps
  induction b, ps using stripFilterGo.induct with
  | case1 => intro p hp; simp [stripFilterGo] at hp
  | case2 buf =>
    intro p hp
    rw [stripFilterGo] at hp
    exact Or.inr ⟨buf, rfl, by simpa using hp⟩
  | case3 ps ih =>
    intro p hp
    rw [stripFilterGo] at hp
    rcases ih p hp with h | ⟨buf, hb, hpb⟩
    · exact Or.inl (by simp [h])
    · injection hb with hb
      rw [← hb] at hpb
      simp at hpb
      exact Or.inl (by simp [hpb])
  | case4 ps ih =>
    intro p hp
    rw [stripFilterGo] at hp
    rcases ih p hp with h | ⟨buf, hb, hpb⟩
    · exact Or.inl (by simp [h])
    · exact absurd hb (by simp)
  | case5 p2 ps hne1 hne2 ih =>
    intro p hp
    rw [stripFilterGo] at hp
    · rcases List.mem_cons.mp hp with h | h
      · exact Or.inl (by simp [h])
      · rcases ih p h with h2 | ⟨buf, hb, hpb⟩
        · exact Or.inl (by simp [h2])
        · exact absurd hb (by simp)
    · exact hne1
    · exact hne2
  | case6 buf ps ih =>
    intro p hp
    rw [stripFilterGo] at hp
    rcases ih p hp with h | ⟨buf2, hb, hpb⟩
    · exact Or.inl (by simp [h])
    · exact absurd hb (by simp)
  | case7 buf p2 ps hne ih =>
    intro p hp
    rw [stripFilterGo] at hp
    · rcases ih p hp with h | ⟨buf2, hb, hpb⟩
      · exact Or.inl (by simp [h])
      · injection hb with hb
        rw [← hb] at hpb
        rcases List.mem_cons.mp hpb with h2 | h2
        · exact Or.inl (by simp [h2])
        · exact Or.inr ⟨buf, rfl, h2⟩
    · exact hne

theorem mem_stripCommentGo :
    ∀ (b : Option (List Char)) (l : List Char) (c : Char),
      c ∈ stripCommentGo b l →
      c ∈ l ∨ ∃ buf, b = some buf ∧ c ∈ buf := by
  intro b l
  induction b, l using stripCommentGo.induct with
  | case1 => intro c hc; simp [stripCommentGo] at hc
  | case2 buf =>
    intro c hc
    rw [stripCommentGo] at hc
    exact Or.inr ⟨buf, rfl, by simpa using hc⟩
  | case3 buf r ih =>
    intro c hc
    rw [stripCommentGo] at hc
    rcases ih c hc with h | ⟨buf2, hb, hcb⟩
    · exact Or.inl (by simp [h])
    · exact absurd hb (by simp)
  | case4 buf c2 r hne ih =>
    intro c hc
    rw [stripCommentGo] at hc
    · rcases ih c hc with h | ⟨buf2, hb, hcb⟩
      · exact Or.inl (by simp [h])
      · injection hb with hb
        rw [← hb] at hcb
        rcases List.mem_cons.mp hcb with h2 | h2
        · exact Or.inl (by simp [h2])
        · exact Or.inr ⟨buf, rfl, h2⟩
    · exact hne
  | case5 r ih =>
    intro c hc
    rw [stripCommentGo] at hc
    rcases ih c hc with h | ⟨buf2, hb, hcb⟩
    · exact Or.inl (by simp [h])
    · injection hb with hb
      rw [← hb] at hcb
      fin_cases hcb <;> exact Or.inl (by simp)
  | case6 c2 r hne ih =>
    intro c hc
    rw [stripCommentGo] at hc
    · rcases List.mem_cons.mp hc with h | h
      · exact Or.inl (by simp [h])
      · rcases ih c h with h2 | ⟨buf2, hb, hcb⟩
        · exact Or.inl (by simp [h2])
        · exact absurd hb (by simp)
    · exact hne

theorem mem_stripCommentTag {c : Char} {l : List Char}
    (h : c ∈ stripCommentTag l) : c ∈ l := by
  rcases mem_stripCommentGo none l c h with h2 | ⟨buf, hb, _⟩
  · exact h2
  · exact absurd hb (by simp)

theorem mem_emitTxt {tok : Tok} {acc : List Char} {toks : List Tok}
    (h : tok ∈ emitTxt acc toks) : tok = Tok.txt acc ∨ tok ∈ toks := by
  unfold emitTxt at h
  split at h
  · exact Or.inr h
  · rcases List.mem_cons.mp h with h2 | h2
    · exact Or.inl h2
    · exact Or.inr h2

theorem scan_chars_subset :
    ∀ (l tAcc : List Char) (tg : Option (List Char × Bool × Option Char))
      (tok : Tok) (c : Char), tok ∈ scan tAcc tg l → c ∈ tokChars tok →
      c ∈ tAcc ∨ (∃ g eqP q, tg = some (g, eqP, q) ∧ c ∈ g) ∨ c ∈ l := by
  intro l
  induction l with
  | nil =>
    intro tAcc tg tok c htok hc
    cases tg with
    | none =>
      rcases mem_emitTxt (show tok ∈ emitTxt tAcc [] from htok) with h | h
      · subst h
        exact Or.inl hc
      · simp at h
    | some gq =>
      obtain ⟨g, eqP, q⟩ := gq
      rcases mem_emitTxt (show tok ∈ emitTxt (tAcc ++ g) [] from htok) with h | h
      · subst h
        rcases List.mem_append.mp hc with h2 | h2
        · exact Or.inl h2
        · exact Or.inr (Or.inl ⟨g, eqP, q, rfl, h2⟩)
      · simp at h
  | cons c0 rest ih =>
    intro tAcc tg tok c htok hc
    cases tg with
    | none =>
      have he : scan tAcc none (c0 :: rest) =
          if c0 = '<' then scan tAcc (some (['<'], false, none)) rest
          else scan (tAcc ++ [c0]) none rest := rfl
      rw [he] at htok
      by_cases h1 : c0 = '<'
      · rw [if_pos h1] at htok
        rcases ih tAcc _ tok c htok hc with h | ⟨g, eqP, q, hg, hcg⟩ | h
        · exact Or.inl h
        · injection hg with hg
          have : c = '<' := by
            injection hg with hg1 hg2
            rw [← hg1] at hcg
            simpa using hcg
          rw [this, ← h1]
          exact Or.inr (Or.inr (by simp))
        · exact Or.inr (Or.inr (by simp [h]))
      · rw [if_neg h1] at htok
        rcases ih _ _ tok c htok hc with h | ⟨g, eqP, q, hg, hcg⟩ | h
        · rcases List.mem_append.mp h with h2 | h2
          · exact Or.inl h2
          · simp at h2
            exact Or.inr (Or.inr (by simp [h2]))
        · exact absurd hg (by simp)
        · exact Or.inr (Or.inr (by simp [h]))
    | some gq =>
      obtain ⟨g, eqP, q?⟩ := gq
      cases q? with
      | some q =>
        have he : scan tAcc (some (g, eqP, some q)) (c0 :: rest) =
            if c0 = q then scan tAcc (some (g ++ [c0], false, none)) rest
            else scan tAcc (some (g ++ [c0], eqP, some q)) rest := rfl
        rw [he] at htok
        have hstep : tok ∈ scan tAcc (some (g ++ [c0], false, none)) rest ∨
            tok ∈ scan tAcc (some (g ++ [c0], eqP, some q)) rest := by
          by_cases h1 : c0 = q
          · rw [if_pos h1] at htok; exact Or.inl htok
          · rw [if_neg h1] at htok; exact Or.inr htok
        rcases hstep with hs | hs <;>
          (rcases ih tAcc _ tok c hs hc with h | ⟨g2, eqP2, q2, hg, hcg⟩ | h
           case' inl => exact Or.inl h
           case' inr.inr => exact Or.inr (Or.inr (by simp [h])))
        · injection hg with hg
          injection hg with hg1 hg2
          rw [← hg1] at hcg
          rcases List.mem_append.mp hcg with h2 | h2
          · exact Or.inr (Or.inl ⟨g, eqP, some q, rfl, h2⟩)
          · simp at h2
            exact Or.inr (Or.inr (by simp [h2]))
        · injection hg with hg
          injection hg with hg1 hg2
          rw [← hg1] at hcg
          rcases List.mem_append.mp hcg with h2 | h2
          · exact Or.inr (Or.inl ⟨g, eqP, some q, rfl, h2⟩)
          · simp at h2
            exact Or.inr (Or.inr (by simp [h2]))
      | none =>
        have he : scan tAcc (some (g, eqP, none)) (c0 :: rest) =
            if c0 = '<' then scan (tAcc ++ g) (some (['<'], false, none)) rest
            else if (c0 = '>' || rest.isEmpty) = true then
              emitTxt tAcc (Tok.tag (g ++ [c0]) :: scan [] none rest)
            else if ((c0 = '"' || c0 = '\'') && eqP) = true then
              scan tAcc (some (g ++ [c0], false, some c0)) rest
            else scan tAcc (some (g ++ [c0],
              (if c0 = ' ' then eqP else decide (c0 = '=')), none)) rest := rfl
        rw [he] at htok
        by_cases h1 : c0 = '<'
        · rw [if_pos h1] at htok
          rcases ih _ _ tok c htok hc with h | ⟨g2, eqP2, q2, hg, hcg⟩ | h
          · rcases List.mem_append.mp h with h2 | h2
            · exact Or.inl h2
            · exact Or.inr (Or.inl ⟨g, eqP, none, rfl, h2⟩)
          · injection hg with hg
            injection hg with hg1 hg2
            rw [← hg1] at hcg
            simp at hcg
            rw [hcg, ← h1]
            exact Or.inr (Or.inr (by simp))
          · exact Or.inr (Or.inr (by simp [h]))
        · rw [if_neg h1] at htok
          by_cases h2 : (c0 = '>' || rest.isEmpty) = true
          · rw [if_pos h2] at htok
            rcases mem_emitTxt htok with h | h
            · subst h
              exact Or.inl hc
            · rcases List.mem_cons.mp h with h3 | h3
              · subst h3
                rcases List.mem_append.mp hc with h4 | h4
                · exact Or.inr (Or.inl ⟨g, eqP, none, rfl, h4⟩)
                · simp at h4
                  exact Or.inr (Or.inr (by simp [h4]))
              · rcases ih [] none tok c h3 hc with h4 | ⟨g2, eqP2, q2, hg, hcg⟩ | h4
                · simp at h4
                · exact absurd hg (by simp)
                · exact Or.inr (Or.inr (by simp [h4]))
          · rw [if_neg h2] at htok
            by_cases h3 : ((c0 = '"' || c0 = '\'') && eqP) = true
            · rw [if_pos h3] at htok
              rcases ih tAcc _ tok c htok hc with h | ⟨g2, eqP2, q2, hg, hcg⟩ | h
              · exact Or.inl h
              · injection hg with hg
                injection hg with hg1 hg2
                rw [← hg1] at hcg
                rcases List.mem_append.mp hcg with h4 | h4
                · exact Or.inr (Or.inl ⟨g, eqP, none, rfl, h4⟩)
                · simp at h4
                  exact Or.inr (Or.inr (by simp [h4]))
              · exact Or.inr (Or.inr (by simp [h]))
            · rw [if_neg h3] at htok
              rcases ih tAcc _ tok c htok hc with h | ⟨g2, eqP2, q2, hg, hcg⟩ | h
              · exact Or.inl h
              · injection hg with hg
                injection hg with hg1 hg2
                rw [← hg1] at hcg
                rcases List.mem_append.mp hcg with h4 | h4
                · exact Or.inr (Or.inl ⟨g, eqP, none, rfl, h4⟩)
                · simp at h4
                  exact Or.inr (Or.inr (by simp [h4]))
              · exact Or.inr (Or.inr (by simp [h]))

/-- Every piece produced by the filter on a `K`-charactered input satisfies
the piece invariant. -/
theorem pieces_good {K : Char → Prop} {V : List Char → Prop}
    (hK : ∀ c, K c → K (normWs c)) (hKq : K '"' ∧ K '\'' ∧ K ' ')
    (hV : ∀ u : List Char, (∀ c ∈ u, K c) → V (safeAttrValue u))
    (s : List Char) (hs : ∀ c ∈ s, K c) :
    ∀ p ∈ stripFilter ((tokenize (stripCommentTag s)).map processTok),
      GoodPiece V p := by
  intro p hp
  rcases mem_stripFilterGo none _ p hp with h | ⟨buf, hb, _⟩
  · rw [List.mem_map] at h
    obtain ⟨tok, htok, he⟩ := h
    subst he
    apply processTok_good hK hKq hV
    intro raw hre c hc
    subst hre
    rcases scan_chars_subset _ [] none (Tok.tag raw) c htok hc with
      h2 | ⟨g, eqP, q, hg, _⟩ | h2
    · simp at h2
    · exact absurd hg (by simp)
    · exact hs c (mem_stripCommentTag h2)
  · exact absurd hb (by simp)

/-! ## Walking the scanner over rendered output -/

theorem scan_txt_chunk :
    ∀ (t : List Char), '<' ∉ t → ∀ (tAcc rest : List Char),
      scan tAcc none (t ++ rest) = scan (tAcc ++ t) none rest := by
  intro t
  induction t with
  | nil => intro h tAcc rest; simp
  | cons a r ih =>
    intro h tAcc rest
    rw [List.cons_append]
    have he : scan tAcc none (a :: (r ++ rest)) =
        if a = '<' then scan tAcc (some (['<'], false, none)) (r ++ rest)
        else scan (tAcc ++ [a]) none (r ++ rest) := rfl
    rw [he, if_neg (fun hh => h (by simp [hh])),
      ih (fun hh => h (by simp [hh])) (tAcc ++ [a]) rest]
    simp

theorem scan_tag_plain_chunk :
    ∀ (chunk : List Char),
      (∀ c ∈ chunk, c ≠ '<' ∧ c ≠ '>' ∧ c ≠ '"' ∧ c ≠ '\'') →
      ∀ (tAcc g : List Char) (eqP : Bool) (rest : List Char), rest ≠ [] →
        scan tAcc (some (g, eqP, none)) (chunk ++ rest) =
        scan tAcc (some (g ++ chunk, foldEqP eqP chunk, none)) rest := by
  intro chunk
  induction chunk with
  | nil => intro h tAcc g eqP rest hr; simp [foldEqP]
  | cons a r ih =>
    intro h tAcc g eqP rest hr
    obtain ⟨ha1, ha2, ha3, ha4⟩ := h a (by simp)
    rw [List.cons_append]
    have he : scan tAcc (some (g, eqP, none)) (a :: (r ++ rest)) =
        if a = '<' then scan (tAcc ++ g) (some (['<'], false, none)) (r ++ rest)
        else if (a = '>' || (r ++ rest).isEmpty) = true then
          emitTxt tAcc (Tok.tag (g ++ [a]) :: scan [] none (r ++ rest))
        else if ((a = '"' || a = '\'') && eqP) = true then
          scan tAcc (some (g ++ [a], false, some a)) (r ++ rest)
        else scan tAcc (some (g ++ [a],
          (if a = ' ' then eqP else decide (a = '=')), none)) (r ++ rest) := rfl
    rw [he, if_neg ha1, if_neg (by
        simp only [Bool.or_eq_true, decide_eq_true_eq, List.isEmpty_iff]
        push_neg
        exact ⟨ha2, List.append_ne_nil_of_right_ne_nil r hr⟩),
      if_neg (by simp [ha3, ha4]),
      ih (fun c hc => h c (by simp [hc])) tAcc (g ++ [a]) _ rest hr]
    simp only [List.append_assoc, List.singleton_append, foldEqP]

theorem scan_inquote (q : Char) :
    ∀ (v : List Char), q ∉ v →
      ∀ (tAcc g : List Char) (eqP : Bool) (rest : List Char),
        scan tAcc (some (g, eqP, some q)) (v ++ q :: rest) =
        scan tAcc (some (g ++ v ++ [q], false, none)) rest := by
  intro v
  induction v with
  | nil =>
    intro hv tAcc g eqP rest
    have he : scan tAcc (some (g, eqP, some q)) (q :: rest) =
        if q = q then scan tAcc (some (g ++ [q], false, none)) rest
        else scan tAcc (some (g ++ [q], eqP, some q)) rest := rfl
    rw [List.nil_append, he, if_pos rfl]
    simp
  | cons a r ih =>
    intro hv tAcc g eqP rest
    have ha : a ≠ q := fun hh => hv (by simp [hh])
    rw [List.cons_append]
    have he : scan tAcc (some (g, eqP, some q)) (a :: (r ++ q :: rest)) =
        if a = q then scan tAcc (some (g ++ [a], false, none)) (r ++ q :: rest)
        else scan tAcc (some (g ++ [a], eqP, some q)) (r ++ q :: rest) := rfl
    rw [he, if_neg ha, ih (fun hh => hv (by simp [hh])) tAcc (g ++ [a]) eqP rest]
    simp

theorem scan_tag_quoted {v : List Char} (hv : '"' ∉ v) :
    ∀ (tAcc g rest : List Char),
      scan tAcc (some (g, true, none)) ('"' :: (v ++ '"' :: rest)) =
      scan tAcc (some (g ++ '"' :: (v ++ ['"']), false, none)) rest := by
  intro tAcc g rest
  have he : scan tAcc (some (g, true, none)) ('"' :: (v ++ '"' :: rest)) =
      if ('"' : Char) = '<' then
        scan (tAcc ++ g) (some (['<'], false, none)) (v ++ '"' :: rest)
      else if (('"' : Char) = '>' || (v ++ '"' :: rest).isEmpty) = true then
        emitTxt tAcc (Tok.tag (g ++ ['"']) :: scan [] none (v ++ '"' :: rest))
      else if ((('"' : Char) = '"' || ('"' : Char) = '\'') && true) = true then
        scan tAcc (some (g ++ ['"'], false, some '"')) (v ++ '"' :: rest)
      else scan tAcc (some (g ++ ['"'],
        (if ('"' : Char) = ' ' then true else decide (('"' : Char) = '=')), none))
        (v ++ '"' :: rest) := rfl
  rw [he, if_neg (by decide), if_neg (by
      simp only [Bool.or_eq_true, decide_eq_true_eq, List.isEmpty_iff]
      push_neg
      exact ⟨by decide, List.append_ne_nil_of_right_ne_nil v (by simp)⟩),
    if_pos (by decide), scan_inquote '"' v hv tAcc (g ++ ['"']) false rest]
  simp

theorem scan_tag_close :
    ∀ (tAcc g : List Char) (eqP : Bool) (rest : List Char),
      scan tAcc (some (g, eqP, none)) ('>' :: rest) =
      emitTxt tAcc (Tok.tag (g ++ ['>']) :: scan [] none rest) := by
  intro tAcc g eqP rest
  have he : scan tAcc (some (g, eqP, none)) ('>' :: rest) =
      if ('>' : Char) = '<' then
        scan (tAcc ++ g) (some (['<'], false, none)) rest
      else if (('>' : Char) = '>' || rest.isEmpty) = true then
        emitTxt tAcc (Tok.tag (g ++ ['>']) :: scan [] none rest)
      else if ((('>' : Char) = '"' || ('>' : Char) = '\'') && eqP) = true then
        scan tAcc (some (g ++ ['>'], false, some '>')) rest
      else scan tAcc (some (g ++ ['>'],
        (if ('>' : Char) = ' ' then eqP else decide (('>' : Char) = '=')), none))
        rest := rfl
  rw [he, if_neg (by decide), if_pos (by simp)]

theorem foldEqP_append (xs : List Char) (c : Char) :
    ∀ b : Bool, foldEqP b (xs ++ [c]) =
      if c = ' ' then foldEqP b xs else decide (c = '=') := by
  induction xs with
  | nil => intro b; rfl
  | cons a r ih =>
    intro b
    rw [List.cons_append]
    show foldEqP (if a = ' ' then b else decide (a = '=')) (r ++ [c]) = _
    rw [ih]
    rfl

theorem scan_one_attr {V : List Char → Prop} {wl : List (List Char)}
    {p : List Char × List Char} (hp : GoodPair V wl p) :
    ∀ (tAcc g : List Char) (eqP : Bool) (rest : List Char), rest ≠ [] →
      ∃ e : Bool, scan tAcc (some (g, eqP, none)) (renderAttr p ++ rest) =
        scan tAcc (some (g ++ renderAttr p, e, none)) rest := by
  intro tAcc g eqP rest hr
  obtain ⟨hw, hname, hval⟩ := hp
  have hplain : ∀ c ∈ p.1, c ≠ '<' ∧ c ≠ '>' ∧ c ≠ '"' ∧ c ≠ '\'' := by
    intro c hc
    have hl := legal_ne (hname.2 c hc).1
    exact ⟨hl.2.2.2.1, hl.2.2.2.2.1, hl.2.1, hl.2.2.1⟩
  by_cases hv : p.2 = []
  · refine ⟨foldEqP eqP p.1, ?_⟩
    rw [show renderAttr p = p.1 from by unfold renderAttr; rw [if_pos hv]]
    exact scan_tag_plain_chunk p.1 hplain tAcc g eqP rest hr
  · refine ⟨false, ?_⟩
    have hre : renderAttr p ++ rest =
        (p.1 ++ ['=']) ++ ('"' :: (p.2 ++ '"' :: rest)) := by
      unfold renderAttr
      rw [if_neg hv]
      simp
    rw [hre,
      scan_tag_plain_chunk (p.1 ++ ['=']) (by
        intro c hc
        rcases List.mem_append.mp hc with h | h
        · exact hplain c h
        · simp at h
          subst h
          refine ⟨by decide, by decide, by decide, by decide⟩)
        tAcc g eqP _ (by simp),
      foldEqP_append]
    rw [if_neg (by decide), show decide (('=' : Char) = '=') = true from by decide]
    rw [scan_tag_quoted (fun hq => (hval.1 '"' hq).1 rfl) tAcc (g ++ (p.1 ++ ['='])) rest]
    have hassoc : g ++ (p.1 ++ ['=']) ++ '"' :: (p.2 ++ ['"']) =
        g ++ renderAttr p := by
      unfold renderAttr
      rw [if_neg hv]
      simp
    rw [hassoc]

theorem scan_attrs_walk {V : List Char → Prop} {wl : List (List Char)} :
    ∀ (pairs : List (List Char × List Char)), (∀ p ∈ pairs, GoodPair V wl p) →
      ∀ (tAcc g : List Char) (eqP : Bool) (rest : List Char), rest ≠ [] →
        ∃ e : Bool, scan tAcc (some (g, eqP, none))
            (joinSpace (pairs.map renderAttr) ++ rest) =
          scan tAcc (some (g ++ joinSpace (pairs.map renderAttr), e, none)) rest := by
  intro pairs
  induction pairs with
  | nil =>
    intro _ tAcc g eqP rest hr
    exact ⟨eqP, by simp [joinSpace]⟩
  | cons p ps ih =>
    intro hgood tAcc g eqP rest hr
    by_cases hps : ps = []
    · subst hps
      rw [List.map_cons, List.map_nil]
      obtain ⟨e, he⟩ := scan_one_attr (hgood p (by simp)) tAcc g eqP rest hr
      exact ⟨e, by simpa [joinSpace] using he⟩
    · rw [List.map_cons, joinSpace_cons, if_neg (by simpa using hps)]
      have hsep : (renderAttr p ++ ' ' :: joinSpace (ps.map renderAttr)) ++ rest =
          renderAttr p ++ ([' '] ++ (joinSpace (ps.map renderAttr) ++ rest)) := by
        simp
      rw [hsep]
      obtain ⟨e1, he1⟩ := scan_one_attr (hgood p (by simp)) tAcc g eqP
        ([' '] ++ (joinSpace (ps.map renderAttr) ++ rest)) (by simp)
      have hspc : ∀ c ∈ [' '], c ≠ '<' ∧ c ≠ '>' ∧ c ≠ '"' ∧ c ≠ '\'' := by
        intro c hc
        simp at hc
        subst hc
        exact ⟨by decide, by decide, by decide, by decide⟩
      rw [he1,
        scan_tag_plain_chunk [' '] hspc tAcc (g ++ renderAttr p) e1 _
          (List.append_ne_nil_of_right_ne_nil _ hr)]
      obtain ⟨e2, he2⟩ := ih (fun q hq => hgood q (List.mem_cons_of_mem p hq))
        tAcc (g ++ renderAttr p ++ [' ']) (foldEqP e1 [' ']) rest hr
      rw [he2]
      refine ⟨e2, ?_⟩
      simp

/-- Re-scanning a rendered kept tag yields exactly one tag token holding the
rendering, regardless of what follows. -/
theorem scan_keepTag {V : List Char → Prop} {cl : Bool} {name ah : List Char}
    {selfCl : Bool} (hg : GoodPiece V (.keepTag cl name ah selfCl)) :
    ∀ (tAcc rest : List Char),
      scan tAcc none (renderPiece (.keepTag cl name ah selfCl) ++ rest) =
      emitTxt tAcc (Tok.tag (renderPiece (.keepTag cl name ah selfCl)) ::
        scan [] none rest) := by
  obtain ⟨wl, pairs, hwl, hah2, hpairs⟩ := hg
  obtain ⟨hnn, hchars, hstrip⟩ := tagNameFacts hwl
  intro tAcc rest
  have hnp : ∀ c ∈ (if cl = true then '/' :: name else name),
      c ≠ '<' ∧ c ≠ '>' ∧ c ≠ '"' ∧ c ≠ '\'' := by
    intro c hc
    by_cases hcl : cl = true
    · rw [if_pos hcl] at hc
      rcases List.mem_cons.mp hc with h | h
      · subst h
        exact ⟨by decide, by decide, by decide, by decide⟩
      · have hf := hchars c h
        exact ⟨hf.2.2.1, hf.2.2.2.1, hf.2.2.2.2.1, hf.2.2.2.2.2.1⟩
    · rw [if_neg hcl] at hc
      have hf := hchars c hc
      exact ⟨hf.2.2.1, hf.2.2.2.1, hf.2.2.2.2.1, hf.2.2.2.2.2.1⟩
  have hspc : ∀ c ∈ [' '], c ≠ '<' ∧ c ≠ '>' ∧ c ≠ '"' ∧ c ≠ '\'' := by
    intro c hc
    simp at hc
    subst hc
    exact ⟨by decide, by decide, by decide, by decide⟩
  have hsl : ∀ c ∈ [' ', '/'], c ≠ '<' ∧ c ≠ '>' ∧ c ≠ '"' ∧ c ≠ '\'' := by
    intro c hc
    simp at hc
    rcases hc with h | h <;> (subst h; exact ⟨by decide, by decide, by decide, by decide⟩)
  have hre : renderPiece (.keepTag cl name ah selfCl) ++ rest =
      '<' :: ((if cl = true then '/' :: name else name) ++
        ((if ah = [] then [] else ' ' :: ah) ++
          ((if selfCl = true then [' ', '/'] else []) ++ ('>' :: rest)))) := by
    show ('<' :: ((if cl = true then '/' :: name else name) ++
        (if ah = [] then [] else ' ' :: ah) ++
        (if selfCl = true then [' ', '/'] else []) ++ ['>'])) ++ rest = _
    simp
  have hraw : ∀ G : List Char,
      G = '<' :: ((if cl = true then '/' :: name else name) ++
        ((if ah = [] then [] else ' ' :: ah) ++
          (if selfCl = true then [' ', '/'] else []))) →
      G ++ ['>'] = renderPiece (.keepTag cl name ah selfCl) := by
    intro G hG
    subst hG
    show _ = '<' :: ((if cl = true then '/' :: name else name) ++
        (if ah = [] then [] else ' ' :: ah) ++
        (if selfCl = true then [' ', '/'] else []) ++ ['>'])
    simp
  rw [hre]
  have hstep1 : ∀ X : List Char, scan tAcc none ('<' :: X) =
      scan tAcc (some (['<'], false, none)) X := by
    intro X
    have he : scan tAcc none ('<' :: X) =
        if ('<' : Char) = '<' then scan tAcc (some (['<'], false, none)) X
        else scan (tAcc ++ ['<']) none X := rfl
    rw [he, if_pos rfl]
  rw [hstep1]
  rw [scan_tag_plain_chunk _ hnp tAcc ['<'] false _
    (List.append_ne_nil_of_right_ne_nil _
      (List.append_ne_nil_of_right_ne_nil _ (by simp)))]
  by_cases hah : ah = []
  · rw [if_pos hah, List.nil_append]
    by_cases hsc : selfCl = true
    · rw [if_pos hsc,
        scan_tag_plain_chunk _ hsl _ _ _ _ (by simp),
        scan_tag_close]
      rw [hraw _ (by rw [if_pos hah, if_pos hsc]; simp)]
    · rw [if_neg hsc, List.nil_append, scan_tag_close]
      rw [hraw _ (by rw [if_pos hah, if_neg hsc]; simp)]
  · rw [if_neg hah]
    have hsep : (' ' :: ah) ++ ((if selfCl = true then [' ', '/'] else []) ++
        ('>' :: rest)) = [' '] ++ (ah ++
          ((if selfCl = true then [' ', '/'] else []) ++ ('>' :: rest))) := by
      simp
    rw [hsep, scan_tag_plain_chunk _ hspc _ _ _ _
      (List.append_ne_nil_of_right_ne_nil _
        (List.append_ne_nil_of_right_ne_nil _ (by simp)))]
    rw [hah2]
    obtain ⟨e2, he2⟩ := scan_attrs_walk pairs hpairs tAcc
      ((['<'] ++ (if cl = true then '/' :: name else name)) ++ [' '])
      (foldEqP (foldEqP false (if cl = true then '/' :: name else name)) [' '])
      ((if selfCl = true then [' ', '/'] else []) ++ ('>' :: rest))
      (List.append_ne_nil_of_right_ne_nil _ (by simp))
    rw [he2]
    by_cases hsc : selfCl = true
    · rw [if_pos hsc,
        scan_tag_plain_chunk _ hsl _ _ _ _ (by simp),
        scan_tag_close]
      rw [hraw _ (by rw [if_neg hah, if_pos hsc, hah2]; simp), hah2]
    · rw [if_neg hsc, List.nil_append, scan_tag_close]
      rw [hraw _ (by rw [if_neg hah, if_neg hsc, hah2]; simp), hah2]

/-! ## Computing getTagName and getAttrs on rendered tags -/

theorem findIdx?_none_aux {l : List Char} (h : ∀ c ∈ l, isSpaceJS c = false) :
    ∀ i, List.findIdx? isSpaceJS l i = none := by
  induction l with
  | nil => intro i; simp
  | cons a r ih =>
    intro i
    rw [List.findIdx?_cons, if_neg (by simp [h a (by simp)])]
    exact ih (fun c hc => h c (by simp [hc])) (i + 1)

theorem spaceIdx_none {l : List Char} (h : ∀ c ∈ l, isSpaceJS c = false) :
    spaceIdx l = none := findIdx?_none_aux h 0

theorem findIdx?_append_aux {A B : List Char} {x : Char}
    (hA : ∀ c ∈ A, isSpaceJS c = false) (hx : isSpaceJS x = true) :
    ∀ i, List.findIdx? isSpaceJS (A ++ x :: B) i = some (i + A.length) := by
  induction A with
  | nil =>
    intro i
    rw [List.nil_append, List.findIdx?_cons, if_pos (by simp [hx])]
    simp
  | cons a r ih =>
    intro i
    rw [List.cons_append, List.findIdx?_cons, if_neg (by simp [hA a (by simp)]),
      ih (fun c hc => hA c (by simp [hc])) (i + 1)]
    congr 1
    simp only [List.length_cons]
    omega

theorem spaceIdx_append {A B : List Char} {x : Char}
    (hA : ∀ c ∈ A, isSpaceJS c = false) (hx : isSpaceJS x = true) :
    spaceIdx (A ++ x :: B) = some A.length := by
  have := findIdx?_append_aux (B := B) hA hx 0
  simpa [spaceIdx] using this

theorem trimJS_space_right {a b : List Char} (h : ∀ c ∈ b, isSpaceJS c = true) :
    trimJS (a ++ b) = trimJS a := by
  unfold trimJS
  by_cases ha : ∀ c ∈ a, isSpaceJS c = true
  · rw [all_space_dropWhile_append ha, List.dropWhile_eq_nil_iff.mpr h,
      List.dropWhile_eq_nil_iff.mpr ha]
  · have hdne : a.dropWhile isSpaceJS ≠ [] := by
      rw [Ne, List.dropWhile_eq_nil_iff]
      push_neg at ha ⊢
      obtain ⟨c0, hc0, hs0⟩ := ha
      exact ⟨c0, hc0, by simpa using hs0⟩
    rw [dropWhile_append_of_ne_nil hdne, List.reverse_append,
      all_space_dropWhile_append (by intro c hc; exact h c (by simpa using hc))]

theorem lastP_joinSpace (P : Char → Prop) {xs : List (List Char)}
    (h : ∀ x ∈ xs, (∀ c, x.getLast? = some c → P c) ∧ x ≠ []) :
    ∀ c, (joinSpace xs).getLast? = some c → P c := by
  induction xs with
  | nil => intro c hc; simp [joinSpace] at hc
  | cons x ys ih =>
    cases ys with
    | nil => exact (h x (by simp)).1
    | cons y zs =>
      have hy : joinSpace (y :: zs) ≠ [] := joinSpace_ne_nil (h y (by simp)).2 zs
      rw [joinSpace_cons, if_neg (by simp)]
      intro c hc
      rw [getLast?_append_right (by simp), getLast?_cons_of_ne hy] at hc
      exact ih (fun z hz => h z (by simp [hz])) c hc

theorem lastP_renderAttr {p : List Char × List Char} (h : AttrNameOk p.1) :
    ∀ c, (renderAttr p).getLast? = some c →
      c = '"' ∨ legalAttrNameChar c = true := by
  unfold renderAttr
  intro c hc
  split at hc
  · right
    exact (h.2 c (List.mem_of_mem_getLast? (by rw [hc]; rfl))).1
  · left
    rw [getLast?_append_right (by simp), getLast?_cons_of_ne (by simp),
      getLast?_cons_of_ne (by simp), getLast?_append_right (by simp)] at hc
    simpa using hc.symm

theorem getD_last {l : List Char} (h : l ≠ []) (d : Char) :
    l.getD (l.length - 1) d = l.getLast h := by
  have hlen : l.length - 1 < l.length := by
    cases l with
    | nil => exact absurd rfl h
    | cons a r => simp
  rw [List.getD_eq_getElem l d hlen, List.getLast_eq_getElem]

theorem getTagName_keepTag {V : List Char → Prop} {cl : Bool} {name ah : List Char}
    {selfCl : Bool} (hg : GoodPiece V (.keepTag cl name ah selfCl)) :
    getTagName (renderPiece (.keepTag cl name ah selfCl)) = name := by
  obtain ⟨wl, pairs, hwl, hah2, hpairs⟩ := hg
  obtain ⟨hnn, hchars, hstrip⟩ := tagNameFacts hwl
  have hnpne : (if cl = true then '/' :: name else name) ≠ [] := by
    by_cases hcl : cl = true <;> simp [hcl, hnn]
  have hnpns : ∀ c ∈ (if cl = true then '/' :: name else name),
      isSpaceJS c = false := by
    intro c hc
    by_cases hcl : cl = true
    · rw [if_pos hcl] at hc
      rcases List.mem_cons.mp hc with h | h
      · subst h; decide
      · exact (hchars c h).1
    · rw [if_neg hcl] at hc
      exact (hchars c hc).1
  have hnptl : ∀ c ∈ (if cl = true then '/' :: name else name),
      Char.toLower c = c := by
    intro c hc
    by_cases hcl : cl = true
    · rw [if_pos hcl] at hc
      rcases List.mem_cons.mp hc with h | h
      · subst h; decide
      · exact (hchars c h).2.2.2.2.2.2.2.2
    · rw [if_neg hcl] at hc
      exact (hchars c hc).2.2.2.2.2.2.2.2
  -- the trimmed, lowercased body is the name part
  have hcommon : ∀ body : List Char,
      trimJS body = (if cl = true then '/' :: name else name) →
      ((trimJS body).map Char.toLower = (if cl = true then '/' :: name else name)) := by
    intro body hb
    rw [hb, map_toLower_fixed hnptl]
  -- final stripping of the leading and trailing slash
  have hpost : ∀ t : List Char, t = (if cl = true then '/' :: name else name) →
      (if (match t with
          | '/' :: r => r
          | other => other).getLast? = some '/' then
        (match t with
          | '/' :: r => r
          | other => other).dropLast
      else (match t with
          | '/' :: r => r
          | other => other)) = name := by
    intro t ht
    have hlast : name.getLast? ≠ some '/' := by
      intro h
      exact (hchars '/' (List.mem_of_mem_getLast? (by rw [h]; rfl))).2.1 rfl
    by_cases hcl : cl = true
    · rw [ht, if_pos hcl]
      show (if name.getLast? = some '/' then name.dropLast else name) = name
      rw [if_neg hlast]
    · rw [ht, if_neg hcl]
      cases hn : name with
      | nil => exact absurd hn hnn
      | cons c r =>
        have hcslash : c ≠ '/' := (hchars c (by rw [hn]; simp)).2.1
        have hmatch : (match c :: r with
            | '/' :: r2 => r2
            | other => other) = c :: r := by
          split
          · rename_i heq
            injection heq with h1 h2
            exact absurd h1 hcslash
          · rfl
        rw [hmatch, ← hn, if_neg hlast]
  by_cases hsp : ah = [] ∧ selfCl = false
  · -- no whitespace anywhere in the rendering
    have hshape : renderPiece (.keepTag cl name ah selfCl) =
        '<' :: ((if cl = true then '/' :: name else name) ++ ['>']) := by
      show '<' :: ((if cl = true then '/' :: name else name) ++
        (if ah = [] then [] else ' ' :: ah) ++
        (if selfCl = true then [' ', '/'] else []) ++ ['>']) = _
      rw [if_pos hsp.1, if_neg (show ¬(selfCl = true) from by simp [hsp.2])]
      simp
    rw [hshape]
    unfold getTagName
    rw [spaceIdx_none (by
      intro c hc
      rcases List.mem_cons.mp hc with h | h
      · subst h; decide
      · rcases List.mem_append.mp h with h2 | h2
        · exact hnpns c h2
        · simp at h2; subst h2; decide)]
    simp only [List.drop_one, List.tail_cons, List.dropLast_concat]
    rw [map_toLower_fixed (by
      intro c hc
      exact hnptl c (trimJS_subset _ hc))]
    rw [trimJS_eq_self_of_all hnpns]
    exact hpost _ rfl
  · -- a space separates the name part from the rest
    have hshape : ∃ tail : List Char,
        renderPiece (.keepTag cl name ah selfCl) =
        ('<' :: (if cl = true then '/' :: name else name)) ++ ' ' :: tail := by
      by_cases hah : ah = []
      · have hsc : selfCl = true := by
          rcases Decidable.em (selfCl = true) with h | h
          · exact h
          · exact absurd ⟨hah, by simpa using h⟩ hsp
        refine ⟨['/', '>'], ?_⟩
        show '<' :: ((if cl = true then '/' :: name else name) ++
          (if ah = [] then [] else ' ' :: ah) ++
          (if selfCl = true then [' ', '/'] else []) ++ ['>']) = _
        rw [if_pos hah, if_pos hsc]
        simp
      · refine ⟨ah ++ (if selfCl = true then [' ', '/'] else []) ++ ['>'], ?_⟩
        show '<' :: ((if cl = true then '/' :: name else name) ++
          (if ah = [] then [] else ' ' :: ah) ++
          (if selfCl = true then [' ', '/'] else []) ++ ['>']) = _
        rw [if_neg hah]
        simp
    obtain ⟨tail, htail⟩ := hshape
    rw [htail]
    unfold getTagName
    rw [spaceIdx_append (by
      intro c hc
      rcases List.mem_cons.mp hc with h | h
      · subst h; decide
      · exact hnpns c h) (by decide)]
    simp only
    have htake : (('<' :: (if cl = true then '/' :: name else name)) ++
        ' ' :: tail).take (('<' :: (if cl = true then '/' :: name else name)).length + 1) =
        ('<' :: (if cl = true then '/' :: name else name)) ++ [' '] := by
      rw [List.take_append 1]
      simp
    rw [htake]
    simp only [List.cons_append, List.drop_one, List.tail_cons]
    rw [show (if cl = true then '/' :: name else name) ++ [' '] =
      (if cl = true then '/' :: name else name) ++ [' '] from rfl]
    rw [trimJS_space_right (by intro c hc; simp at hc; subst hc; decide),
      trimJS_eq_self_of_all hnpns, map_toLower_fixed hnptl]
    exact hpost _ rfl

theorem getAttrs_keepTag {V : List Char → Prop} {cl : Bool} {name ah : List Char}
    {selfCl : Bool} (hg : GoodPiece V (.keepTag cl name ah selfCl)) :
    getAttrs (renderPiece (.keepTag cl name ah selfCl)) = (ah, selfCl) := by
  obtain ⟨wl, pairs, hwl, hah2, hpairs⟩ := hg
  obtain ⟨hnn, hchars, hstrip⟩ := tagNameFacts hwl
  have hnpne : (if cl = true then '/' :: name else name) ≠ [] := by
    by_cases hcl : cl = true <;> simp [hcl, hnn]
  have hnpns : ∀ c ∈ (if cl = true then '/' :: name else name),
      isSpaceJS c = false := by
    intro c hc
    by_cases hcl : cl = true
    · rw [if_pos hcl] at hc
      rcases List.mem_cons.mp hc with h | h
      · subst h; decide
      · exact (hchars c h).1
    · rw [if_neg hcl] at hc
      exact (hchars c hc).1
  have hnplast : ∀ c, (if cl = true then '/' :: name else name).getLast? = some c →
      c ≠ '/' := by
    intro c hc
    by_cases hcl : cl = true
    · rw [if_pos hcl, getLast?_cons_of_ne hnn] at hc
      exact (hchars c (List.mem_of_mem_getLast? (by rw [hc]; rfl))).2.1
    · rw [if_neg hcl] at hc
      exact (hchars c (List.mem_of_mem_getLast? (by rw [hc]; rfl))).2.1
  have hahlast : ah ≠ [] → ¬(ah.getLast? = some '/') := by
    intro hahne habs
    have hP := @lastP_joinSpace (fun c => c = '"' ∨ legalAttrNameChar c = true)
      (pairs.map renderAttr) (by
        intro x hx
        rw [List.mem_map] at hx
        obtain ⟨p, hp, he⟩ := hx
        subst he
        exact ⟨lastP_renderAttr (hpairs p hp).2.1, renderAttr_ne_nil (hpairs p hp).2.1⟩)
      '/' (by rw [← hah2]; exact habs)
    rcases hP with h | h
    · exact absurd h (by decide)
    · exact absurd h (by decide)
  have hheadah : ah ≠ [] → headNS ah := by
    intro hahne
    rw [hah2]
    apply headNS_joinSpace
    intro x hx
    rw [List.mem_map] at hx
    obtain ⟨p, hp, he⟩ := hx
    subst he
    exact ⟨headNS_renderAttr (hpairs p hp).2.1, renderAttr_ne_nil (hpairs p hp).2.1⟩
  have htrimah : trimJS ah = ah := by
    rw [hah2]
    exact trimJS_joinSpace_renders (fun p hp => (hpairs p hp).2.1)
  by_cases hah : ah = []
  · by_cases hsc : selfCl = true
    · -- self-closing, no attributes: the slice is just the slash
      have hshape : renderPiece (.keepTag cl name ah selfCl) =
          (('<' :: (if cl = true then '/' :: name else name)) ++ [' ']) ++
            ['/', '>'] := by
        show '<' :: ((if cl = true then '/' :: name else name) ++
          (if ah = [] then [] else ' ' :: ah) ++
          (if selfCl = true then [' ', '/'] else []) ++ ['>']) = _
        rw [if_pos hah, if_pos hsc]
        simp
      rw [hshape]
      unfold getAttrs
      rw [show (('<' :: (if cl = true then '/' :: name else name)) ++ [' ']) ++
            ['/', '>'] = ('<' :: (if cl = true then '/' :: name else name)) ++
            ' ' :: ['/', '>'] from by simp]
      rw [spaceIdx_append (by
        intro c hc
        rcases List.mem_cons.mp hc with h | h
        · subst h; decide
        · exact hnpns c h) (by decide)]
      simp only
      rw [show ('<' :: (if cl = true then '/' :: name else name)).length + 1 =
        (('<' :: (if cl = true then '/' :: name else name)) ++ [' ']).length + 0
        from by simp]
      rw [show ('<' :: (if cl = true then '/' :: name else name)) ++
        ' ' :: ['/', '>'] = (('<' :: (if cl = true then '/' :: name else name)) ++
        [' ']) ++ ['/', '>'] from by simp]
      rw [List.drop_append 0]
      rw [hah, hsc]
      decide
    · -- plain tag with no attributes: no whitespace in the rendering
      have hshape : renderPiece (.keepTag cl name ah selfCl) =
          ('<' :: (if cl = true then '/' :: name else name)) ++ ['>'] := by
        show '<' :: ((if cl = true then '/' :: name else name) ++
          (if ah = [] then [] else ' ' :: ah) ++
          (if selfCl = true then [' ', '/'] else []) ++ ['>']) = _
        rw [if_pos hah, if_neg (show ¬(selfCl = true) from hsc)]
        simp
      rw [hshape]
      unfold getAttrs
      rw [spaceIdx_none (by
        intro c hc
        rcases List.mem_append.mp hc with h | h
        · rcases List.mem_cons.mp h with h2 | h2
          · subst h2; decide
          · exact hnpns c h2
        · simp at h
          subst h
          decide)]
      simp only
      have hlen : (('<' :: (if cl = true then '/' :: name else name)) ++ ['>']).length - 2 =
          ('<' :: (if cl = true then '/' :: name else name)).length - 1 := by
        simp
      rw [hlen, List.getD_append _ _ _ _ (by simp),
        getD_last (by simp) '\x00']
      have hgl : ∃ c, ('<' :: (if cl = true then '/' :: name else name)).getLast? =
          some c ∧ c ≠ '/' := by
        obtain ⟨x, hx⟩ : ∃ x, (if cl = true then '/' :: name else name).getLast? =
            some x := by
          rw [List.getLast?_eq_getLast _ hnpne]
          exact ⟨_, rfl⟩
        exact ⟨x, by rw [getLast?_cons_of_ne hnpne]; exact hx, hnplast x hx⟩
      have hgl2 : ('<' :: (if cl = true then '/' :: name else name)).getLast
          (by simp) ≠ '/' := by
        intro habs
        obtain ⟨c0, hc0, hc0ne⟩ := hgl
        rw [List.getLast?_eq_getLast _ (by simp)] at hc0
        injection hc0 with hc0
        rw [habs] at hc0
        exact hc0ne hc0.symm
      have hscf : selfCl = false := by simpa using hsc
      rw [hah, hscf]
      simp [hgl2]
  · -- attributes present
    have hshape : renderPiece (.keepTag cl name ah selfCl) =
        (('<' :: (if cl = true then '/' :: name else name)) ++ [' ']) ++
          (ah ++ ((if selfCl = true then [' ', '/'] else []) ++ ['>'])) := by
      show '<' :: ((if cl = true then '/' :: name else name) ++
        (if ah = [] then [] else ' ' :: ah) ++
        (if selfCl = true then [' ', '/'] else []) ++ ['>']) = _
      rw [if_neg hah]
      simp
    rw [hshape]
    unfold getAttrs
    rw [show (('<' :: (if cl = true then '/' :: name else name)) ++ [' ']) ++
          (ah ++ ((if selfCl = true then [' ', '/'] else []) ++ ['>'])) =
        ('<' :: (if cl = true then '/' :: name else name)) ++
          ' ' :: (ah ++ ((if selfCl = true then [' ', '/'] else []) ++ ['>']))
        from by simp]
    rw [spaceIdx_append (by
      intro c hc
      rcases List.mem_cons.mp hc with h | h
      · subst h; decide
      · exact hnpns c h) (by decide)]
    simp only
    rw [show ('<' :: (if cl = true then '/' :: name else name)).length + 1 =
      (('<' :: (if cl = true then '/' :: name else name)) ++ [' ']).length + 0
      from by simp]
    rw [show ('<' :: (if cl = true then '/' :: name else name)) ++
      ' ' :: (ah ++ ((if selfCl = true then [' ', '/'] else []) ++ ['>'])) =
      (('<' :: (if cl = true then '/' :: name else name)) ++ [' ']) ++
        (ah ++ ((if selfCl = true then [' ', '/'] else []) ++ ['>']))
      from by simp]
    rw [List.drop_append 0]
    simp only [List.drop_zero]
    by_cases hsc : selfCl = true
    · rw [if_pos hsc]
      rw [show ah ++ ([' ', '/'] ++ ['>']) = ((ah ++ [' ', '/']) ++ ['>'])
        from by simp]
      rw [List.dropLast_concat]
      have htr : trimJS (ah ++ [' ', '/']) = ah ++ [' ', '/'] := by
        apply trimJS_eq_self_of
        · intro c hc
          rw [List.head?_append_of_ne_nil _ hah] at hc
          exact hheadah hah c hc
        · intro c hc
          rw [getLast?_append_right (by simp)] at hc
          simp at hc
          rw [← hc]
          decide
      rw [htr]
      rw [if_pos (by rw [getLast?_append_right (by simp)]; rfl)]
      rw [show ah ++ [' ', '/'] = (ah ++ [' ']) ++ ['/'] from by simp,
        List.dropLast_concat, trimJS_space_right (by
          intro c hc
          simp at hc
          subst hc
          rfl), htrimah, hsc]
    · rw [if_neg hsc, List.nil_append, List.dropLast_concat, htrimah,
        if_neg (hahlast hah)]
      have hscf : selfCl = false := by simpa using hsc
      rw [hscf]

/-! ## Re-parsing the canonical attribute string -/

theorem addAttr_nil {α : Type} (onAttr : List Char → List Char → Option α)
    (acc : List α) (v : List Char) : addAttr onAttr acc [] v = acc := by
  unfold addAttr
  rw [if_pos]
  rfl

theorem parseAttrGo_base_chunk {α : Type} (onAttr : List Char → List Char → Option α) :
    ∀ (chunk : List Char),
      (∀ c ∈ chunk, isSpaceJS c = false ∧ c ≠ '=') →
      ∀ (norm : Bool) (pend rest : List Char) (acc : List α),
        parseAttrGo onAttr norm (.base pend) (chunk ++ rest) acc =
        parseAttrGo onAttr norm (.base (pend ++ chunk)) rest acc := by
  intro chunk
  induction chunk with
  | nil => intro _ norm pend rest acc; simp
  | cons a r ih =>
    intro h norm pend rest acc
    obtain ⟨ha1, ha2⟩ := h a (by simp)
    rw [List.cons_append]
    have he : parseAttrGo onAttr norm (.base pend) (a :: (r ++ rest)) acc =
        if (if norm then normWs a else a) = '=' then
          parseAttrGo onAttr norm (.val pend [] true) (r ++ rest) acc
        else if isSpaceJS (if norm then normWs a else a) then
          parseAttrGo onAttr true (.wsName pend) (r ++ rest) acc
        else parseAttrGo onAttr norm
          (.base (pend ++ [if norm then normWs a else a])) (r ++ rest) acc := rfl
    have hread : (if norm then normWs a else a) = a := by
      cases norm
      · rfl
      · simp [normWs_of_not_space ha1]
    rw [he, hread, if_neg ha2, if_neg (by simp [ha1]),
      ih (fun c hc => h c (by simp [hc])) norm (pend ++ [a]) rest acc]
    simp

theorem parseAttrGo_inQ_chunk {α : Type} (onAttr : List Char → List Char → Option α)
    {q : Char} (hq : q ≠ ' ') :
    ∀ (v : List Char), (∀ c ∈ v, c ≠ q) →
      ∀ (norm : Bool) (name pend vAcc rest : List Char) (acc : List α),
        parseAttrGo onAttr norm (.inQ name pend q vAcc) (v ++ rest) acc =
        parseAttrGo onAttr norm (.inQ name pend q
          ((v.map (fun c => if norm then normWs c else c)).reverse ++ vAcc)) rest acc := by
  intro v
  induction v with
  | nil => intro _ norm name pend vAcc rest acc; simp
  | cons a r ih =>
    intro h norm name pend vAcc rest acc
    rw [List.cons_append]
    have he : parseAttrGo onAttr norm (.inQ name pend q vAcc) (a :: (r ++ rest)) acc =
        if (if norm then normWs a else a) = q then
          parseAttrGo onAttr norm (.base []) (r ++ rest)
            (addAttr onAttr acc name (trimJS vAcc.reverse))
        else parseAttrGo onAttr norm
          (.inQ name pend q ((if norm then normWs a else a) :: vAcc)) (r ++ rest)
          acc := rfl
    have hread : (if norm then normWs a else a) ≠ q := by
      cases norm
      · exact h a (by simp)
      · simp only
        exact normWs_ne (h a (by simp)) hq
    rw [he, if_neg hread, ih (fun c hc => h c (by simp [hc])) norm name pend _ rest acc]
    simp

theorem parseAttrGo_master {α : Type} (onAttr : List Char → List Char → Option α) :
    ∀ (pairs : List (List Char × List Char)),
      (∀ p ∈ pairs, AttrNameOk p.1 ∧ '"' ∉ p.2 ∧ trimJS p.2 = p.2) →
      ∀ (entry : Option (List Char)) (norm : Bool) (acc : List α),
        ∃ vals : List (List Char),
          vals.length = pairs.length ∧
          parseAttrGo onAttr norm
            (match entry with | none => .base [] | some cr => .wsName cr)
            (joinSpace (pairs.map renderAttr)) acc =
          (pairs.zip vals).foldl (fun a pv => addAttr onAttr a pv.1.1 pv.2)
            (match entry with
              | none => acc
              | some cr => addAttr onAttr acc cr []) ∧
          ∀ pv ∈ pairs.zip vals, (∀ c ∈ pv.1.2, normWs c = c) → pv.2 = pv.1.2 := by
  intro pairs
  induction pairs with
  | nil =>
    intro _ entry norm acc
    refine ⟨[], rfl, ?_, by simp⟩
    cases entry with
    | none =>
      show parseAttrGo onAttr norm (.base []) [] acc = acc
      show addAttr onAttr acc [] [] = acc
      exact addAttr_nil onAttr acc []
    | some cr =>
      rfl
  | cons p ps ih =>
    intro hgood entry norm acc
    obtain ⟨hname, hvq, hvt⟩ := hgood p (by simp)
    obtain ⟨c₀, ntail, hn⟩ : ∃ c₀ ntail, p.1 = c₀ :: ntail := by
      cases hp1 : p.1 with
      | nil => exact absurd hp1 hname.1
      | cons a b => exact ⟨a, b, rfl⟩
    have hc₀ := hname.2 c₀ (by rw [hn]; simp)
    have hc₀ns : isSpaceJS c₀ = false := hc₀.2.2
    have hc₀ne : c₀ ≠ '=' := (legal_ne hc₀.1).1
    have hntail : ∀ c ∈ ntail, isSpaceJS c = false ∧ c ≠ '=' := by
      intro c hc
      have hf := hname.2 c (by rw [hn]; simp [hc])
      exact ⟨hf.2.2, (legal_ne hf.1).1⟩
    -- the common walk from the state just after the first name character
    have key : ∀ (norm2 : Bool) (acc₀ : List α),
        ∃ vals : List (List Char),
          vals.length = (p :: ps).length ∧
          parseAttrGo onAttr norm2 (.base [c₀])
            (ntail ++ ((if p.2 = [] then [] else '=' :: '"' :: (p.2 ++ ['"'])) ++
              (if ps = [] then [] else ' ' :: joinSpace (ps.map renderAttr)))) acc₀ =
          ((p :: ps).zip vals).foldl
            (fun a pv => addAttr onAttr a pv.1.1 pv.2) acc₀ ∧
          ∀ pv ∈ (p :: ps).zip vals, (∀ c ∈ pv.1.2, normWs c = c) → pv.2 = pv.1.2 := by
      intro norm2 acc₀
      rw [parseAttrGo_base_chunk onAttr ntail hntail norm2 [c₀] _ acc₀]
      rw [show [c₀] ++ ntail = p.1 from by rw [hn, List.singleton_append]]
      by_cases hv : p.2 = []
      · -- bare attribute
        rw [if_pos hv]
        by_cases hps : ps = []
        · rw [if_pos hps, List.nil_append]
          refine ⟨[[]], by simp [hps], ?_, ?_⟩
          · show addAttr onAttr acc₀ p.1 [] = _
            subst hps
            rfl
          · intro pv hpv _
            simp at hpv
            simp [hpv, hv]
        · rw [if_neg hps, List.nil_append]
          have hsep : parseAttrGo onAttr norm2 (.base p.1)
              (' ' :: joinSpace (ps.map renderAttr)) acc₀ =
              parseAttrGo onAttr true (.wsName p.1)
                (joinSpace (ps.map renderAttr)) acc₀ := by
            have he : parseAttrGo onAttr norm2 (.base p.1)
                (' ' :: joinSpace (ps.map renderAttr)) acc₀ =
                if (if norm2 then normWs ' ' else ' ') = '=' then
                  parseAttrGo onAttr norm2 (.val p.1 [] true)
                    (joinSpace (ps.map renderAttr)) acc₀
                else if isSpaceJS (if norm2 then normWs ' ' else ' ') then
                  parseAttrGo onAttr true (.wsName p.1)
                    (joinSpace (ps.map renderAttr)) acc₀
                else parseAttrGo onAttr norm2
                  (.base (p.1 ++ [if norm2 then normWs ' ' else ' ']))
                  (joinSpace (ps.map renderAttr)) acc₀ := rfl
            have hread : (if norm2 then normWs ' ' else ' ') = ' ' := by
              cases norm2 <;> rfl
            rw [he, hread, if_neg (by decide), if_pos (by decide)]
          rw [hsep]
          obtain ⟨vals2, hlen2, heq2, hprop2⟩ :=
            ih (fun x hx => hgood x (by simp [hx])) (some p.1) true acc₀
          refine ⟨[] :: vals2, by simpa using hlen2, ?_, ?_⟩
          · rw [heq2]
            simp
          · intro pv hpv
            rw [List.zip_cons_cons] at hpv
            rcases List.mem_cons.mp hpv with h2 | h2
            · intro _
              rw [h2, hv]
            · exact hprop2 pv h2
      · -- valued attribute
        rw [if_neg hv, List.cons_append, List.cons_append]
        have heqstep : parseAttrGo onAttr norm2 (.base p.1)
            ('=' :: ('"' :: (p.2 ++ ['"'] ++
              (if ps = [] then [] else ' ' :: joinSpace (ps.map renderAttr))))) acc₀ =
            parseAttrGo onAttr norm2 (.val p.1 [] true)
              ('"' :: (p.2 ++ ['"'] ++
                (if ps = [] then [] else ' ' :: joinSpace (ps.map renderAttr)))) acc₀ := by
          have he : parseAttrGo onAttr norm2 (.base p.1)
              ('=' :: ('"' :: (p.2 ++ ['"'] ++
                (if ps = [] then [] else ' ' :: joinSpace (ps.map renderAttr))))) acc₀ =
              if (if norm2 then normWs '=' else '=') = '=' then
                parseAttrGo onAttr norm2 (.val p.1 [] true)
                  ('"' :: (p.2 ++ ['"'] ++
                    (if ps = [] then [] else ' ' :: joinSpace (ps.map renderAttr)))) acc₀
              else if isSpaceJS (if norm2 then normWs '=' else '=') then
                parseAttrGo onAttr true (.wsName p.1) _ acc₀
              else parseAttrGo onAttr norm2
                (.base (p.1 ++ [if norm2 then normWs '=' else '='])) _ acc₀ := rfl
          have hread : (if norm2 then normWs '=' else '=') = '=' := by
            cases norm2 <;> rfl
          rw [he, hread, if_pos rfl]
        rw [heqstep]
        have hquotestep : parseAttrGo onAttr norm2 (.val p.1 [] true)
            ('"' :: (p.2 ++ ['"'] ++
              (if ps = [] then [] else ' ' :: joinSpace (ps.map renderAttr)))) acc₀ =
            parseAttrGo onAttr norm2 (.inQ p.1 [] '"' [])
              (p.2 ++ ['"'] ++
                (if ps = [] then [] else ' ' :: joinSpace (ps.map renderAttr))) acc₀ := by
          have he : parseAttrGo onAttr norm2 (.val p.1 [] true)
              ('"' :: (p.2 ++ ['"'] ++
                (if ps = [] then [] else ' ' :: joinSpace (ps.map renderAttr)))) acc₀ =
              if ((if norm2 then normWs '"' else '"') = '"' ||
                  (if norm2 then normWs '"' else '"') = '\'') then
                parseAttrGo onAttr norm2
                  (.inQ p.1 [] (if norm2 then normWs '"' else '"') [])
                  (p.2 ++ ['"'] ++
                    (if ps = [] then [] else ' ' :: joinSpace (ps.map renderAttr))) acc₀
              else if isSpaceJS (if norm2 then normWs '"' else '"') then
                (if true then parseAttrGo onAttr true (.val p.1 ([] ++ [' ']) true) _ acc₀
                 else parseAttrGo onAttr true (.base []) _
                  (addAttr onAttr acc₀ p.1 (stripQuoteWrap (trimJS []))))
              else parseAttrGo onAttr norm2
                (.val p.1 ([] ++ [if norm2 then normWs '"' else '"']) false) _ acc₀ := rfl
          have hread : (if norm2 then normWs '"' else '"') = '"' := by
            cases norm2 <;> rfl
          rw [he, hread, if_pos (by simp)]
        rw [hquotestep, List.append_assoc, List.cons_append, List.nil_append]
        rw [parseAttrGo_inQ_chunk onAttr (by decide) p.2 (fun c hc he2 => hvq (by rw [← he2]; exact hc))
          norm2 p.1 [] [] _ acc₀]
        have hclose : parseAttrGo onAttr norm2
            (.inQ p.1 [] '"'
              ((p.2.map (fun c => if norm2 then normWs c else c)).reverse ++ []))
            ('"' :: (if ps = [] then [] else ' ' :: joinSpace (ps.map renderAttr))) acc₀ =
            parseAttrGo onAttr norm2 (.base [])
              (if ps = [] then [] else ' ' :: joinSpace (ps.map renderAttr))
              (addAttr onAttr acc₀ p.1
                (trimJS (p.2.map (fun c => if norm2 then normWs c else c)))) := by
          have he : parseAttrGo onAttr norm2
              (.inQ p.1 [] '"'
                ((p.2.map (fun c => if norm2 then normWs c else c)).reverse ++ []))
              ('"' :: (if ps = [] then [] else ' ' :: joinSpace (ps.map renderAttr))) acc₀ =
              if (if norm2 then normWs '"' else '"') = '"' then
                parseAttrGo onAttr norm2 (.base [])
                  (if ps = [] then [] else ' ' :: joinSpace (ps.map renderAttr))
                  (addAttr onAttr acc₀ p.1
                    (trimJS ((p.2.map (fun c => if norm2 then normWs c else c)).reverse ++
                      []).reverse))
              else parseAttrGo onAttr norm2
                (.inQ p.1 [] '"'
                  ((if norm2 then normWs '"' else '"') ::
                    ((p.2.map (fun c => if norm2 then normWs c else c)).reverse ++ [])))
                (if ps = [] then [] else ' ' :: joinSpace (ps.map renderAttr)) acc₀ := rfl
          have hread : (if norm2 then normWs '"' else '"') = '"' := by
            cases norm2 <;> rfl
          rw [he, hread, if_pos rfl]
          simp
        rw [hclose]
        by_cases hps : ps = []
        · rw [if_pos hps]
          refine ⟨[trimJS (p.2.map (fun c => if norm2 then normWs c else c))],
            by simp [hps], ?_, ?_⟩
          · show addAttr onAttr _ [] [] = _
            rw [addAttr_nil]
            subst hps
            simp
          · intro pv hpv hfix
            simp at hpv
            subst hpv
            simp only at hfix ⊢
            have hmap : p.2.map (fun c => if norm2 then normWs c else c) = p.2 := by
              have hpt : ∀ c ∈ p.2, (if norm2 then normWs c else c) = c := by
                intro c hc
                cases norm2
                · rfl
                · simpa using hfix c hc
              calc p.2.map (fun c => if norm2 then normWs c else c)
                  = p.2.map id := List.map_congr_left hpt
                _ = p.2 := List.map_id p.2
            rw [hmap, hvt]
        · rw [if_neg hps]
          have hsep : parseAttrGo onAttr norm2 (.base [])
              (' ' :: joinSpace (ps.map renderAttr))
              (addAttr onAttr acc₀ p.1
                (trimJS (p.2.map (fun c => if norm2 then normWs c else c)))) =
              parseAttrGo onAttr true (.wsName [])
                (joinSpace (ps.map renderAttr))
                (addAttr onAttr acc₀ p.1
                  (trimJS (p.2.map (fun c => if norm2 then normWs c else c)))) := by
            have he : parseAttrGo onAttr norm2 (.base [])
                (' ' :: joinSpace (ps.map renderAttr))
                (addAttr onAttr acc₀ p.1
                  (trimJS (p.2.map (fun c => if norm2 then normWs c else c)))) =
                if (if norm2 then normWs ' ' else ' ') = '=' then
                  parseAttrGo onAttr norm2 (.val [] [] true)
                    (joinSpace (ps.map renderAttr)) _
                else if isSpaceJS (if norm2 then normWs ' ' else ' ') then
                  parseAttrGo onAttr true (.wsName [])
                    (joinSpace (ps.map renderAttr))
                    (addAttr onAttr acc₀ p.1
                      (trimJS (p.2.map (fun c => if norm2 then normWs c else c))))
                else parseAttrGo onAttr norm2
                  (.base ([] ++ [if norm2 then normWs ' ' else ' '])) _ _ := rfl
            have hread : (if norm2 then normWs ' ' else ' ') = ' ' := by
              cases norm2 <;> rfl
            rw [he, hread, if_neg (by decide), if_pos (by decide)]
          rw [hsep]
          obtain ⟨vals2, hlen2, heq2, hprop2⟩ :=
            ih (fun x hx => hgood x (by simp [hx])) (some []) true
              (addAttr onAttr acc₀ p.1
                (trimJS (p.2.map (fun c => if norm2 then normWs c else c))))
          refine ⟨trimJS (p.2.map (fun c => if norm2 then normWs c else c)) :: vals2,
            by simpa using hlen2, ?_, ?_⟩
          · rw [heq2]
            simp [addAttr_nil]
          · intro pv hpv
            rw [List.zip_cons_cons] at hpv
            rcases List.mem_cons.mp hpv with h2 | h2
            · intro hfix
              rw [h2]
              rw [h2] at hfix
              simp only at hfix ⊢
              have hmap : p.2.map (fun c => if norm2 then normWs c else c) = p.2 := by
                have : ∀ c ∈ p.2, (if norm2 then normWs c else c) = c := by
                  intro c hc
                  cases norm2
                  · rfl
                  · simpa using hfix c hc
                calc p.2.map (fun c => if norm2 then normWs c else c)
                    = p.2.map id := List.map_congr_left this
                  _ = p.2 := List.map_id p.2
              rw [hmap, hvt]
            · exact hprop2 pv h2
    -- dispatch the entry step into the common walk
    have hjs : joinSpace ((p :: ps).map renderAttr) =
        c₀ :: (ntail ++ ((if p.2 = [] then [] else '=' :: '"' :: (p.2 ++ ['"'])) ++
          (if ps = [] then [] else ' ' :: joinSpace (ps.map renderAttr)))) := by
      rw [List.map_cons, joinSpace_cons]
      have hra : renderAttr p = c₀ :: (ntail ++
          (if p.2 = [] then [] else '=' :: '"' :: (p.2 ++ ['"']))) := by
        unfold renderAttr
        split
        · rw [hn]
          simp
        · rw [hn]
          simp
      rw [hra]
      by_cases hps : ps = []
      · rw [if_pos hps, if_pos (show ps.map renderAttr = [] from by simp [hps])]
        simp
      · rw [if_neg (show ¬(ps.map renderAttr = []) from by simpa using hps),
          if_neg hps]
        simp
    rw [hjs]
    cases entry with
    | none =>
      have hfirst : parseAttrGo onAttr norm (.base [])
          (c₀ :: (ntail ++ ((if p.2 = [] then [] else '=' :: '"' :: (p.2 ++ ['"'])) ++
            (if ps = [] then [] else ' ' :: joinSpace (ps.map renderAttr))))) acc =
          parseAttrGo onAttr norm (.base [c₀])
            (ntail ++ ((if p.2 = [] then [] else '=' :: '"' :: (p.2 ++ ['"'])) ++
              (if ps = [] then [] else ' ' :: joinSpace (ps.map renderAttr)))) acc := by
        have he : parseAttrGo onAttr norm (.base [])
            (c₀ :: (ntail ++ ((if p.2 = [] then [] else '=' :: '"' :: (p.2 ++ ['"'])) ++
              (if ps = [] then [] else ' ' :: joinSpace (ps.map renderAttr))))) acc =
            if (if norm then normWs c₀ else c₀) = '=' then
              parseAttrGo onAttr norm (.val [] [] true) _ acc
            else if isSpaceJS (if norm then normWs c₀ else c₀) then
              parseAttrGo onAttr true (.wsName []) _ acc
            else parseAttrGo onAttr norm
              (.base ([] ++ [if norm then normWs c₀ else c₀]))
              (ntail ++ ((if p.2 = [] then [] else '=' :: '"' :: (p.2 ++ ['"'])) ++
                (if ps = [] then [] else ' ' :: joinSpace (ps.map renderAttr)))) acc := rfl
        have hread : (if norm then normWs c₀ else c₀) = c₀ := by
          cases norm
          · rfl
          · simp [normWs_of_not_space hc₀ns]
        rw [he, hread, if_neg hc₀ne, if_neg (by simp [hc₀ns]), List.nil_append]
      obtain ⟨vals, hlen, heq, hprop⟩ := key norm acc
      refine ⟨vals, hlen, ?_, hprop⟩
      rw [hfirst, heq]
    | some cr =>
      have hfirst : parseAttrGo onAttr norm (.wsName cr)
          (c₀ :: (ntail ++ ((if p.2 = [] then [] else '=' :: '"' :: (p.2 ++ ['"'])) ++
            (if ps = [] then [] else ' ' :: joinSpace (ps.map renderAttr))))) acc =
          parseAttrGo onAttr true (.base [c₀])
            (ntail ++ ((if p.2 = [] then [] else '=' :: '"' :: (p.2 ++ ['"'])) ++
              (if ps = [] then [] else ' ' :: joinSpace (ps.map renderAttr))))
            (addAttr onAttr acc cr []) := by
        have he : parseAttrGo onAttr norm (.wsName cr)
            (c₀ :: (ntail ++ ((if p.2 = [] then [] else '=' :: '"' :: (p.2 ++ ['"'])) ++
              (if ps = [] then [] else ' ' :: joinSpace (ps.map renderAttr))))) acc =
            if (if norm then normWs c₀ else c₀) = '=' then
              parseAttrGo onAttr true (.val cr [] true) _ acc
            else if isSpaceJS (if norm then normWs c₀ else c₀) then
              parseAttrGo onAttr true (.wsName cr) _ acc
            else parseAttrGo onAttr true
              (.base [if norm then normWs c₀ else c₀])
              (ntail ++ ((if p.2 = [] then [] else '=' :: '"' :: (p.2 ++ ['"'])) ++
                (if ps = [] then [] else ' ' :: joinSpace (ps.map renderAttr))))
              (addAttr onAttr acc cr []) := rfl
        have hread : (if norm then normWs c₀ else c₀) = c₀ := by
          cases norm
          · rfl
          · simp [normWs_of_not_space hc₀ns]
        rw [he, hread, if_neg hc₀ne, if_neg (by simp [hc₀ns])]
      obtain ⟨vals, hlen, heq, hprop⟩ := key true (addAttr onAttr acc cr [])
      refine ⟨vals, hlen, ?_, hprop⟩
      rw [hfirst, heq]

theorem mem_foldl_addAttr_collect :
    ∀ (zs : List ((List Char × List Char) × List Char)),
      (∀ pv ∈ zs, AttrNameOk pv.1.1) →
      ∀ (acc : List (List Char × List Char)) (q : List Char × List Char),
        q ∈ zs.foldl (fun a pv =>
          addAttr (fun n v => some (n, v)) a pv.1.1 pv.2) acc →
        q ∈ acc ∨ ∃ pv ∈ zs, q = (pv.1.1, pv.2) := by
  intro zs
  induction zs with
  | nil => intro _ acc q hq; exact Or.inl (by simpa using hq)
  | cons z r ih =>
    intro hn acc q hq
    rw [List.foldl_cons] at hq
    have hstep : addAttr (fun n v => some (n, v)) acc z.1.1 z.2 =
        acc ++ [(z.1.1, z.2)] := by
      unfold addAttr
      rw [addAttr_name_id (hn z (by simp)), if_neg (hn z (by simp)).1]
    rw [hstep] at hq
    rcases ih (fun pv hpv => hn pv (by simp [hpv])) _ q hq with h | ⟨pv, hpv, he⟩
    · rcases List.mem_append.mp h with h2 | h2
      · exact Or.inl h2
      · simp at h2
        exact Or.inr ⟨z, by simp, h2⟩
    · exact Or.inr ⟨pv, by simp [hpv], he⟩

theorem attr_names_roundtrip {V : List Char → Prop} {wl : List (List Char)}
    {pairs : List (List Char × List Char)}
    (hgood : ∀ p ∈ pairs, GoodPair V wl p) :
    ∀ q ∈ parseAttrCore (fun n v => some (n, v))
      (joinSpace (pairs.map renderAttr)), q.1 ∈ wl := by
  obtain ⟨vals, hlen, heq, hprop⟩ :=
    parseAttrGo_master (fun n v => some (n, v)) pairs
      (fun p hp => ⟨(hgood p hp).2.1,
        fun hq => ((hgood p hp).2.2.1 '"' hq).1 rfl, (hgood p hp).2.2.2.1⟩)
      none false []
  intro q hq
  unfold parseAttrCore at hq
  rw [heq] at hq
  rcases mem_foldl_addAttr_collect (pairs.zip vals)
    (fun pv hpv => (hgood pv.1 (List.of_mem_zip hpv).1).2.1) [] q hq with
    h | ⟨pv, hpv, he⟩
  · simp at h
  · rw [he]
    exact (hgood pv.1 (List.of_mem_zip hpv).1).1

/-- Re-scanning the rendered pieces yields exactly the token list `toksOf`. -/
theorem tokenize_renders {V : List Char → Prop} :
    ∀ (ps : List Piece), (∀ p ∈ ps, GoodPiece V p) →
      ∀ tAcc : List Char,
        scan tAcc none ((ps.map renderPiece).flatten) = toksOf tAcc ps := by
  intro ps
  induction ps with
  | nil => intro _ tAcc; rfl
  | cons p rest ih =>
    intro hgood tAcc
    cases p with
    | rawTxt s =>
      rw [List.map_cons, List.flatten_cons,
        show renderPiece (Piece.rawTxt s) = escHtml s from rfl]
      rw [scan_txt_chunk _ (fun hc => (escHtml_no_ltgt hc).1 rfl) tAcc _]
      exact ih (fun q hq => hgood q (by simp [hq])) (tAcc ++ escHtml s)
    | stripOpen =>
      rw [List.map_cons, List.flatten_cons]
      rw [scan_txt_chunk _ (by decide) tAcc _]
      exact ih (fun q hq => hgood q (by simp [hq])) _
    | stripClose =>
      rw [List.map_cons, List.flatten_cons]
      rw [scan_txt_chunk _ (by decide) tAcc _]
      exact ih (fun q hq => hgood q (by simp [hq])) _
    | dropTag =>
      rw [List.map_cons, List.flatten_cons]
      show scan tAcc none ([] ++ (rest.map renderPiece).flatten) = toksOf (tAcc ++ []) rest
      rw [List.nil_append, List.append_nil]
      exact ih (fun q hq => hgood q (by simp [hq])) tAcc
    | keepTag cl name ah selfCl =>
      rw [List.map_cons, List.flatten_cons]
      rw [scan_keepTag (hgood _ (by simp)) tAcc _]
      show _ = emitTxt tAcc (Tok.tag (renderPiece (.keepTag cl name ah selfCl)) ::
        toksOf [] rest)
      rw [ih (fun q hq => hgood q (by simp [hq])) []]

theorem tokenize_renders2 {V : List Char → Prop} (ps : List Piece)
    (h : ∀ p ∈ ps, GoodPiece V p) :
    tokenize ((ps.map renderPiece).flatten) = toksOf [] ps :=
  tokenize_renders ps h []

/-- Every tag token among the re-scanned tokens is the rendering of one of the
kept-tag pieces. -/
theorem tag_mem_toksOf :
    ∀ (ps : List Piece) (tAcc raw : List Char),
      Tok.tag raw ∈ toksOf tAcc ps →
      ∃ cl name ah selfCl, Piece.keepTag cl name ah selfCl ∈ ps ∧
        raw = renderPiece (.keepTag cl name ah selfCl) := by
  intro ps
  induction ps with
  | nil =>
    intro tAcc raw h
    rcases mem_emitTxt (show Tok.tag raw ∈ emitTxt tAcc [] from h) with h2 | h2
    · simp at h2
    · simp at h2
  | cons p rest ih =>
    intro tAcc raw h
    cases p with
    | rawTxt s =>
      obtain ⟨cl, name, ah, sc, hmem, he⟩ := ih _ raw h
      exact ⟨cl, name, ah, sc, by simp [hmem], he⟩
    | stripOpen =>
      obtain ⟨cl, name, ah, sc, hmem, he⟩ := ih _ raw h
      exact ⟨cl, name, ah, sc, by simp [hmem], he⟩
    | stripClose =>
      obtain ⟨cl, name, ah, sc, hmem, he⟩ := ih _ raw h
      exact ⟨cl, name, ah, sc, by simp [hmem], he⟩
    | dropTag =>
      obtain ⟨cl, name, ah, sc, hmem, he⟩ := ih _ raw h
      exact ⟨cl, name, ah, sc, by simp [hmem], he⟩
    | keepTag cl name ah selfCl =>
      rcases mem_emitTxt
        (show Tok.tag raw ∈ emitTxt tAcc (Tok.tag (renderPiece
          (.keepTag cl name ah selfCl)) :: toksOf [] rest) from h) with h2 | h2
      · simp at h2
      · rcases List.mem_cons.mp h2 with h3 | h3
        · injection h3 with h3
          exact ⟨cl, name, ah, selfCl, by simp, h3⟩
        · obtain ⟨cl2, name2, ah2, sc2, hmem, he⟩ := ih _ raw h3
          exact ⟨cl2, name2, ah2, sc2, by simp [hmem], he⟩

/-- C5: for every input, every tag that survives in the sanitizer's output —
when the output is re-parsed by the same tokenizer — carries an allow-listed
element name (in particular none of the strip-list elements script, iframe,
object, embed survives, whose bodies are removed with them), and every
attribute pair the attribute parser extracts from such a tag has a name
inside that element's allow-list; moreover Scenario C's markup sanitizes
exactly to `<svg><rect width="1" height="1" /></svg>`, which contains
`<rect` and no occurrence of `<script`. -/
theorem C5_sanitizer_reparse_safety :
    (∀ (s raw : List Char), Tok.tag raw ∈ tokenize (xssSanitize s) →
      (whiteListAttrs (getTagName raw)).isSome = true ∧
      getTagName raw ∉ stripBodyTags ∧
      ∀ wl, whiteListAttrs (getTagName raw) = some wl →
        ∀ q ∈ attrPairsOf raw, q.1 ∈ wl) ∧
    xssSanitize svgScenarioC = svgScenarioCOut ∧
    containsL (s2l "<rect") (xssSanitize svgScenarioC) = true ∧
    containsL (s2l "<script") (xssSanitize svgScenarioC) = false := by
  refine ⟨?_, by decide, by decide, by decide⟩
  intro s raw htag
  have hgood : ∀ p ∈ stripFilter ((tokenize (stripCommentTag s)).map processTok),
      GoodPiece (fun _ => True) p :=
    pieces_good (fun _ _ => trivial) ⟨trivial, trivial, trivial⟩
      (fun _ _ => trivial) s (fun _ _ => trivial)
  rw [show xssSanitize s = (((stripFilter ((tokenize (stripCommentTag s)).map
      processTok)).map renderPiece)).flatten from rfl,
    tokenize_renders2 _ hgood] at htag
  obtain ⟨cl, name, ah, sc, hmem, hraw⟩ := tag_mem_toksOf _ [] raw htag
  have hpg : GoodPiece (fun _ => True) (.keepTag cl name ah sc) := hgood _ hmem
  obtain ⟨wl, pairs, hwl, hah2, hpairs⟩ := hpg
  have hpg2 : GoodPiece (fun _ => True) (.keepTag cl name ah sc) :=
    ⟨wl, pairs, hwl, hah2, hpairs⟩
  subst hraw
  rw [getTagName_keepTag hpg2]
  refine ⟨by rw [hwl]; rfl, (tagNameFacts hwl).2.2, ?_⟩
  intro wl2 hwl2
  rw [hwl] at hwl2
  injection hwl2 with hwl2
  subst hwl2
  intro q hq
  unfold attrPairsOf at hq
  rw [getAttrs_keepTag hpg2] at hq
  simp only at hq
  rw [hah2] at hq
  exact attr_names_roundtrip hpairs q hq

theorem C5_sanitizer_reparse_safety_witness :
    (whiteListAttrs (getTagName (s2l "<svg>"))).isSome = true ∧
    getTagName (s2l "<svg>") ∉ stripBodyTags ∧
    ∀ wl, whiteListAttrs (getTagName (s2l "<svg>")) = some wl →
      ∀ q ∈ attrPairsOf (s2l "<svg>"), q.1 ∈ wl :=
  C5_sanitizer_reparse_safety.1 svgScenarioC (s2l "<svg>") (by decide)

end BadServer
